import Mathlib

/-!
Verification development for the airline-network shortest-path repository.

The core under scrutiny is src/algorithms/johnson.py (Johnson's all-pairs
shortest-path algorithm over a networkx-style directed graph) and
src/algorithms/graph_builder.py (graph construction).  The embedding below
mirrors the Python code over exact rationals: Python floats become rationals,
networkx dictionaries become association lists looked up by first occurrence,
and Python exceptions become explicit error values in Except / Option.
Library calls (networkx Bellman-Ford, Dijkstra, metrics helpers) are modelled
by their documented semantics with executable Lean functions.
-/

namespace AirlineNet

/-- Association-list lookup, first occurrence wins (models a Python dict read:
for dictionaries built without key duplication the list has unique keys). -/
def lookupK {κ α : Type} [DecidableEq κ] : List (κ × α) → κ → Option α
  | [], _ => none
  | (k, a) :: r, s => if k = s then some a else lookupK r s

/-- Lookup keyed by a vertex code. -/
def lookupS {α : Type} (l : List (String × α)) (x : String) : Option α :=
  lookupK l x

/-- Lookup of an edge attribute keyed by an ordered vertex pair. -/
def lookupE {α : Type} (es : List ((String × String) × α)) (u v : String) :
    Option α :=
  lookupK es (u, v)

/-- Insert a key into a bare vertex list unless already present (the node
side of networkx add_node / add_edge). -/
def insNode (l : List String) (v : String) : List String :=
  if v ∈ l then l else l ++ [v]

/-- Set a key's value in an association list, overwriting in place when the
key exists and appending otherwise (a Python dict write). -/
def upsertK {κ α : Type} [DecidableEq κ] (l : List (κ × α)) (c : κ) (a : α) :
    List (κ × α) :=
  if (lookupK l c).isSome then
    l.map (fun p => if p.1 = c then (c, a) else p)
  else l ++ [(c, a)]

/-- Set a vertex key's value. -/
def upsertS {α : Type} (ns : List (String × α)) (c : String) (a : α) :
    List (String × α) :=
  upsertK ns c a

/-- Set an edge key's value, overwriting in place when the directed pair
already has an edge and appending otherwise. -/
def upsertE {α : Type} (es : List ((String × String) × α)) (u v : String) (a : α) :
    List ((String × String) × α) :=
  upsertK es (u, v) a

/-- Rewrite the value stored at one key, leaving absent keys absent (a Python
write to an attribute of an existing edge). -/
def mapAtK {κ α : Type} [DecidableEq κ] (l : List (κ × α)) (c : κ) (f : α → α) :
    List (κ × α) :=
  l.map (fun p => if p.1 = c then (p.1, f p.2) else p)

/-- Rewrite the value stored at one edge key. -/
def mapAtE {α : Type} (es : List ((String × String) × α)) (u v : String)
    (f : α → α) : List ((String × String) × α) :=
  mapAtK es (u, v) f

/-- Directed weighted graph: vertex list in insertion order plus an edge
association list keyed by ordered vertex pairs, as in a networkx DiGraph
restricted to the weight attribute (the only attribute johnson_algorithm
reads). -/
structure DiGraph where
  nodes : List String
  edges : List ((String × String) × ℚ)
deriving DecidableEq

/-- Model of networkx add_node: appends the vertex unless already present. -/
def addNode (G : DiGraph) (v : String) : DiGraph :=
  ⟨insNode G.nodes v, G.edges⟩

/-- Model of networkx DiGraph.add_edge: inserts missing endpoints as nodes
(source first) and sets the weight, overwriting the attribute when the
directed pair already has an edge. -/
def addEdge (G : DiGraph) (u v : String) (w : ℚ) : DiGraph :=
  ⟨insNode (insNode G.nodes u) v, upsertE G.edges u v w⟩

/-- Representation invariant every networkx graph satisfies: vertex list and
edge-key list are duplicate free and every edge endpoint is a vertex. -/
def DiGraph.WF (G : DiGraph) : Prop :=
  G.nodes.Nodup ∧ (G.edges.map Prod.fst).Nodup ∧
    ∀ e ∈ G.edges, e.1.1 ∈ G.nodes ∧ e.1.2 ∈ G.nodes

instance (G : DiGraph) : Decidable G.WF := by
  unfold DiGraph.WF
  infer_instance

/-! ### Bellman-Ford

Models nx.single_source_bellman_ford_path_length by textbook Bellman-Ford:
start with distance 0 at the source, run one relaxation round per remaining
vertex, and report a negative cycle exactly when one further relaxation would
still improve some distance (the condition under which networkx raises
NetworkXUnbounded).  An absent key means an infinite tentative distance. -/

/-- One edge relaxation on a distance table. -/
def relaxEdge (d : List (String × ℚ)) (e : (String × String) × ℚ) :
    List (String × ℚ) :=
  match lookupS d e.1.1 with
  | none => d
  | some du =>
    match lookupS d e.1.2 with
    | none => d ++ [(e.1.2, du + e.2)]
    | some dv =>
      if du + e.2 < dv then mapAtK d e.1.2 (fun _ => du + e.2) else d

/-- One full relaxation round over all edges. -/
def bfRound (es : List ((String × String) × ℚ)) (d : List (String × ℚ)) :
    List (String × ℚ) :=
  es.foldl relaxEdge d

/-- Iterated relaxation rounds. -/
def bfIter (es : List ((String × String) × ℚ)) (d : List (String × ℚ)) :
    ℕ → List (String × ℚ)
  | 0 => d
  | k + 1 => bfIter es (bfRound es d) k

/-- Decides whether one more relaxation of this edge would improve the table. -/
def relaxableB (d : List (String × ℚ)) (e : (String × String) × ℚ) : Bool :=
  match lookupS d e.1.1 with
  | none => false
  | some du =>
    match lookupS d e.1.2 with
    | none => true
    | some dv => decide (du + e.2 < dv)

/-- Single-source Bellman-Ford distances; none signals a negative cycle
reachable from the source (networkx NetworkXUnbounded). -/
def bellman_ford (G : DiGraph) (s : String) : Option (List (String × ℚ)) :=
  let d := bfIter G.edges [(s, 0)] (G.nodes.length - 1)
  if G.edges.any (relaxableB d) then none else some d

/-! ### Dijkstra

Models nx.single_source_dijkstra: settled entries carry the final distance
and the path (vertex sequence from the source, inclusive).  The frontier is
an association list with unique keys; each iteration extracts the entry of
minimal tentative distance (earliest insertion wins ties), settles it and
relaxes its outgoing edges.  An edge into a target that is already settled
must not offer a strictly smaller distance: in that situation networkx
raises ValueError (Contradictory paths found: negative weights?), modelled
as a none result; an edge into an unsettled target is offered to the
frontier.  The fuel bound exceeds the largest possible number of settled
vertices, so the loop always drains the frontier; it depends only on the
edge list, never on a node list.  dLoop/relaxAll compute the evolution of
the settled list ignoring the error check and dLoopE/relaxAllE wrap them
with it; on every run that does not raise, the two agree. -/

/-- Extract a frontier entry of minimal tentative distance (first such). -/
def extractMin : List (String × ℚ × List String) →
    Option ((String × ℚ × List String) × List (String × ℚ × List String))
  | [] => none
  | x :: xs =>
    match extractMin xs with
    | none => some (x, [])
    | some (m, rest) =>
      if x.2.1 ≤ m.2.1 then some (x, xs) else some (m, x :: rest)

/-- Offer a tentative distance and path for a vertex: insert it when new,
replace when strictly better, otherwise keep the existing entry. -/
def pushF (fr : List (String × ℚ × List String)) (v : String) (nd : ℚ)
    (np : List String) : List (String × ℚ × List String) :=
  match lookupS fr v with
  | none => fr ++ [(v, nd, np)]
  | some x =>
    if nd < x.1 then mapAtK fr v (fun _ => (nd, np)) else fr

/-- Relax every edge leaving the just-settled vertex u into the frontier,
skipping targets that are already settled. -/
def relaxAll (es : List ((String × String) × ℚ)) (u : String) (du : ℚ)
    (pu : List String) (settled fr : List (String × ℚ × List String)) :
    List (String × ℚ × List String) :=
  es.foldl
    (fun f e =>
      if e.1.1 = u ∧ (lookupS settled e.1.2).isNone then
        pushF f e.1.2 (du + e.2) (pu ++ [e.1.2])
      else f)
    fr

/-- Main Dijkstra loop: returns the settled list in settle order. -/
def dLoop (es : List ((String × String) × ℚ)) :
    ℕ → List (String × ℚ × List String) → List (String × ℚ × List String) →
    List (String × ℚ × List String)
  | 0, s, _ => s
  | n + 1, s, fr =>
    match extractMin fr with
    | none => s
    | some (x, rest) =>
      dLoop es n (s ++ [x]) (relaxAll es x.1 x.2.1 x.2.2 (s ++ [x]) rest)

/-- The settled list a non-raising run of single-source Dijkstra produces:
(vertex, distance, path) entries for exactly the vertices reachable from
src. -/
def dijkstraRun (es : List ((String × String) × ℚ)) (src : String) :
    List (String × ℚ × List String) :=
  dLoop es (es.length + 2) [] [(src, 0, [src])]

/-- One relaxation step of the networkx inner loop, error check included: an
edge leaving the just-settled vertex whose target is already settled raises
ValueError when it would still improve the settled distance, and is skipped
otherwise; an edge into an unsettled target is offered to the frontier. -/
def dStepE (u : String) (du : ℚ) (pu : List String)
    (settled : List (String × ℚ × List String))
    (f : List (String × ℚ × List String)) (e : (String × String) × ℚ) :
    Option (List (String × ℚ × List String)) :=
  if e.1.1 = u then
    match lookupS settled e.1.2 with
    | some x => if du + e.2 < x.1 then none else some f
    | none => some (pushF f e.1.2 (du + e.2) (pu ++ [e.1.2]))
  else some f

/-- Relax every edge leaving the just-settled vertex, with the
contradictory-paths check of networkx. -/
def relaxAllE (es : List ((String × String) × ℚ)) (u : String) (du : ℚ)
    (pu : List String) (settled fr : List (String × ℚ × List String)) :
    Option (List (String × ℚ × List String)) :=
  es.foldlM (dStepE u du pu settled) fr

/-- Main Dijkstra loop with the error path: none models the ValueError
networkx raises on contradictory paths. -/
def dLoopE (es : List ((String × String) × ℚ)) :
    ℕ → List (String × ℚ × List String) → List (String × ℚ × List String) →
    Option (List (String × ℚ × List String))
  | 0, s, _ => some s
  | n + 1, s, fr =>
    match extractMin fr with
    | none => some s
    | some (x, rest) => do
      let fr2 ← relaxAllE es x.1 x.2.1 x.2.2 (s ++ [x]) rest
      dLoopE es n (s ++ [x]) fr2

/-- Model of nx.single_source_dijkstra: the settled entries, or none for the
ValueError raised when a negative-weight edge can still improve an
already-settled vertex. -/
def dijkstra (es : List ((String × String) × ℚ)) (src : String) :
    Option (List (String × ℚ × List String)) :=
  dLoopE es (es.length + 2) [] [(src, 0, [src])]

/-- Distance dictionary of a Dijkstra run. -/
def settledD (l : List (String × ℚ × List String)) : List (String × ℚ) :=
  l.map (fun x => (x.1, x.2.1))

/-- Path dictionary of a Dijkstra run. -/
def settledP (l : List (String × ℚ × List String)) : List (String × List String) :=
  l.map (fun x => (x.1, x.2.2))

/-! ### Johnson's algorithm, following johnson.py line by line. -/

/-- Errors the modelled johnson_algorithm can signal: the explicit negative
cycle exception raised at line 43, a Python KeyError from a missing
potential lookup h[u], and the ValueError (Contradictory paths found)
networkx Dijkstra raises on a negative-weight edge into a settled vertex. -/
inductive JErr where
  | negativeCycle
  | keyError
  | valueError
deriving DecidableEq

/-- Reads h[v] as Python does: a missing key is a KeyError. -/
def getH (h : List (String × ℚ)) (v : String) : Except JErr ℚ :=
  match lookupS h v with
  | some x => .ok x
  | none => .error .keyError

/-- Auxiliary graph of johnson_algorithm lines 34-37: copy the input, add a
node named q and a zero-weight edge from q to every original vertex. -/
def buildAux (G : DiGraph) : DiGraph :=
  G.nodes.foldl (fun H v => addEdge H "q" v 0) (addNode G "q")

/-- Reweighting loop of lines 46-50: build a fresh graph whose edge (u,v)
carries w + h[u] - h[v]. -/
def reweightGraph (G : DiGraph) (h : List (String × ℚ)) : Except JErr DiGraph :=
  G.edges.foldlM
    (fun H e => do
      let hu ← getH h e.1.1
      let hv ← getH h e.1.2
      pure (addEdge H e.1.1 e.1.2 (e.2 + hu - hv)))
    (⟨[], []⟩ : DiGraph)

/-- Distance correction loop of lines 61-63: d(u,v) becomes d(u,v) + h[v] - h[u]. -/
def correctD (h : List (String × ℚ)) (ds : List (String × List (String × ℚ))) :
    Except JErr (List (String × List (String × ℚ))) :=
  ds.mapM (fun p => do
    let hu ← getH h p.1
    let l ← p.2.mapM (fun q => do
      let hv ← getH h q.1
      pure (q.1, q.2 + hv - hu))
    pure (p.1, l))

/-- Johnson's algorithm as implemented: Bellman-Ford from the synthetic source
over the auxiliary graph, reweight, per-source Dijkstra over the vertices of
the reweighted graph (a Dijkstra ValueError propagates uncaught, ending the
loop), then correct distances back. -/
def johnson_algorithm (G : DiGraph) :
    Except JErr
      (List (String × List (String × ℚ)) × List (String × List (String × List String))) :=
  match bellman_ford (buildAux G) "q" with
  | none => .error .negativeCycle
  | some h => do
    let Gr ← reweightGraph G h
    let runs ← Gr.nodes.mapM (fun s =>
      match dijkstra Gr.edges s with
      | none => (Except.error JErr.valueError :
          Except JErr (String × List (String × ℚ × List String)))
      | some r => Except.ok (s, r))
    let ds := runs.map (fun r => (r.1, settledD r.2))
    let ps := runs.map (fun r => (r.1, settledP r.2))
    let ds2 ← correctD h ds
    pure (ds2, ps)

/-- Differential oracle of the refinement claim, following the words of the
spec: plain single-source Dijkstra run directly on the original graph from
every vertex, distances only.  On the non-negative graphs the claim ranges
over, the ValueError path of the library is unreachable and the library
returns exactly dijkstraRun (theorem dijkstra_some), so the total
dijkstraRun is the library value here. -/
def dijkstraAllD (G : DiGraph) : List (String × List (String × ℚ)) :=
  G.nodes.map (fun s => (s, settledD (dijkstraRun G.edges s)))

/-- Lookup in a dictionary of dictionaries, as distances[s][t]. -/
def lk2 {α : Type} (m : List (String × List (String × α))) (s t : String) :
    Option α :=
  (lookupS m s).bind (fun l => lookupS l t)

/-! ### Walks, reachability and negative cycles (specification vocabulary). -/

/-- Weighted walk in an edge list, carrying its full vertex sequence
(endpoints inclusive) and total weight. -/
inductive WalkL (es : List ((String × String) × ℚ)) :
    String → String → List String → ℚ → Prop where
  | nil (v : String) : WalkL es v v [v] 0
  | cons {u x t : String} {w c : ℚ} {vs : List String} :
      ((u, x), w) ∈ es → WalkL es x t vs c → WalkL es u t (u :: vs) (w + c)

/-- Vertex t is reachable from s along the edge list. -/
def Reaches (es : List ((String × String) × ℚ)) (s t : String) : Prop :=
  ∃ vs c, WalkL es s t vs c

/-- The graph contains a negative cycle (a closed walk of negative weight;
every negative closed walk contains a negative simple cycle and conversely). -/
def NegCycle (G : DiGraph) : Prop :=
  ∃ v vs c, WalkL G.edges v v vs c ∧ c < 0

/-- Vertex v is an endpoint of at least one edge; exactly these vertices
appear in the reweighted graph johnson_algorithm runs Dijkstra over. -/
def Incident (G : DiGraph) (v : String) : Prop :=
  ∃ e ∈ G.edges, v = e.1.1 ∨ v = e.1.2

instance (G : DiGraph) (v : String) : Decidable (Incident G v) := by
  unfold Incident
  infer_instance

/-- Total weight of a vertex sequence read against an edge list: sum of the
weights of consecutive pairs, none if some pair is not an edge. -/
def pathW (es : List ((String × String) × ℚ)) : List String → Option ℚ
  | [] => none
  | [_] => some 0
  | a :: b :: r =>
    match lookupE es a b, pathW es (b :: r) with
    | some w, some c => some (w + c)
    | _, _ => none

/-! ### Graph builder (graph_builder.py and johnson.py build_airline_network)

Coordinates and distances are exact rationals; the floating-point haversine
computation is abstracted as a function parameter hav where a function needs
it, since no claim depends on the numeric value it returns. -/

/-- One airport row: code plus the attribute columns the builders read. -/
structure AirportRec where
  code : String
  name : String
  city : String
  country : String
  latitude : ℚ
  longitude : ℚ
deriving DecidableEq

/-- Node attributes stored by build_combined_network, including the operator
tag it computes. -/
structure CNodeAttrs where
  name : String
  city : String
  country : String
  latitude : ℚ
  longitude : ℚ
  operator : String
deriving DecidableEq

/-- Model of networkx add_node with attributes: replaces the attribute record
when the code is already present, otherwise appends. -/
def addNodeC (ns : List (String × CNodeAttrs)) (code : String) (a : CNodeAttrs) :
    List (String × CNodeAttrs) :=
  upsertS ns code a

/-- Operator tag computed by build_combined_network lines 42-50. -/
def operatorTag (golCodes azulCodes : List String) (code : String) : String :=
  if code ∈ golCodes ∧ code ∈ azulCodes then "Both"
  else if code ∈ golCodes then "Gol"
  else "Azul"

/-- build_combined_network: adds one node per combined airport record with the
operator tag derived from the two code sets; it adds no edges, so the node
store is the entire result. -/
def build_combined_network (golAirports azulAirports combinedAirports : List AirportRec) :
    List (String × CNodeAttrs) :=
  let golCodes := golAirports.map (fun a => a.code)
  let azulCodes := azulAirports.map (fun a => a.code)
  combinedAirports.foldl
    (fun ns a =>
      addNodeC ns a.code
        ⟨a.name, a.city, a.country, a.latitude, a.longitude,
          operatorTag golCodes azulCodes a.code⟩)
    []

/-- Edge attributes stored by add_bidirectional_route. -/
structure RouteAttrs where
  weight : ℚ
  distance_km : ℚ
  airlines_str : String
deriving DecidableEq

/-- Graph built by the hub-and-spoke routines of graph_builder.py. -/
structure RGraph where
  nodes : List String
  edges : List ((String × String) × RouteAttrs)
deriving DecidableEq

/-- Model of add_edge with route attributes (endpoints inserted as nodes,
attributes overwritten when the directed pair already has an edge). -/
def addEdgeR (G : RGraph) (u v : String) (a : RouteAttrs) : RGraph :=
  ⟨insNode (insNode G.nodes u) v, upsertE G.edges u v a⟩

/-- In-place update of the airlines_str attribute of one directed edge. -/
def setAirlines (G : RGraph) (u v : String) (s : String) : RGraph :=
  ⟨G.nodes, mapAtE G.edges u v (fun a => ⟨a.weight, a.distance_km, s⟩)⟩

/-- Decides whether the first list is a leading segment of the second. -/
def isPrefOf : List Char → List Char → Bool
  | [], _ => true
  | _ :: _, [] => false
  | a :: as, b :: bs => a == b && isPrefOf as bs

/-- Contiguous-substring occurrence test on character lists. -/
def containsSub : List Char → List Char → Bool
  | s, sub =>
    match s with
    | [] => sub.isEmpty
    | _ :: t => isPrefOf sub s || containsSub t sub

/-- Model of the Python substring test used on airline strings: the test
airline not in existing_airlines is substring containment, not set membership. -/
def strIn (sub s : String) : Bool :=
  containsSub s.toList sub.toList

/-- First airport record with the given code, as airports_df row selection. -/
def findRec (airports : List AirportRec) (code : String) : Option AirportRec :=
  airports.find? (fun a => a.code == code)

/-- add_bidirectional_route, graph_builder.py lines 86-106: when both codes
exist in the coordinate table, either merge the airline label into an existing
edge (leaving weight untouched, appending the label only when it is not a
substring of the stored airline string) or create the two directed edges with
the haversine distance as weight. -/
def add_bidirectional_route (hav : ℚ → ℚ → ℚ → ℚ → ℚ) (G : RGraph)
    (a1 a2 : String) (airports : List AirportRec) (airline : String) : RGraph :=
  match findRec airports a1, findRec airports a2 with
  | some c1, some c2 =>
    match lookupE G.edges a1 a2 with
    | some attrs =>
      if strIn airline attrs.airlines_str then G
      else
        let newA :=
          if attrs.airlines_str = "" then airline
          else attrs.airlines_str ++ "," ++ airline
        setAirlines (setAirlines G a1 a2 newA) a2 a1 newA
    | none =>
      let dist := hav c1.latitude c1.longitude c2.latitude c2.longitude
      addEdgeR (addEdgeR G a1 a2 ⟨dist, dist, airline⟩) a2 a1 ⟨dist, dist, airline⟩
  | _, _ => G

/-- One route row consumed by build_airline_network. -/
structure RouteRec where
  origem : String
  destino : String
  distancia_km : ℚ
  companhias : String
deriving DecidableEq

/-- Node attributes stored by build_airline_network (no operator tag). -/
structure BNodeAttrs where
  name : String
  city : String
  country : String
  latitude : ℚ
  longitude : ℚ
deriving DecidableEq

/-- Edge attributes stored by build_airline_network. -/
structure BEdgeAttrs where
  weight : ℚ
  distance : ℚ
  airlines : String
deriving DecidableEq

/-- Graph built by build_airline_network. -/
structure BGraph where
  nodes : List (String × BNodeAttrs)
  edges : List ((String × String) × BEdgeAttrs)
deriving DecidableEq

/-- Model of add_node with attributes for BGraph. -/
def addNodeB (G : BGraph) (code : String) (a : BNodeAttrs) : BGraph :=
  ⟨upsertS G.nodes code a, G.edges⟩

/-- Model of add_edge for BGraph; build_airline_network only calls it after
checking both endpoints are nodes, so no node insertion is modelled. -/
def addEdgeB (G : BGraph) (u v : String) (a : BEdgeAttrs) : BGraph :=
  ⟨G.nodes, upsertE G.edges u v a⟩

/-- build_airline_network, johnson.py lines 67-97: one node per airport row,
then one directed edge per route row whose endpoints are known vertices
(unknown references skipped silently); a repeated directed pair overwrites
the previous attributes because networkx add_edge updates in place. -/
def build_airline_network (airports : List AirportRec) (routes : List RouteRec) :
    BGraph :=
  let G0 := airports.foldl
    (fun G a => addNodeB G a.code ⟨a.name, a.city, a.country, a.latitude, a.longitude⟩)
    ⟨[], []⟩
  routes.foldl
    (fun G r =>
      if (lookupS G.nodes r.origem).isSome ∧ (lookupS G.nodes r.destino).isSome then
        addEdgeB G r.origem r.destino ⟨r.distancia_km, r.distancia_km, r.companhias⟩
      else G)
    G0

/-! ### Network metrics (johnson.py calculate_network_metrics)

The centrality helpers model the corresponding networkx calls over the
unweighted directed graph; they are total and never raise, so the error
behaviour of the metrics function is decided by the weak-connectivity call
(which rejects the null graph) and the average-degree division. -/

/-- Errors relevant to the metrics routine: the networkx exception raised by
is_weakly_connected on a graph with no vertices, the Python ZeroDivisionError
the average-degree line would raise, and the EmptyGraphError postulated by
the specification, which no code path produces. -/
inductive MErr where
  | pointlessConcept
  | zeroDivisionError
  | emptyGraphError
deriving DecidableEq

/-- Number of edges leaving v. -/
def outDeg (G : DiGraph) (v : String) : ℕ :=
  (G.edges.filter (fun e => e.1.1 == v)).length

/-- Number of edges entering v. -/
def inDeg (G : DiGraph) (v : String) : ℕ :=
  (G.edges.filter (fun e => e.1.2 == v)).length

/-- Sum over all vertices of the networkx degree (in-degree plus out-degree). -/
def degreeSum (G : DiGraph) : ℕ :=
  (G.nodes.map (fun v => outDeg G v + inDeg G v)).sum

/-- Model of nx.density on a directed graph: edges / (n (n-1)), zero when
there are no edges or at most one vertex. -/
def densityQ (G : DiGraph) : ℚ :=
  if G.edges.length = 0 ∨ G.nodes.length ≤ 1 then 0
  else (G.edges.length : ℚ) / ((G.nodes.length : ℚ) * ((G.nodes.length : ℚ) - 1))

/-- Function iteration helper. -/
def iterN {α : Type} (f : α → α) : ℕ → α → α
  | 0, a => a
  | k + 1, a => iterN f k (f a)

/-- Vertices adjacent in the underlying undirected graph to the current set. -/
def undirStep (G : DiGraph) (cur : List String) : List String :=
  G.nodes.filter (fun v =>
    cur.contains v ||
      G.edges.any (fun e =>
        (cur.contains e.1.1 && e.1.2 == v) || (cur.contains e.1.2 && e.1.1 == v)))

/-- Model of nx.is_weakly_connected for a nonempty graph: every vertex lies in
the undirected closure of the first vertex.  The caller guards the null graph. -/
def weakly_connected (G : DiGraph) : Bool :=
  match G.nodes with
  | [] => true
  | h :: _ =>
    G.nodes.all (fun v => (iterN (undirStep G) G.nodes.length [h]).contains v)

/-- Model of nx.degree_centrality: degree divided by n - 1, with the library
special case for graphs of at most one vertex. -/
def degree_centrality (G : DiGraph) : List (String × ℚ) :=
  if G.nodes.length ≤ 1 then G.nodes.map (fun v => (v, 1))
  else G.nodes.map (fun v =>
    (v, ((outDeg G v + inDeg G v : ℕ) : ℚ) / ((G.nodes.length : ℚ) - 1)))

/-- Number of directed walks of the exact given length between two vertices. -/
def walkCnt (es : List ((String × String) × ℚ)) : ℕ → String → String → ℕ
  | 0, s, t => if s = t then 1 else 0
  | d + 1, s, t =>
    ((es.filter (fun e => e.1.1 == s)).map (fun e => walkCnt es d e.1.2 t)).sum

/-- Unweighted shortest-path distance: the least length with a connecting
walk, searching up to the given bound. -/
def bfsDist (es : List ((String × String) × ℚ)) (n : ℕ) (s t : String) : Option ℕ :=
  (List.range (n + 1)).find? (fun d => walkCnt es d s t != 0)

/-- Dependency term of betweenness centrality: the fraction of shortest s-t
walks passing through v. -/
def pairDep (es : List ((String × String) × ℚ)) (n : ℕ) (s t v : String) : ℚ :=
  match bfsDist es n s t, bfsDist es n s v, bfsDist es n v t with
  | some dst, some dsv, some dvt =>
    if dsv + dvt = dst then
      ((walkCnt es dsv s v * walkCnt es dvt v t : ℕ) : ℚ) / ((walkCnt es dst s t : ℕ) : ℚ)
    else 0
  | _, _, _ => 0

/-- Model of nx.betweenness_centrality (unweighted, normalized). -/
def betweenness_centrality (G : DiGraph) : List (String × ℚ) :=
  let n := G.nodes.length
  let scale : ℚ :=
    if 2 < n then 1 / (((n : ℚ) - 1) * ((n : ℚ) - 2)) else 1
  G.nodes.map (fun v =>
    (v, scale *
      ((G.nodes.map (fun s =>
        (G.nodes.map (fun t =>
          if s ≠ v ∧ t ≠ v ∧ s ≠ t then pairDep G.edges n s t v else 0)).sum)).sum)))

/-- Model of nx.closeness_centrality (incoming unweighted distances with the
improved scaling factor). -/
def closeness_centrality (G : DiGraph) : List (String × ℚ) :=
  let n := G.nodes.length
  G.nodes.map (fun u =>
    let ds := G.nodes.filterMap (fun v => (bfsDist G.edges n v u).map (fun d => (d : ℚ)))
    let tot := ds.sum
    let r : ℚ := (ds.length : ℚ) - 1
    (u, if 0 < tot ∧ 1 < n then (r / tot) * (r / ((n : ℚ) - 1)) else 0))

/-- Metrics report assembled by calculate_network_metrics. -/
structure Metrics where
  num_nodes : ℕ
  num_edges : ℕ
  density : ℚ
  is_connected : Bool
  avg_degree : ℚ
  degree_c : List (String × ℚ)
  betweenness_c : List (String × ℚ)
  closeness_c : List (String × ℚ)
deriving DecidableEq

/-- calculate_network_metrics, johnson.py lines 99-128.  The metric dict is
built field by field: nx.density tolerates the empty graph (returning 0), but
nx.is_weakly_connected raises on it, and the average-degree line would then
divide by zero; both failure points are modelled in evaluation order. -/
def calculate_network_metrics (G : DiGraph) : Except MErr Metrics := do
  let conn ←
    if G.nodes.length = 0 then Except.error MErr.pointlessConcept
    else pure (weakly_connected G)
  let avg ←
    if G.nodes.length = 0 then Except.error MErr.zeroDivisionError
    else pure ((degreeSum G : ℚ) / (G.nodes.length : ℚ))
  pure
    ⟨G.nodes.length, G.edges.length, densityQ G, conn, avg,
      degree_centrality G, betweenness_centrality G, closeness_centrality G⟩

/-- Average-degree field of a successful metrics run. -/
def avgDegOf (G : DiGraph) : Option ℚ :=
  (calculate_network_metrics G).toOption.map (fun m => m.avg_degree)

/-! ### Invariants used by the proofs -/

/-- Pointwise refinement of Bellman-Ford tables: every key of d1 is present in
d2 with a value at most as large. -/
def DLe (d2 d1 : List (String × ℚ)) : Prop :=
  ∀ x v, lookupK d1 x = some v → ∃ y, lookupK d2 x = some y ∧ y ≤ v

/-- All stored tentative distances are non-negative. -/
def NonNegD (d : List (String × ℚ)) : Prop :=
  ∀ x v, lookupK d x = some v → 0 ≤ v

/-- Every stored tentative distance is realised by a walk from the source. -/
def BSound (es : List ((String × String) × ℚ)) (s : String)
    (d : List (String × ℚ)) : Prop :=
  ∀ x v, lookupK d x = some v → ∃ vs, WalkL es s x vs v

/-- A Dijkstra entry is well formed: its path starts at the source, ends at
its own key and its stored distance is the weight of its path. -/
def EOK (es : List ((String × String) × ℚ)) (src : String)
    (x : String × ℚ × List String) : Prop :=
  x.2.2.head? = some src ∧ x.2.2.getLast? = some x.1 ∧ pathW es x.2.2 = some x.2.1

/-- Loop invariant of the Dijkstra main loop: settled and frontier key lists
are duplicate free and disjoint, all keys are the source or an edge target,
settled vertices have every out-neighbour covered, and the source is covered. -/
def DInv (es : List ((String × String) × ℚ)) (src : String)
    (s fr : List (String × ℚ × List String)) : Prop :=
  (s.map Prod.fst).Nodup ∧ (fr.map Prod.fst).Nodup ∧
  (∀ x ∈ s.map Prod.fst, x ∉ fr.map Prod.fst) ∧
  (∀ x ∈ s.map Prod.fst, x ∈ src :: es.map (fun e => e.1.2)) ∧
  (∀ x ∈ fr.map Prod.fst, x ∈ src :: es.map (fun e => e.1.2)) ∧
  (∀ x ∈ s, ∀ e ∈ es, e.1.1 = x.1 → e.1.2 ∈ s.map Prod.fst ∨ e.1.2 ∈ fr.map Prod.fst) ∧
  (src ∈ s.map Prod.fst ∨ src ∈ fr.map Prod.fst)

/-- The settled output covers the source and is closed under outgoing edges. -/
def DClosed (es : List ((String × String) × ℚ)) (src : String)
    (out : List (String × ℚ × List String)) : Prop :=
  src ∈ out.map Prod.fst ∧
    ∀ x ∈ out, ∀ e ∈ es, e.1.1 = x.1 → e.1.2 ∈ out.map Prod.fst

/-! ### Concrete graphs used by counterexamples and witnesses -/

/-- Two vertices, one edge of weight 2; all weights non-negative. -/
def G1ex : DiGraph := ⟨["a", "b"], [(("a", "b"), 2)]⟩

/-- One isolated vertex and no edges. -/
def GAex : DiGraph := ⟨["A"], []⟩

/-- A graph that already contains a vertex named q, with one negative edge
leaving it and no cycle at all. -/
def G7ex : DiGraph := ⟨["q", "a"], [(("q", "a"), -5)]⟩

/-- A graph that already contains a vertex named q and a negative cycle
through it. -/
def GCex : DiGraph := ⟨["q", "a"], [(("q", "a"), -5), (("a", "q"), 1)]⟩

/-- A negative edge, no cycle, vertex q fresh. -/
def GMex : DiGraph := ⟨["a", "b"], [(("a", "b"), -3)]⟩

/-- A negative cycle on two fresh vertices. -/
def GNex : DiGraph := ⟨["a", "b"], [(("a", "b"), -5), (("b", "a"), 1)]⟩

/-- Two vertices, one edge: average networkx degree is 1, not 1/2. -/
def G2ex : DiGraph := ⟨["A", "B"], [(("A", "B"), 1)]⟩

/-- Constant geodesic distance used where a haversine value is irrelevant. -/
def hav100 : ℚ → ℚ → ℚ → ℚ → ℚ := fun _ _ _ _ => 100

/-- Two-airport coordinate table. -/
def apXY : List AirportRec :=
  [⟨"X", "", "", "", 0, 0⟩, ⟨"Y", "", "", "", 1, 1⟩]

/-! ### Association-list lemmas -/

section AssocLemmas

variable {κ α : Type} [DecidableEq κ]

theorem lookupK_append_some {l1 : List (κ × α)} (l2 : List (κ × α)) {x : κ}
    {v : α} (h : lookupK l1 x = some v) : lookupK (l1 ++ l2) x = some v := by
  induction l1 with
  | nil => simp [lookupK] at h
  | cons p t ih =>
    rw [List.cons_append]
    rw [lookupK] at h ⊢
    by_cases hk : p.1 = x
    · simpa [hk] using h
    · simp only [hk, if_false] at h ⊢
      exact ih h

theorem lookupK_append_none {l1 : List (κ × α)} (l2 : List (κ × α)) {x : κ}
    (h : lookupK l1 x = none) : lookupK (l1 ++ l2) x = lookupK l2 x := by
  induction l1 with
  | nil => simp [lookupK]
  | cons p t ih =>
    rw [List.cons_append]
    rw [lookupK] at h ⊢
    by_cases hk : p.1 = x
    · simp [hk] at h
    · simp only [hk, if_false] at h ⊢
      exact ih h

theorem lookupK_mapAtK (l : List (κ × α)) (c : κ) (f : α → α) (x : κ) :
    lookupK (mapAtK l c f) x =
      if x = c then (lookupK l c).map f else lookupK l x := by
  induction l with
  | nil => simp [lookupK, mapAtK]
  | cons p t ih =>
    obtain ⟨k, b⟩ := p
    by_cases hkc : k = c
    · subst hkc
      have hcons : mapAtK ((k, b) :: t) k f = (k, f b) :: mapAtK t k f := by
        simp [mapAtK]
      rw [hcons]
      by_cases hxk : x = k
      · subst hxk
        simp [lookupK]
      · have h1 : ¬ k = x := fun h => hxk h.symm
        simp [lookupK, h1, hxk, ih]
    · have hcons : mapAtK ((k, b) :: t) c f = (k, b) :: mapAtK t c f := by
        simp [mapAtK, hkc]
      rw [hcons]
      by_cases hkx : k = x
      · subst hkx
        simp [lookupK, hkc]
      · simp [lookupK, hkc, hkx, ih]

theorem lookupK_upsertK (l : List (κ × α)) (c : κ) (a : α) (x : κ) :
    lookupK (upsertK l c a) x = if x = c then some a else lookupK l x := by
  rw [upsertK]
  cases hin : lookupK l c with
  | some v =>
    have hmap : l.map (fun p => if p.1 = c then (c, a) else p) =
        mapAtK l c (fun _ => a) := by
      rw [mapAtK]
      apply List.map_congr_left
      intro p _
      by_cases hp : p.1 = c
      · simp [hp]
      · simp [hp]
    simp only [Option.isSome_some, if_true]
    rw [hmap, lookupK_mapAtK, hin]
    by_cases hxc : x = c <;> simp [hxc]
  | none =>
    simp only [Option.isSome_none, Bool.false_eq_true, if_false]
    by_cases hxc : x = c
    · subst hxc
      rw [lookupK_append_none _ hin]
      simp [lookupK]
    · cases hx : lookupK l x with
      | some v => simp [lookupK_append_some _ hx, hxc]
      | none =>
        rw [lookupK_append_none _ hx]
        have h2 : ¬ c = x := fun h => hxc h.symm
        simp [lookupK, hxc, h2]

theorem lookupK_mem {l : List (κ × α)} {x : κ} {v : α}
    (h : lookupK l x = some v) : (x, v) ∈ l := by
  induction l with
  | nil => simp [lookupK] at h
  | cons p t ih =>
    obtain ⟨k, b⟩ := p
    rw [lookupK] at h
    by_cases hk : k = x
    · subst hk
      simp only [if_pos rfl] at h
      injection h with h2
      subst h2
      exact List.mem_cons_self _ _
    · simp only [hk, if_false] at h
      exact List.mem_cons_of_mem _ (ih h)

theorem lookupK_of_mem_nodup {l : List (κ × α)} {x : κ} {v : α}
    (hn : (l.map Prod.fst).Nodup) (hm : (x, v) ∈ l) : lookupK l x = some v := by
  induction l with
  | nil => simp at hm
  | cons p t ih =>
    rw [List.map_cons, List.nodup_cons] at hn
    rcases List.mem_cons.mp hm with h | h
    · subst h
      simp [lookupK]
    · have hx : x ∈ t.map Prod.fst := List.mem_map.mpr ⟨(x, v), h, rfl⟩
      have hk : ¬ p.1 = x := fun he => hn.1 (he ▸ hx)
      rw [lookupK]
      simp only [hk, if_false]
      exact ih hn.2 h

theorem lookupK_isSome_iff {l : List (κ × α)} {x : κ} :
    (lookupK l x).isSome = true ↔ x ∈ l.map Prod.fst := by
  induction l with
  | nil => simp [lookupK]
  | cons p t ih =>
    obtain ⟨k, b⟩ := p
    rw [lookupK]
    by_cases hk : k = x
    · subst hk
      simp
    · have h1 : ¬ x = k := fun h => hk h.symm
      simp [hk, ih, h1]

theorem lookupK_eq_none_iff {l : List (κ × α)} {x : κ} :
    lookupK l x = none ↔ x ∉ l.map Prod.fst := by
  rw [← lookupK_isSome_iff, Option.not_isSome_iff_eq_none]

theorem keys_mapAtK (l : List (κ × α)) (c : κ) (f : α → α) :
    (mapAtK l c f).map Prod.fst = l.map Prod.fst := by
  rw [mapAtK, List.map_map]
  apply List.map_congr_left
  intro p _
  by_cases hp : p.1 = c <;> simp [hp]

theorem keys_upsertK_isSome (l : List (κ × α)) (c : κ) (a : α)
    (h : (lookupK l c).isSome) :
    (upsertK l c a).map Prod.fst = l.map Prod.fst := by
  rw [upsertK]
  simp only [h, if_true]
  rw [List.map_map]
  apply List.map_congr_left
  intro p _
  by_cases hp : p.1 = c <;> simp [hp]

theorem keys_upsertK_none (l : List (κ × α)) (c : κ) (a : α)
    (h : lookupK l c = none) :
    (upsertK l c a).map Prod.fst = l.map Prod.fst ++ [c] := by
  rw [upsertK]
  simp [h]

end AssocLemmas

theorem mem_insNode {l : List String} {v x : String} :
    x ∈ insNode l v ↔ x ∈ l ∨ x = v := by
  rw [insNode]
  by_cases h : v ∈ l
  · simp only [h, if_true]
    constructor
    · exact Or.inl
    · rintro (hx | rfl)
      · exact hx
      · exact h
  · simp [h]

theorem nodup_insNode {l : List String} (hl : l.Nodup) (v : String) :
    (insNode l v).Nodup := by
  rw [insNode]
  by_cases h : v ∈ l
  · simpa [h]
  · simp [h, List.nodup_append, hl]

theorem foldl_inv {α β : Type} (P : β → Prop) {f : β → α → β} {l : List α}
    (h : ∀ b a, a ∈ l → P b → P (f b a)) {b : β} (hb : P b) :
    P (l.foldl f b) := by
  induction l generalizing b with
  | nil => exact hb
  | cons a t ih =>
    rw [List.foldl_cons]
    exact ih (fun b x hx => h b x (List.mem_cons_of_mem _ hx))
      (h b a (List.mem_cons_self _ _) hb)

theorem list_sum_map_add {α : Type} (l : List α) (f g : α → ℕ) :
    (l.map (fun x => f x + g x)).sum = (l.map f).sum + (l.map g).sum := by
  induction l with
  | nil => simp
  | cons a t ih => simp [ih]; omega

theorem mem_keys_upsertK {κ α : Type} [DecidableEq κ] (l : List (κ × α))
    (c : κ) (a : α) (x : κ) :
    x ∈ (upsertK l c a).map Prod.fst ↔ x ∈ l.map Prod.fst ∨ x = c := by
  cases hin : lookupK l c with
  | some v =>
    have hc : c ∈ l.map Prod.fst := lookupK_isSome_iff.mp (by simp [hin])
    rw [keys_upsertK_isSome _ _ _ (by simp [hin])]
    constructor
    · exact Or.inl
    · rintro (h | rfl)
      · exact h
      · exact hc
  | none =>
    rw [keys_upsertK_none _ _ _ hin]
    simp

/-! ### Helper lemmas for the graph-builder claims -/

theorem operatorTag_azul {gol : List String} (azul : List String) {code : String}
    (hg : code ∉ gol) : operatorTag gol azul code = "Azul" := by
  rw [operatorTag]
  simp [hg]

theorem bcn_fold_azul (gol azul : List String) (l : List AirportRec) :
    ∀ (ns0 : List (String × CNodeAttrs)) (code : String), code ∉ gol →
      ((∃ r ∈ l, r.code = code) ∨
        (∃ a, lookupK ns0 code = some a ∧ a.operator = "Azul")) →
      ∃ a,
        lookupK
          (l.foldl
            (fun ns r =>
              addNodeC ns r.code
                ⟨r.name, r.city, r.country, r.latitude, r.longitude,
                  operatorTag gol azul r.code⟩)
            ns0) code = some a ∧ a.operator = "Azul" := by
  intro ns0 code hg hor
  induction l generalizing ns0 with
  | nil =>
    rcases hor with ⟨r, hr, _⟩ | h
    · simp at hr
    · simpa using h
  | cons r t ih =>
    rw [List.foldl_cons]
    apply ih
    by_cases hrc : r.code = code
    · right
      refine ⟨⟨r.name, r.city, r.country, r.latitude, r.longitude,
        operatorTag gol azul r.code⟩, ?_, ?_⟩
      · rw [addNodeC, upsertS, lookupK_upsertK]
        simp [hrc]
      · simpa [hrc] using operatorTag_azul azul hg
    · rcases hor with ⟨r2, hr2, he2⟩ | ⟨a, ha, hop⟩
      · rcases List.mem_cons.mp hr2 with rfl | hmem
        · exact absurd he2 hrc
        · exact Or.inl ⟨r2, hmem, he2⟩
      · right
        refine ⟨a, ?_, hop⟩
        rw [addNodeC, upsertS, lookupK_upsertK]
        have : ¬ code = r.code := fun h => hrc h.symm
        simp [this, ha]

/-! ### Helper lemmas for the metrics claims -/

theorem sum_indicator_one (l : List String) (x : String) (hn : l.Nodup)
    (hx : x ∈ l) : (l.map (fun v => if x = v then 1 else 0)).sum = 1 := by
  induction l with
  | nil => simp at hx
  | cons a t ih =>
    rw [List.nodup_cons] at hn
    rcases List.mem_cons.mp hx with rfl | hx2
    · have hz : (t.map (fun v => if x = v then 1 else 0)).sum = 0 := by
        apply List.sum_eq_zero
        intro y hy
        obtain ⟨v, hv, hvy⟩ := List.mem_map.mp hy
        have hxv : ¬ x = v := fun h => hn.1 (h ▸ hv)
        simpa [hxv] using hvy.symm
      rw [List.map_cons, List.sum_cons, hz]
      simp
    · have hne : ¬ x = a := fun h => hn.1 (h ▸ hx2)
      rw [List.map_cons, List.sum_cons]
      simp only [hne, if_false]
      simpa using ih hn.2 hx2

theorem sum_filter_length {β : Type} (l : List String) (es : List β)
    (key : β → String) (hn : l.Nodup) (hk : ∀ e ∈ es, key e ∈ l) :
    (l.map (fun v => (es.filter (fun e => key e == v)).length)).sum = es.length := by
  induction es with
  | nil => simp
  | cons e t ih =>
    have ht : ∀ x ∈ t, key x ∈ l := fun x hx => hk x (List.mem_cons_of_mem _ hx)
    have he : key e ∈ l := hk e (List.mem_cons_self _ _)
    have hsplit : ∀ v ∈ l,
        (List.filter (fun x => key x == v) (e :: t)).length =
          (if key e = v then 1 else 0) +
            (List.filter (fun x => key x == v) t).length := by
      intro v _
      rw [List.filter_cons]
      by_cases h : key e = v
      · simp only [h]
        simp
        omega
      · simp [h]
    rw [List.map_congr_left hsplit, list_sum_map_add]
    rw [sum_indicator_one l (key e) hn he, ih ht]
    simp [Nat.add_comm]

theorem degreeSum_eq (G : DiGraph) (hwf : G.WF) :
    degreeSum G = 2 * G.edges.length := by
  rw [degreeSum]
  have h1 : (G.nodes.map (fun v => outDeg G v + inDeg G v)).sum =
      (G.nodes.map (fun v => outDeg G v)).sum +
        (G.nodes.map (fun v => inDeg G v)).sum :=
    list_sum_map_add _ _ _
  rw [h1]
  have h2 : (G.nodes.map (fun v => outDeg G v)).sum = G.edges.length := by
    simp only [outDeg]
    exact sum_filter_length G.nodes G.edges (fun e => e.1.1) hwf.1
      (fun e he => (hwf.2.2 e he).1)
  have h3 : (G.nodes.map (fun v => inDeg G v)).sum = G.edges.length := by
    simp only [inDeg]
    exact sum_filter_length G.nodes G.edges (fun e => e.1.2) hwf.1
      (fun e he => (hwf.2.2 e he).2)
  rw [h2, h3]
  omega

theorem metrics_ok (G : DiGraph) (hn : G.nodes ≠ []) :
    calculate_network_metrics G =
      .ok
        ⟨G.nodes.length, G.edges.length, densityQ G, weakly_connected G,
          (degreeSum G : ℚ) / (G.nodes.length : ℚ), degree_centrality G,
          betweenness_centrality G, closeness_centrality G⟩ := by
  have h0 : ¬ G.nodes.length = 0 := by
    simpa [List.length_eq_zero] using hn
  rw [calculate_network_metrics]
  simp [h0]
  rfl

theorem metrics_empty (G : DiGraph) (hn : G.nodes = []) :
    calculate_network_metrics G = .error .pointlessConcept := by
  have h0 : G.nodes.length = 0 := by simp [hn]
  rw [calculate_network_metrics]
  simp [h0]
  rfl

/-! ### Claim C10 -/

/-- C10: in build_combined_network, every airport record whose code is not in
the Gol code set is tagged with operator Azul, including airports belonging to
neither airline, which are silently labelled Azul rather than rejected. -/
theorem C10_azul_default (golA azulA comb : List AirportRec) (r : AirportRec)
    (hr : r ∈ comb) (hg : r.code ∉ golA.map (fun a => a.code)) :
    ∃ a, lookupK (build_combined_network golA azulA comb) r.code = some a ∧
      a.operator = "Azul" := by
  simp only [build_combined_network]
  exact bcn_fold_azul _ _ comb [] r.code hg (Or.inl ⟨r, hr, rfl⟩)

/-- C10 witness: an airport in neither code set is labelled Azul. -/
theorem C10_witness :
    ∃ a,
      lookupK
        (build_combined_network [⟨"AAA", "", "", "", 0, 0⟩]
          [⟨"BBB", "", "", "", 0, 0⟩]
          [⟨"AAA", "", "", "", 0, 0⟩, ⟨"CCC", "", "", "", 0, 0⟩])
        "CCC" = some a ∧ a.operator = "Azul" :=
  C10_azul_default _ _ _ ⟨"CCC", "", "", "", 0, 0⟩ (by simp) (by decide)

/-! ### Helper lemmas for claim C6 -/

theorem abr_two_adds (hav : ℚ → ℚ → ℚ → ℚ → ℚ) (T1 T2 : List AirportRec)
    (a1 a2 l1 l2 : String) (r1 r2 r1x r2x : AirportRec)
    (hf1 : findRec T1 a1 = some r1) (hf2 : findRec T1 a2 = some r2)
    (hf3 : findRec T2 a1 = some r1x) (hf4 : findRec T2 a2 = some r2x)
    (hne : a1 ≠ a2) (hl1 : l1 ≠ "") (hsub : strIn l2 l1 = false) :
    add_bidirectional_route hav
        (add_bidirectional_route hav ⟨[], []⟩ a1 a2 T1 l1) a1 a2 T2 l2 =
      ⟨[a1, a2],
        [((a1, a2),
          ⟨hav r1.latitude r1.longitude r2.latitude r2.longitude,
            hav r1.latitude r1.longitude r2.latitude r2.longitude,
            l1 ++ "," ++ l2⟩),
         ((a2, a1),
          ⟨hav r1.latitude r1.longitude r2.latitude r2.longitude,
            hav r1.latitude r1.longitude r2.latitude r2.longitude,
            l1 ++ "," ++ l2⟩)]⟩ := by
  have hne2 : ¬ a2 = a1 := fun h => hne h.symm
  have hpair : ¬ ((a2, a1) = (a1, a2)) := by
    simp [Prod.ext_iff, hne2]
  have hpair2 : ¬ ((a1, a2) = (a2, a1)) := by
    simp [Prod.ext_iff, hne]
  have h1 : add_bidirectional_route hav (⟨[], []⟩ : RGraph) a1 a2 T1 l1 =
      ⟨[a1, a2],
        [((a1, a2),
          ⟨hav r1.latitude r1.longitude r2.latitude r2.longitude,
            hav r1.latitude r1.longitude r2.latitude r2.longitude, l1⟩),
         ((a2, a1),
          ⟨hav r1.latitude r1.longitude r2.latitude r2.longitude,
            hav r1.latitude r1.longitude r2.latitude r2.longitude, l1⟩)]⟩ := by
    rw [add_bidirectional_route, hf1, hf2]
    simp [lookupE, lookupK, addEdgeR, insNode, upsertE, upsertK, hne2, hpair]
  rw [h1, add_bidirectional_route, hf3, hf4]
  simp only [lookupE, lookupK, if_pos rfl]
  simp [hsub, hl1, setAirlines, mapAtE, mapAtK, hpair]

theorem route_fold_nodes (rs : List RouteRec) (Gb : BGraph) :
    (rs.foldl
      (fun G r =>
        if (lookupS G.nodes r.origem).isSome ∧ (lookupS G.nodes r.destino).isSome then
          addEdgeB G r.origem r.destino ⟨r.distancia_km, r.distancia_km, r.companhias⟩
        else G)
      Gb).nodes = Gb.nodes := by
  refine foldl_inv (fun (G : BGraph) => G.nodes = Gb.nodes) ?_ rfl
  intro G r _ hG
  by_cases h : (lookupS G.nodes r.origem).isSome ∧ (lookupS G.nodes r.destino).isSome
  · simp only [h, if_true]
    simp [addEdgeB, hG]
  · simp only [h, if_false]
    exact hG

theorem airport_fold_keys (aps : List AirportRec) (c : String) :
    ∀ Gb : BGraph,
      (c ∈ ((aps.foldl
          (fun G a =>
            addNodeB G a.code ⟨a.name, a.city, a.country, a.latitude, a.longitude⟩)
          Gb).nodes.map Prod.fst) ↔
        c ∈ Gb.nodes.map Prod.fst ∨ c ∈ aps.map (fun a => a.code)) := by
  induction aps with
  | nil => intro Gb; simp
  | cons a t ih =>
    intro Gb
    rw [List.foldl_cons, ih]
    rw [addNodeB]
    simp only [upsertS]
    rw [mem_keys_upsertK]
    simp only [List.map_cons, List.mem_cons]
    tauto

theorem step_last (X : BGraph) (r : RouteRec)
    (h1 : (lookupS X.nodes r.origem).isSome = true)
    (h2 : (lookupS X.nodes r.destino).isSome = true) :
    lookupK
      (if (lookupS X.nodes r.origem).isSome ∧ (lookupS X.nodes r.destino).isSome then
          addEdgeB X r.origem r.destino ⟨r.distancia_km, r.distancia_km, r.companhias⟩
        else X).edges (r.origem, r.destino) =
      some ⟨r.distancia_km, r.distancia_km, r.companhias⟩ := by
  rw [if_pos ⟨h1, h2⟩, addEdgeB]
  simp only [upsertE]
  rw [lookupK_upsertK]
  simp

theorem ban_last_writer (aps : List AirportRec) (rs : List RouteRec)
    (r : RouteRec) (ho : r.origem ∈ aps.map (fun a => a.code))
    (hd : r.destino ∈ aps.map (fun a => a.code)) :
    lookupK (build_airline_network aps (rs ++ [r])).edges (r.origem, r.destino) =
      some ⟨r.distancia_km, r.distancia_km, r.companhias⟩ := by
  simp only [build_airline_network]
  rw [List.foldl_append, List.foldl_cons, List.foldl_nil]
  apply step_last
  · rw [route_fold_nodes]
    simp only [lookupS]
    rw [lookupK_isSome_iff]
    exact (airport_fold_keys aps r.origem ⟨[], []⟩).mpr (Or.inr ho)
  · rw [route_fold_nodes]
    simp only [lookupS]
    rw [lookupK_isSome_iff]
    exact (airport_fold_keys aps r.destino ⟨[], []⟩).mpr (Or.inr hd)

/-! ### Claim C6 -/

/-- C6 counterexample: merging the labels Gol then Go for the same pair leaves
the airline string at Gol because the Python membership test is substring
containment, so the operator set is not the union of the contributed labels;
and in build_airline_network a repeated route record overwrites the
first-recorded weight (last writer wins), here 100 becomes 200. -/
theorem C6_cex :
    lookupK
        (add_bidirectional_route hav100
          (add_bidirectional_route hav100 ⟨[], []⟩ "X" "Y" apXY "Gol")
          "X" "Y" apXY "Go").edges ("X", "Y") =
      some ⟨100, 100, "Gol"⟩ ∧
    "Gol".splitOn "," = ["Gol"] ∧ "Go" ∉ ["Gol"] ∧ "Go" ≠ "Gol" ∧
    lookupK
        (build_airline_network apXY
          [⟨"X", "Y", 100, "Gol"⟩, ⟨"X", "Y", 200, "Azul"⟩]).edges ("X", "Y") =
      some ⟨200, 200, "Azul"⟩ ∧
    (200 : ℚ) ≠ 100 :=
  ⟨by with_unfolding_all rfl, by with_unfolding_all decide, by decide, by decide,
    by with_unfolding_all rfl, by norm_num⟩

/-- C6 amended: in add_bidirectional_route, merging a second label into an
existing pair keeps exactly one edge per direction, never touches the stored
weight (which remains the first-recorded haversine value), and appends the new
label comma-separated provided it is not a substring of the stored airline
string; in build_airline_network, by contrast, a repeated directed route
record overwrites weight and airline attributes, so the last record wins. -/
theorem C6_merge_amended :
    (∀ (hav : ℚ → ℚ → ℚ → ℚ → ℚ) (T1 T2 : List AirportRec)
        (a1 a2 l1 l2 : String) (r1 r2 r1x r2x : AirportRec),
      findRec T1 a1 = some r1 → findRec T1 a2 = some r2 →
      findRec T2 a1 = some r1x → findRec T2 a2 = some r2x →
      a1 ≠ a2 → l1 ≠ "" → strIn l2 l1 = false →
      add_bidirectional_route hav
          (add_bidirectional_route hav ⟨[], []⟩ a1 a2 T1 l1) a1 a2 T2 l2 =
        ⟨[a1, a2],
          [((a1, a2),
            ⟨hav r1.latitude r1.longitude r2.latitude r2.longitude,
              hav r1.latitude r1.longitude r2.latitude r2.longitude,
              l1 ++ "," ++ l2⟩),
           ((a2, a1),
            ⟨hav r1.latitude r1.longitude r2.latitude r2.longitude,
              hav r1.latitude r1.longitude r2.latitude r2.longitude,
              l1 ++ "," ++ l2⟩)]⟩) ∧
    (∀ (aps : List AirportRec) (rs : List RouteRec) (r : RouteRec),
      r.origem ∈ aps.map (fun a => a.code) →
      r.destino ∈ aps.map (fun a => a.code) →
      lookupK (build_airline_network aps (rs ++ [r])).edges
          (r.origem, r.destino) =
        some ⟨r.distancia_km, r.distancia_km, r.companhias⟩) :=
  ⟨abr_two_adds, ban_last_writer⟩

/-- C6 witness: both amended behaviours at concrete inputs, with labels Gol
and Azul merging into one edge and a duplicate route record overwriting. -/
theorem C6_witness :
    (add_bidirectional_route hav100
        (add_bidirectional_route hav100 ⟨[], []⟩ "X" "Y" apXY "Gol")
        "X" "Y" apXY "Azul" =
      ⟨["X", "Y"],
        [(("X", "Y"), ⟨100, 100, "Gol,Azul"⟩),
         (("Y", "X"), ⟨100, 100, "Gol,Azul"⟩)]⟩) ∧
    lookupK
        (build_airline_network apXY
          ([⟨"X", "Y", 100, "Gol"⟩] ++ [⟨"X", "Y", 200, "Azul"⟩])).edges
        ("X", "Y") =
      some ⟨200, 200, "Azul"⟩ := by
  constructor
  · have h := C6_merge_amended.1 hav100 apXY apXY "X" "Y" "Gol" "Azul"
      ⟨"X", "", "", "", 0, 0⟩ ⟨"Y", "", "", "", 1, 1⟩
      ⟨"X", "", "", "", 0, 0⟩ ⟨"Y", "", "", "", 1, 1⟩
      (by with_unfolding_all rfl) (by with_unfolding_all rfl)
      (by with_unfolding_all rfl) (by with_unfolding_all rfl)
      (by decide) (by decide) (by decide)
    exact h.trans (by with_unfolding_all rfl)
  · exact C6_merge_amended.2 apXY [⟨"X", "Y", 100, "Gol"⟩]
      ⟨"X", "Y", 200, "Azul"⟩ (by decide) (by decide)

/-! ### Claim C8 -/

/-- C8 counterexample: on the graph with zero vertices the metrics routine
fails with the networkx pointless-concept error raised by the
weak-connectivity check, not with an EmptyGraphError (no such error exists in
the code), so the claim as stated is false. -/
theorem C8_cex :
    calculate_network_metrics ⟨[], []⟩ = .error .pointlessConcept ∧
      calculate_network_metrics ⟨[], []⟩ ≠ .error .emptyGraphError := by
  constructor
  · exact metrics_empty _ rfl
  · intro h
    rw [metrics_empty _ rfl] at h
    injection h with h2
    exact absurd h2 (by decide)

/-- C8 amended: for a graph with zero vertices calculate_network_metrics
fails, but with the library exception of the weak-connectivity check (the
average-degree division is never reached, so no ZeroDivisionError surfaces
either, and the code defines no EmptyGraphError); for every non-empty graph
it returns a metrics report without error. -/
theorem C8_empty_guard_amended (G : DiGraph) :
    (G.nodes = [] → calculate_network_metrics G = .error .pointlessConcept) ∧
      (G.nodes ≠ [] → ∃ m, calculate_network_metrics G = .ok m) := by
  constructor
  · exact metrics_empty G
  · intro h
    exact ⟨_, metrics_ok G h⟩

/-- C8 witness: the amended claim at the empty graph and at a two-vertex
graph. -/
theorem C8_witness :
    calculate_network_metrics ⟨[], []⟩ = .error .pointlessConcept ∧
      ∃ m, calculate_network_metrics G2ex = .ok m :=
  ⟨(C8_empty_guard_amended ⟨[], []⟩).1 rfl,
    (C8_empty_guard_amended G2ex).2 (by decide)⟩

/-! ### Claim C9 -/

/-- C9 counterexample: on a two-vertex one-edge graph the reported average
degree is 1, but the number of directed edges divided by the number of
vertices is 1/2; networkx degree counts both directions, so the claim as
stated is false. -/
theorem C9_cex :
    avgDegOf G2ex = some 1 ∧
      (G2ex.edges.length : ℚ) / (G2ex.nodes.length : ℚ) = 1 / 2 ∧
      (1 : ℚ) ≠ 1 / 2 := by
  refine ⟨?_, ?_, by norm_num⟩
  · rw [avgDegOf, metrics_ok G2ex (by decide)]
    simp only [Except.toOption, Option.map_some']
    rw [show degreeSum G2ex = 2 from by decide,
      show G2ex.nodes.length = 2 from rfl]
    norm_num
  · rw [show G2ex.edges.length = 1 from rfl, show G2ex.nodes.length = 2 from rfl]
    norm_num

/-- C9 amended: for every non-empty directed graph the reported average
degree equals the average total degree, twice the number of directed edges
divided by the number of vertices (the networkx degree of a vertex is
in-degree plus out-degree). -/
theorem C9_avg_degree_amended (G : DiGraph) (hwf : G.WF) (hne : G.nodes ≠ []) :
    avgDegOf G = some (2 * (G.edges.length : ℚ) / (G.nodes.length : ℚ)) := by
  rw [avgDegOf, metrics_ok G hne]
  simp only [Except.toOption, Option.map_some']
  rw [degreeSum_eq G hwf]
  push_cast
  ring_nf

/-- C9 witness: the amended claim at the two-vertex one-edge graph. -/
theorem C9_witness :
    avgDegOf G2ex = some (2 * (G2ex.edges.length : ℚ) / (G2ex.nodes.length : ℚ)) :=
  C9_avg_degree_amended G2ex (by decide) (by decide)

/-! ### Claim C7 -/

/-- C7: evaluation of johnson_algorithm at a graph that already contains a
vertex named q.  The synthetic source is not distinct from the original
vertex: the auxiliary graph gains no new vertex, the original edge from q of
weight -5 is overwritten to weight 0, Bellman-Ford therefore computes the
potential 0 everywhere, the reweighted edge keeps weight -5 < 0 in violation
of the reweighting invariant, and the algorithm still returns a result. -/
theorem C7_q_collision :
    "q" ∈ G7ex.nodes ∧
      (buildAux G7ex).nodes = G7ex.nodes ∧
      lookupE G7ex.edges "q" "a" = some (-5) ∧
      lookupE (buildAux G7ex).edges "q" "a" = some 0 ∧
      bellman_ford (buildAux G7ex) "q" = some [("q", 0), ("a", 0)] ∧
      reweightGraph G7ex [("q", 0), ("a", 0)] =
        .ok ⟨["q", "a"], [(("q", "a"), -5)]⟩ ∧
      (-5 : ℚ) < 0 ∧
      (johnson_algorithm G7ex).isOk = true :=
  ⟨by decide, by with_unfolding_all rfl, by with_unfolding_all rfl,
    by with_unfolding_all rfl, by with_unfolding_all rfl,
    by with_unfolding_all rfl, by norm_num, by with_unfolding_all rfl⟩

/-! ### Walk lemmas -/

theorem walk_len_pos {es : List ((String × String) × ℚ)} {a b : String}
    {vs : List String} {c : ℚ} (hw : WalkL es a b vs c) : 1 ≤ vs.length := by
  cases hw with
  | nil => simp
  | cons hm hw2 => simp

theorem walk_snoc {es : List ((String × String) × ℚ)} {s u v : String}
    {vs : List String} {c w : ℚ} (hw : WalkL es s u vs c)
    (hmem : ((u, v), w) ∈ es) : WalkL es s v (vs ++ [v]) (c + w) := by
  induction hw with
  | nil x =>
    have h0 := WalkL.cons hmem (WalkL.nil v)
    rw [add_zero] at h0
    simpa using h0
  | cons hm hw2 ih =>
    have h3 := WalkL.cons hm (ih hmem)
    rw [← add_assoc] at h3
    simpa using h3

theorem walk_mem_nodes {es : List ((String × String) × ℚ)} {N : List String}
    (hend : ∀ e ∈ es, e.1.1 ∈ N ∧ e.1.2 ∈ N) {a b : String} {vs : List String}
    {c : ℚ} (hw : WalkL es a b vs c) : a ∈ N → ∀ x ∈ vs, x ∈ N := by
  induction hw with
  | nil v =>
    intro ha x hx
    simp at hx
    subst hx
    exact ha
  | cons hm hw2 ih =>
    intro ha x hx
    rcases List.mem_cons.mp hx with rfl | hx2
    · exact ha
    · exact ih (hend _ hm).2 x hx2

theorem walk_split {es : List ((String × String) × ℚ)} {a b : String}
    {vs : List String} {c : ℚ} (hw : WalkL es a b vs c) :
    ∀ {x : String}, x ∈ vs →
      ∃ vs1 c1 vs2 c2, WalkL es a x vs1 c1 ∧ WalkL es x b vs2 c2 ∧
        c = c1 + c2 ∧ vs.length + 1 = vs1.length + vs2.length := by
  induction hw with
  | nil v =>
    intro x hx
    simp at hx
    subst hx
    exact ⟨[x], 0, [x], 0, WalkL.nil x, WalkL.nil x, by ring, by simp⟩
  | @cons u y t w c vs hm hw2 ih =>
    intro x hx
    rcases List.mem_cons.mp hx with rfl | hx2
    · exact ⟨[x], 0, x :: vs, w + c, WalkL.nil x, WalkL.cons hm hw2, by ring,
        by simp only [List.length_cons, List.length_nil]; omega⟩
    · obtain ⟨vs1, c1, vs2, c2, h1, h2, hc, hl⟩ := ih hx2
      refine ⟨u :: vs1, w + c1, vs2, c2, WalkL.cons hm h1, h2, ?_, ?_⟩
      · rw [hc]; ring
      · simp only [List.length_cons]
        omega

theorem walk_concat {es : List ((String × String) × ℚ)} {a x b : String}
    {vs1 vs2 : List String} {c1 c2 : ℚ} (h1 : WalkL es a x vs1 c1)
    (h2 : WalkL es x b vs2 c2) :
    ∃ vs, WalkL es a b vs (c1 + c2) ∧ vs.length + 1 = vs1.length + vs2.length := by
  induction h1 generalizing vs2 c2 with
  | nil v =>
    refine ⟨vs2, ?_, by simp only [List.length_cons, List.length_nil]; omega⟩
    rw [zero_add]
    exact h2
  | @cons u y t w c vs hm hw ih =>
    obtain ⟨vs3, hw3, hl⟩ := ih h2
    refine ⟨u :: vs3, ?_, ?_⟩
    · have h4 := WalkL.cons hm hw3
      rw [← add_assoc] at h4
      exact h4
    · simp only [List.length_cons]
      omega

theorem walk_len_one {es : List ((String × String) × ℚ)} {x b : String}
    {vs : List String} {c : ℚ} (hw : WalkL es x b vs c) (hl : vs.length = 1) :
    x = b ∧ c = 0 ∧ vs = [x] := by
  cases hw with
  | nil => exact ⟨rfl, rfl, rfl⟩
  | cons hm hw2 =>
    exfalso
    have h2 := walk_len_pos hw2
    rw [List.length_cons] at hl
    omega

theorem walk_snoc_inv {es : List ((String × String) × ℚ)} {a b : String}
    {vs : List String} {c : ℚ} (hw : WalkL es a b vs c) :
    2 ≤ vs.length →
      ∃ u vs2 c2 w, WalkL es a u vs2 c2 ∧ ((u, b), w) ∈ es ∧ c = c2 + w ∧
        vs2.length + 1 = vs.length := by
  induction hw with
  | nil v => intro h2; simp at h2
  | @cons u y t w c vs hm hw2 ih =>
    intro _
    by_cases h1 : vs.length = 1
    · obtain ⟨rfl, rfl, rfl⟩ := walk_len_one hw2 h1
      exact ⟨u, [u], 0, w, WalkL.nil u, hm, by ring,
        by simp only [List.length_cons, List.length_nil]⟩
    · have h2 : 2 ≤ vs.length := by
        have := walk_len_pos hw2
        omega
      obtain ⟨m, vs2, c2, w2, hwm, hmem2, hc, hl⟩ := ih h2
      refine ⟨m, u :: vs2, w + c2, w2, WalkL.cons hm hwm, hmem2, ?_, ?_⟩
      · rw [hc]; ring
      · simp only [List.length_cons]
        omega

theorem walk_shorten_step {es : List ((String × String) × ℚ)} {a b : String}
    {vs : List String} {c : ℚ} (hw : WalkL es a b vs c) :
    ¬ vs.Nodup →
      ∃ vs2 c2 x vsx cx, WalkL es a b vs2 c2 ∧ WalkL es x x vsx cx ∧
        c = c2 + cx ∧ vs2.length < vs.length := by
  induction hw with
  | nil v => intro hnd; simp at hnd
  | @cons u y t w c vs hm hw2 ih =>
    intro hnd
    by_cases hu : u ∈ vs
    · obtain ⟨vs1, c1, vs2, c2, h1, h2, hc, hl⟩ := walk_split hw2 hu
      refine ⟨vs2, c2, u, u :: vs1, w + c1, h2, WalkL.cons hm h1, ?_, ?_⟩
      · rw [hc]; ring
      · have hp := walk_len_pos h1
        simp only [List.length_cons]
        omega
    · have hnd2 : ¬ vs.Nodup := by
        rw [List.nodup_cons] at hnd
        tauto
      obtain ⟨vs2, c2, x, vsx, cx, h1, h2, hc, hlt⟩ := ih hnd2
      refine ⟨u :: vs2, w + c2, x, vsx, cx, WalkL.cons hm h1, h2, ?_, ?_⟩
      · rw [hc]; ring
      · simp only [List.length_cons]
        omega

theorem walk_shorten {es : List ((String × String) × ℚ)} {N : List String}
    (hnn : ∀ x vsx cx, WalkL es x x vsx cx → 0 ≤ cx)
    (hend : ∀ e ∈ es, e.1.1 ∈ N ∧ e.1.2 ∈ N) :
    ∀ (n : ℕ) {a b : String} {vs : List String} {c : ℚ}, vs.length ≤ n →
      WalkL es a b vs c → a ∈ N →
      ∃ vs2 c2, WalkL es a b vs2 c2 ∧ c2 ≤ c ∧ vs2.length ≤ N.length := by
  intro n
  induction n with
  | zero =>
    intro a b vs c hl hw ha
    have := walk_len_pos hw
    omega
  | succ n ih =>
    intro a b vs c hl hw ha
    by_cases hnd : vs.Nodup
    · refine ⟨vs, c, hw, le_refl c, ?_⟩
      have hsub : vs ⊆ N := fun x hx => walk_mem_nodes hend hw ha x hx
      exact (List.subperm_of_subset hnd hsub).length_le
    · obtain ⟨vs2, c2, x, vsx, cx, h1, h2, hc, hlt⟩ := walk_shorten_step hw hnd
      have hcx := hnn x vsx cx h2
      obtain ⟨vs3, c3, h3, hle3, hlen3⟩ := ih (by omega) h1 ha
      refine ⟨vs3, c3, h3, ?_, hlen3⟩
      rw [hc]
      linarith

/-! ### Bellman-Ford lemmas -/

theorem lookupS_eq {α : Type} (l : List (String × α)) (x : String) :
    lookupS l x = lookupK l x := rfl

theorem lookupE_eq {α : Type} (es : List ((String × String) × α)) (u v : String) :
    lookupE es u v = lookupK es (u, v) := rfl

theorem DLe_refl (d : List (String × ℚ)) : DLe d d :=
  fun _ v h => ⟨v, h, le_refl v⟩

theorem DLe_trans {d3 d2 d1 : List (String × ℚ)} (h32 : DLe d3 d2)
    (h21 : DLe d2 d1) : DLe d3 d1 := by
  intro x v h1
  obtain ⟨y, hy, hyv⟩ := h21 x v h1
  obtain ⟨z, hz, hzy⟩ := h32 x y hy
  exact ⟨z, hz, le_trans hzy hyv⟩

theorem relaxEdge_DLe (d : List (String × ℚ)) (e : (String × String) × ℚ) :
    DLe (relaxEdge d e) d := by
  intro x v hx
  rw [relaxEdge]
  cases hu : lookupS d e.1.1 with
  | none => exact ⟨v, hx, le_refl v⟩
  | some du =>
    cases hv : lookupS d e.1.2 with
    | none => exact ⟨v, lookupK_append_some _ hx, le_refl v⟩
    | some dv =>
      by_cases hlt : du + e.2 < dv
      · simp only [hlt, if_true]
        rw [lookupK_mapAtK]
        by_cases hxe : x = e.1.2
        · subst hxe
          rw [lookupS_eq, hx] at hv
          injection hv with hv2
          subst hv2
          simp only [if_pos rfl, hx, Option.map_some']
          exact ⟨du + e.2, rfl, le_of_lt hlt⟩
        · simp only [hxe, if_false]
          exact ⟨v, hx, le_refl v⟩
      · simp only [hlt, if_false]
        exact ⟨v, hx, le_refl v⟩

theorem bfRound_DLe (es : List ((String × String) × ℚ)) :
    ∀ d, DLe (bfRound es d) d := by
  induction es with
  | nil => intro d; exact DLe_refl d
  | cons e t ih =>
    intro d
    rw [bfRound, List.foldl_cons]
    exact DLe_trans (ih (relaxEdge d e)) (relaxEdge_DLe d e)

theorem bfIter_DLe (es : List ((String × String) × ℚ)) :
    ∀ (k : ℕ) d, DLe (bfIter es d k) d := by
  intro k
  induction k with
  | zero => intro d; exact DLe_refl d
  | succ k ih =>
    intro d
    rw [bfIter]
    exact DLe_trans (ih (bfRound es d)) (bfRound_DLe es d)

theorem bfIter_succ (es : List ((String × String) × ℚ)) :
    ∀ (k : ℕ) d, bfIter es d (k + 1) = bfRound es (bfIter es d k) := by
  intro k
  induction k with
  | zero => intro d; rfl
  | succ k ih =>
    intro d
    rw [bfIter, ih (bfRound es d)]
    rfl

theorem relaxEdge_le {d : List (String × ℚ)} {u v : String} {w du : ℚ}
    (hu : lookupK d u = some du) :
    ∃ dv, lookupK (relaxEdge d ((u, v), w)) v = some dv ∧ dv ≤ du + w := by
  rw [relaxEdge]
  simp only [lookupS_eq]
  rw [hu]
  cases hv : lookupK d v with
  | none =>
    refine ⟨du + w, ?_, le_refl _⟩
    rw [lookupK_append_none _ hv]
    simp [lookupK]
  | some dv =>
    by_cases hlt : du + w < dv
    · simp only [hlt, if_true]
      rw [lookupK_mapAtK]
      simp only [if_pos rfl, hv, Option.map_some']
      exact ⟨du + w, rfl, le_refl _⟩
    · simp only [hlt, if_false]
      exact ⟨dv, hv, not_lt.mp hlt⟩

theorem bfRound_le {es : List ((String × String) × ℚ)} {u v : String} {w : ℚ}
    (hmem : ((u, v), w) ∈ es) :
    ∀ {d du}, lookupK d u = some du →
      ∃ dv, lookupK (bfRound es d) v = some dv ∧ dv ≤ du + w := by
  induction es with
  | nil => simp at hmem
  | cons e t ih =>
    intro d du hu
    rw [bfRound, List.foldl_cons]
    rcases List.mem_cons.mp hmem with rfl | hmem2
    · obtain ⟨dv1, hdv1, hle1⟩ := relaxEdge_le hu
      obtain ⟨dv2, hdv2, hle2⟩ := bfRound_DLe t (relaxEdge d ((u, v), w)) v dv1 hdv1
      exact ⟨dv2, hdv2, le_trans hle2 hle1⟩
    · obtain ⟨du2, hdu2, hle2⟩ := relaxEdge_DLe d e u du hu
      obtain ⟨dv, hdv, hle⟩ := ih hmem2 hdu2
      exact ⟨dv, hdv, le_trans hle (by linarith)⟩

theorem relaxEdge_BSound {es : List ((String × String) × ℚ)} {s : String}
    {d : List (String × ℚ)} {e : (String × String) × ℚ} (hmem : e ∈ es)
    (h : BSound es s d) : BSound es s (relaxEdge d e) := by
  intro x v hx
  rw [relaxEdge] at hx
  cases hu : lookupS d e.1.1 with
  | none =>
    rw [hu] at hx
    exact h x v hx
  | some du =>
    rw [hu] at hx
    cases hv : lookupS d e.1.2 with
    | none =>
      rw [hv] at hx
      cases hdx : lookupK d x with
      | some vd =>
        rw [lookupK_append_some _ hdx] at hx
        injection hx with h2
        rw [← h2]
        exact h x vd hdx
      | none =>
        rw [lookupK_append_none _ hdx] at hx
        rw [lookupK] at hx
        by_cases hxe : e.1.2 = x
        · simp only [hxe, if_true] at hx
          injection hx with h2
          obtain ⟨vs, hw⟩ := h e.1.1 du (by rw [← lookupS_eq]; exact hu)
          subst hxe
          have hmem2 : ((e.1.1, e.1.2), e.2) ∈ es := by
            simpa using hmem
          have := walk_snoc hw hmem2
          rw [h2] at this
          exact ⟨vs ++ [e.1.2], this⟩
        · simp only [hxe, if_false] at hx
          cases hx
    | some dv =>
      rw [hv] at hx
      by_cases hlt : du + e.2 < dv
      · simp only [hlt, if_true] at hx
        rw [lookupK_mapAtK] at hx
        by_cases hxe : x = e.1.2
        · subst hxe
          rw [lookupS_eq] at hv
          rw [hv] at hx
          simp only [if_pos rfl, Option.map_some'] at hx
          injection hx with h2
          obtain ⟨vs, hw⟩ := h e.1.1 du (by rw [← lookupS_eq]; exact hu)
          have hmem2 : ((e.1.1, e.1.2), e.2) ∈ es := by
            simpa using hmem
          have := walk_snoc hw hmem2
          rw [h2] at this
          exact ⟨vs ++ [e.1.2], this⟩
        · simp only [hxe, if_false] at hx
          exact h x v hx
      · simp only [hlt, if_false] at hx
        exact h x v hx

theorem bfRound_BSound {es : List ((String × String) × ℚ)} {s : String}
    {d : List (String × ℚ)} (h : BSound es s d) : BSound es s (bfRound es d) := by
  rw [bfRound]
  exact foldl_inv (BSound es s) (fun d2 e he hd => relaxEdge_BSound he hd) h

theorem bfIter_BSound {es : List ((String × String) × ℚ)} {s : String} :
    ∀ (k : ℕ) {d}, BSound es s d → BSound es s (bfIter es d k) := by
  intro k
  induction k with
  | zero => intro d h; exact h
  | succ k ih =>
    intro d h
    rw [bfIter]
    exact ih (bfRound_BSound h)

theorem BSound_init (es : List ((String × String) × ℚ)) (s : String) :
    BSound es s [(s, 0)] := by
  intro x v hx
  rw [lookupK] at hx
  by_cases hs : s = x
  · subst hs
    simp only [if_pos rfl] at hx
    injection hx with h2
    subst h2
    exact ⟨[s], WalkL.nil s⟩
  · simp only [hs, if_false] at hx
    cases hx

theorem noRelax_triangle {es : List ((String × String) × ℚ)}
    {d : List (String × ℚ)} (h : es.any (relaxableB d) = false) {u v : String}
    {w du : ℚ} (hmem : ((u, v), w) ∈ es) (hu : lookupK d u = some du) :
    ∃ dv, lookupK d v = some dv ∧ dv ≤ du + w := by
  have h2 := List.any_eq_false.mp h _ hmem
  rw [relaxableB] at h2
  simp only [lookupS_eq] at h2
  rw [hu] at h2
  cases hv : lookupK d v with
  | none => rw [hv] at h2; simp at h2
  | some dv =>
    rw [hv] at h2
    refine ⟨dv, rfl, ?_⟩
    simpa [not_lt] using h2

theorem bfIter_le_walk {es : List ((String × String) × ℚ)} {s : String} :
    ∀ (k : ℕ) {v : String} {vs : List String} {c : ℚ},
      WalkL es s v vs c → vs.length ≤ k + 1 →
      ∃ y, lookupK (bfIter es [(s, 0)] k) v = some y ∧ y ≤ c := by
  intro k
  induction k with
  | zero =>
    intro v vs c hw hl
    have h1 := walk_len_pos hw
    have h2 : vs.length = 1 := by omega
    obtain ⟨rfl, rfl, rfl⟩ := walk_len_one hw h2
    exact ⟨0, by simp [bfIter, lookupK], le_refl 0⟩
  | succ k ih =>
    intro v vs c hw hl
    by_cases h2 : vs.length ≤ k + 1
    · obtain ⟨y, hy, hle⟩ := ih hw h2
      rw [bfIter_succ]
      obtain ⟨y2, hy2, hle2⟩ := bfRound_DLe es (bfIter es [(s, 0)] k) v y hy
      exact ⟨y2, hy2, le_trans hle2 hle⟩
    · have h3 : 2 ≤ vs.length := by
        have := walk_len_pos hw
        omega
      obtain ⟨u, vs2, c2, w, hw2, hmem, hc, hlen⟩ := walk_snoc_inv hw h3
      obtain ⟨y, hy, hle⟩ := ih hw2 (by omega)
      rw [bfIter_succ]
      obtain ⟨y2, hy2, hle2⟩ := bfRound_le hmem hy
      exact ⟨y2, hy2, by rw [hc]; linarith⟩

/-! ### Auxiliary-graph lemmas -/

theorem insNode_of_mem {l : List String} {v : String} (h : v ∈ l) :
    insNode l v = l := by
  rw [insNode, if_pos h]

theorem upsertK_of_none {κ α : Type} [DecidableEq κ] {l : List (κ × α)} {c : κ}
    (a : α) (h : lookupK l c = none) : upsertK l c a = l ++ [(c, a)] := by
  rw [upsertK]
  simp [h]

theorem mem_upsertK_elim {κ α : Type} [DecidableEq κ] {l : List (κ × α)} {c : κ}
    {a : α} {x : κ × α} (hx : x ∈ upsertK l c a) : x ∈ l ∨ x = (c, a) := by
  rw [upsertK] at hx
  by_cases h : (lookupK l c).isSome
  · simp only [h, if_true] at hx
    obtain ⟨p, hp, he⟩ := List.mem_map.mp hx
    by_cases hpc : p.1 = c
    · right
      rw [← he]
      simp [hpc]
    · left
      rw [← he]
      simpa [hpc] using hp
  · simp only [h, Bool.false_eq_true, if_false] at hx
    rcases List.mem_append.mp hx with h1 | h1
    · exact Or.inl h1
    · right
      simpa using h1

theorem auxFold_edges :
    ∀ (l : List String) (H : DiGraph),
      (∀ v ∈ l, lookupK H.edges ("q", v) = none) → l.Nodup →
      (l.foldl (fun H v => addEdge H "q" v 0) H).edges =
        H.edges ++ l.map (fun v => (("q", v), 0)) := by
  intro l
  induction l with
  | nil => intro H _ _; simp
  | cons v t ih =>
    intro H hnone hnd
    rw [List.foldl_cons]
    rw [List.nodup_cons] at hnd
    have hv := hnone v (List.mem_cons_self _ _)
    have hstep : (addEdge H "q" v 0).edges = H.edges ++ [(("q", v), 0)] := by
      simp only [addEdge, upsertE]
      exact upsertK_of_none 0 hv
    have hnone2 : ∀ v2 ∈ t, lookupK (addEdge H "q" v 0).edges ("q", v2) = none := by
      intro v2 hv2
      rw [hstep]
      rw [lookupK_append_none _ (hnone v2 (List.mem_cons_of_mem _ hv2))]
      have hneq : v ≠ v2 := fun h => hnd.1 (h ▸ hv2)
      simp [lookupK, Prod.ext_iff, hneq]
    rw [ih (addEdge H "q" v 0) hnone2 hnd.2, hstep]
    simp

theorem auxFold_nodes :
    ∀ (l : List String) (H : DiGraph), "q" ∈ H.nodes → (∀ v ∈ l, v ∈ H.nodes) →
      (l.foldl (fun H v => addEdge H "q" v 0) H).nodes = H.nodes := by
  intro l
  induction l with
  | nil => intro H _ _; rfl
  | cons v t ih =>
    intro H hqm hvm
    rw [List.foldl_cons]
    have hstep : (addEdge H "q" v 0).nodes = H.nodes := by
      simp only [addEdge]
      rw [insNode_of_mem hqm, insNode_of_mem (hvm v (List.mem_cons_self _ _))]
    rw [ih (addEdge H "q" v 0) (by rw [hstep]; exact hqm)
      (fun v2 hv2 => by rw [hstep]; exact hvm v2 (List.mem_cons_of_mem _ hv2)),
      hstep]

theorem buildAux_spec {G : DiGraph} (hwf : G.WF) (hq : "q" ∉ G.nodes) :
    (buildAux G).nodes = G.nodes ++ ["q"] ∧
      (buildAux G).edges = G.edges ++ G.nodes.map (fun v => (("q", v), 0)) := by
  rw [buildAux]
  have haddN : (addNode G "q").nodes = G.nodes ++ ["q"] := by
    rw [addNode]
    simp only [insNode, hq, if_false]
  constructor
  · rw [auxFold_nodes _ _ (by rw [haddN]; simp)
      (fun v hv => by rw [haddN]; exact List.mem_append_left _ hv)]
    exact haddN
  · rw [auxFold_edges _ _ ?hne hwf.1]
    case hne =>
      intro v _
      rw [lookupK_eq_none_iff]
      intro hk
      obtain ⟨e, he, hfst⟩ := List.mem_map.mp hk
      have := (hwf.2.2 e he).1
      rw [hfst] at this
      exact hq this
    rfl

theorem auxFold_zero :
    ∀ (l : List String) (H : DiGraph) (v : String),
      (v ∈ l ∨ lookupK H.edges ("q", v) = some 0) →
      lookupK ((l.foldl (fun H v => addEdge H "q" v 0) H)).edges ("q", v) = some 0 := by
  intro l
  induction l with
  | nil =>
    intro H v hv
    rcases hv with h | h
    · simp at h
    · exact h
  | cons u t ih =>
    intro H v hv
    rw [List.foldl_cons]
    apply ih
    have hstep : lookupK (addEdge H "q" u 0).edges ("q", v) =
        if ("q", v) = (("q", u) : String × String) then some 0
        else lookupK H.edges ("q", v) := by
      simp only [addEdge, upsertE]
      exact lookupK_upsertK _ _ _ _
    by_cases hvu : v = u
    · right
      rw [hstep, if_pos (by rw [hvu])]
    · rcases hv with h | h
      · rcases List.mem_cons.mp h with h2 | h2
        · exact absurd h2 hvu
        · exact Or.inl h2
      · right
        rw [hstep, if_neg (by simp [Prod.ext_iff, hvu]), h]

theorem buildAux_zero {G : DiGraph} {v : String} (hv : v ∈ G.nodes) :
    lookupK (buildAux G).edges ("q", v) = some 0 :=
  auxFold_zero _ _ v (Or.inl hv)

theorem auxFold_nonneg :
    ∀ (l : List String) (H : DiGraph), (∀ e ∈ H.edges, 0 ≤ e.2) →
      ∀ e ∈ (l.foldl (fun H v => addEdge H "q" v 0) H).edges, 0 ≤ e.2 := by
  intro l
  induction l with
  | nil => intro H h; exact h
  | cons u t ih =>
    intro H h
    rw [List.foldl_cons]
    apply ih
    intro e he
    simp only [addEdge, upsertE] at he
    rcases mem_upsertK_elim he with h1 | h1
    · exact h e h1
    · rw [h1]

theorem buildAux_nonneg {G : DiGraph} (h : ∀ e ∈ G.edges, 0 ≤ e.2) :
    ∀ e ∈ (buildAux G).edges, 0 ≤ e.2 := by
  rw [buildAux]
  exact auxFold_nonneg _ _ h

theorem addNode_WF {G : DiGraph} (hwf : G.WF) (v : String) : (addNode G v).WF :=
  ⟨nodup_insNode hwf.1 v, hwf.2.1, fun e he =>
    ⟨mem_insNode.mpr (Or.inl (hwf.2.2 e he).1),
      mem_insNode.mpr (Or.inl (hwf.2.2 e he).2)⟩⟩

theorem addEdge_WF {G : DiGraph} (hwf : G.WF) (u v : String) (w : ℚ) :
    (addEdge G u v w).WF := by
  obtain ⟨hn, hk, he⟩ := hwf
  refine ⟨nodup_insNode (nodup_insNode hn _) _, ?_, ?_⟩
  · simp only [addEdge, upsertE]
    by_cases h : (lookupK G.edges (u, v)).isSome
    · rw [keys_upsertK_isSome _ _ _ h]
      exact hk
    · have hnone := Option.not_isSome_iff_eq_none.mp h
      rw [keys_upsertK_none _ _ _ hnone]
      rw [List.nodup_append]
      exact ⟨hk, List.nodup_singleton _,
        by simpa using fun hmm => lookupK_eq_none_iff.mp hnone hmm⟩
  · intro e hee
    simp only [addEdge, upsertE] at hee
    rcases mem_upsertK_elim hee with h1 | h1
    · exact ⟨mem_insNode.mpr (Or.inl (mem_insNode.mpr (Or.inl (he e h1).1))),
        mem_insNode.mpr (Or.inl (mem_insNode.mpr (Or.inl (he e h1).2)))⟩
    · subst h1
      exact ⟨mem_insNode.mpr (Or.inl (mem_insNode.mpr (Or.inr rfl))),
        mem_insNode.mpr (Or.inr rfl)⟩

theorem buildAux_WF {G : DiGraph} (hwf : G.WF) : (buildAux G).WF := by
  rw [buildAux]
  exact foldl_inv DiGraph.WF (fun H v _ hH => addEdge_WF hH "q" v 0)
    (addNode_WF hwf "q")

/-! ### Negative-cycle detection lemmas -/

theorem aux_no_edge_into_q {G : DiGraph} (hwf : G.WF) (hq : "q" ∉ G.nodes)
    {u : String} {w : ℚ} (hmem : ((u, "q"), w) ∈ (buildAux G).edges) : False := by
  rw [(buildAux_spec hwf hq).2] at hmem
  rcases List.mem_append.mp hmem with h1 | h1
  · exact hq (hwf.2.2 _ h1).2
  · obtain ⟨v, hv, he⟩ := List.mem_map.mp h1
    have hvq : v = "q" := by
      have := congrArg (fun p => p.1.2) he
      simpa using this
    exact hq (hvq ▸ hv)

theorem aux_walk_to_q {G : DiGraph} (hwf : G.WF) (hq : "q" ∉ G.nodes)
    {a b : String} {vs : List String} {c : ℚ}
    (hw : WalkL (buildAux G).edges a b vs c) (hb : b = "q") :
    a = "q" ∧ c = 0 := by
  induction hw with
  | nil v => exact ⟨hb, rfl⟩
  | cons hm hw2 ih =>
    obtain ⟨h1, h2⟩ := ih hb
    rw [h1] at hm
    exact absurd hm (fun hmm => aux_no_edge_into_q hwf hq hmm)

theorem aux_walk_in_G {G : DiGraph} (hwf : G.WF) (hq : "q" ∉ G.nodes)
    {a b : String} {vs : List String} {c : ℚ}
    (hw : WalkL (buildAux G).edges a b vs c) :
    a ≠ "q" → WalkL G.edges a b vs c := by
  induction hw with
  | nil v => intro _; exact WalkL.nil v
  | @cons u x t w c vs hm hw2 ih =>
    intro ha
    have hmG : ((u, x), w) ∈ G.edges := by
      rw [(buildAux_spec hwf hq).2] at hm
      rcases List.mem_append.mp hm with h1 | h1
      · exact h1
      · exfalso
        obtain ⟨v2, hv2, he⟩ := List.mem_map.mp h1
        apply ha
        have := congrArg (fun p => p.1.1) he
        simpa using this.symm
    have hx : x ≠ "q" := fun hxq => hq (hxq ▸ (hwf.2.2 _ hmG).2)
    exact WalkL.cons hmG (ih hx)

theorem aux_negcycle {G : DiGraph} (hwf : G.WF) (hq : "q" ∉ G.nodes)
    (h : ∃ x vs c, WalkL (buildAux G).edges x x vs c ∧ c < 0) : NegCycle G := by
  obtain ⟨x, vs, c, hw, hc⟩ := h
  by_cases hxq : x = "q"
  · obtain ⟨-, h0⟩ := aux_walk_to_q hwf hq hw hxq
    rw [h0] at hc
    exact absurd hc (by norm_num)
  · exact ⟨x, vs, c, aux_walk_in_G hwf hq hw hxq, hc⟩

theorem bf_check_false {G : DiGraph} (hwf : G.WF) (hq : "q" ∉ G.nodes)
    (hnc : ¬ NegCycle G) :
    (buildAux G).edges.any
      (relaxableB (bfIter (buildAux G).edges [("q", 0)]
        ((buildAux G).nodes.length - 1))) = false := by
  by_contra hany
  rw [Bool.not_eq_false] at hany
  obtain ⟨e, hmem, hrel⟩ := List.any_eq_true.mp hany
  obtain ⟨⟨u, v⟩, w⟩ := e
  rw [relaxableB] at hrel
  simp only [lookupS_eq] at hrel
  cases hu : lookupK (bfIter (buildAux G).edges [("q", 0)]
      ((buildAux G).nodes.length - 1)) u with
  | none => rw [hu] at hrel; simp at hrel
  | some du =>
    rw [hu] at hrel
    have hbs : BSound (buildAux G).edges "q"
        (bfIter (buildAux G).edges [("q", 0)] ((buildAux G).nodes.length - 1)) :=
      bfIter_BSound _ (BSound_init _ _)
    obtain ⟨vs, hwu⟩ := hbs u du hu
    have hwv := walk_snoc hwu hmem
    have hnn : ∀ x vsx cx, WalkL (buildAux G).edges x x vsx cx → 0 ≤ cx :=
      fun x vsx cx hwx =>
        le_of_not_lt (fun hlt => hnc (aux_negcycle hwf hq ⟨x, vsx, cx, hwx, hlt⟩))
    have hend : ∀ e2 ∈ (buildAux G).edges,
        e2.1.1 ∈ (buildAux G).nodes ∧ e2.1.2 ∈ (buildAux G).nodes :=
      (buildAux_WF hwf).2.2
    have hqmem : "q" ∈ (buildAux G).nodes := by
      rw [(buildAux_spec hwf hq).1]
      simp
    obtain ⟨vs2, c2, hw2, hc2, hlen2⟩ :=
      walk_shorten hnn hend ((vs ++ [v]).length) (le_refl _) hwv hqmem
    have hlen3 : vs2.length ≤ ((buildAux G).nodes.length - 1) + 1 := by
      have h1 : 1 ≤ (buildAux G).nodes.length := by
        cases hh : (buildAux G).nodes with
        | nil => rw [hh] at hqmem; simp at hqmem
        | cons a t => simp [hh]
      omega
    obtain ⟨y, hy, hyle⟩ := bfIter_le_walk _ hw2 hlen3
    cases hv : lookupK (bfIter (buildAux G).edges [("q", 0)]
        ((buildAux G).nodes.length - 1)) v with
    | none => rw [hv] at hy; cases hy
    | some dv =>
      rw [hv] at hrel hy
      injection hy with hy2
      simp only [decide_eq_true_eq] at hrel
      subst hy2
      linarith

theorem bf_check_true {G : DiGraph} (hwf : G.WF) (hq : "q" ∉ G.nodes)
    (hcyc : NegCycle G) :
    (buildAux G).edges.any
      (relaxableB (bfIter (buildAux G).edges [("q", 0)]
        ((buildAux G).nodes.length - 1))) = true := by
  by_contra hany
  rw [Bool.not_eq_true] at hany
  obtain ⟨v0, vs, c, hw, hc⟩ := hcyc
  have hv0 : v0 ∈ G.nodes := by
    cases hw with
    | nil => exact absurd hc (by norm_num)
    | cons hm hw2 => exact (hwf.2.2 _ hm).1
  have hGlen : 1 ≤ G.nodes.length := by
    cases hh : G.nodes with
    | nil => rw [hh] at hv0; simp at hv0
    | cons a t => simp [hh]
  have hauxlen : (buildAux G).nodes.length = G.nodes.length + 1 := by
    rw [(buildAux_spec hwf hq).1]
    simp
  have hrounds : (buildAux G).nodes.length - 1 = (G.nodes.length - 1) + 1 := by
    omega
  have hmem0 : (("q", v0), (0 : ℚ)) ∈ (buildAux G).edges :=
    lookupK_mem (buildAux_zero hv0)
  have hq0 : lookupK [(("q" : String), (0 : ℚ))] "q" = some 0 := by
    simp [lookupK]
  have hdef : ∃ y, lookupK (bfIter (buildAux G).edges [("q", 0)]
      ((buildAux G).nodes.length - 1)) v0 = some y := by
    rw [hrounds, bfIter]
    obtain ⟨y1, hy1, _⟩ := bfRound_le hmem0 hq0
    obtain ⟨y2, hy2, _⟩ :=
      bfIter_DLe (buildAux G).edges (G.nodes.length - 1)
        (bfRound (buildAux G).edges [("q", 0)]) v0 y1 hy1
    exact ⟨y2, hy2⟩
  obtain ⟨y, hy⟩ := hdef
  have htr : ∀ (a b2 : String) (w : ℚ), ((a, b2), w) ∈ G.edges → ∀ da,
      lookupK (bfIter (buildAux G).edges [("q", 0)]
        ((buildAux G).nodes.length - 1)) a = some da →
      ∃ db, lookupK (bfIter (buildAux G).edges [("q", 0)]
        ((buildAux G).nodes.length - 1)) b2 = some db ∧ db ≤ da + w := by
    intro a b2 w2 hm da hda
    have hmaux : ((a, b2), w2) ∈ (buildAux G).edges := by
      rw [(buildAux_spec hwf hq).2]
      exact List.mem_append_left _ hm
    exact noRelax_triangle hany hmaux hda
  have hwalk_le : ∀ {a b2 : String} {vs2 : List String} {c2 : ℚ},
      WalkL G.edges a b2 vs2 c2 → ∀ {da},
      lookupK (bfIter (buildAux G).edges [("q", 0)]
        ((buildAux G).nodes.length - 1)) a = some da →
      ∃ db, lookupK (bfIter (buildAux G).edges [("q", 0)]
        ((buildAux G).nodes.length - 1)) b2 = some db ∧ db ≤ da + c2 := by
    intro a b2 vs2 c2 hw2
    induction hw2 with
    | nil v =>
      intro da hda
      exact ⟨da, hda, by linarith⟩
    | cons hm hw3 ih =>
      intro da hda
      obtain ⟨dx, hdx, hle1⟩ := htr _ _ _ hm da hda
      obtain ⟨db, hdb, hle2⟩ := ih hdx
      exact ⟨db, hdb, by linarith⟩
  obtain ⟨db, hdb, hle⟩ := hwalk_le hw hy
  rw [hy] at hdb
  injection hdb with hdb2
  rw [← hdb2] at hle
  linarith

theorem bellman_ford_aux_iff {G : DiGraph} (hwf : G.WF) (hq : "q" ∉ G.nodes) :
    bellman_ford (buildAux G) "q" = none ↔ NegCycle G := by
  simp only [bellman_ford]
  constructor
  · intro h
    by_contra hnc
    rw [bf_check_false hwf hq hnc] at h
    simp at h
  · intro hcyc
    rw [bf_check_true hwf hq hcyc]
    simp

theorem except_bind_ok {ε α β : Type} (a : α) (f : α → Except ε β) :
    (Except.ok a >>= f) = f a := rfl

theorem except_bind_err {ε α β : Type} (e : ε) (f : α → Except ε β) :
    ((Except.error e : Except ε α) >>= f) = Except.error e := rfl

theorem getH_ne_nc {h : List (String × ℚ)} {v : String} {e : JErr}
    (he : getH h v = .error e) : e = .keyError := by
  rw [getH] at he
  cases hl : lookupS h v with
  | some x => rw [hl] at he; cases he
  | none =>
    rw [hl] at he
    injection he with h2
    exact h2.symm

theorem reweight_ne_nc {G : DiGraph} {h : List (String × ℚ)} {e : JErr}
    (hre : reweightGraph G h = .error e) : e = .keyError := by
  rw [reweightGraph] at hre
  revert hre
  generalize (⟨[], []⟩ : DiGraph) = H
  induction G.edges generalizing H with
  | nil =>
    intro hre
    exact Except.noConfusion hre
  | cons a t ih =>
    intro hre
    rw [List.foldlM_cons] at hre
    cases h1 : getH h a.1.1 with
    | error e1 =>
      rw [h1] at hre
      simp only [except_bind_err] at hre
      injection hre with h2
      rw [← h2]
      exact getH_ne_nc h1
    | ok hu =>
      rw [h1] at hre
      simp only [except_bind_ok] at hre
      cases h2 : getH h a.1.2 with
      | error e2 =>
        rw [h2] at hre
        simp only [except_bind_err] at hre
        injection hre with h3
        rw [← h3]
        exact getH_ne_nc h2
      | ok hv =>
        rw [h2] at hre
        simp only [except_bind_ok] at hre
        exact ih _ hre

theorem correctD_inner_ne {h : List (String × ℚ)} {hu : ℚ} :
    ∀ (l : List (String × ℚ)) {e : JErr},
      (l.mapM (fun q => do
        let hv ← getH h q.1
        pure (q.1, q.2 + hv - hu))) = (Except.error e : Except JErr _) →
      e = .keyError := by
  intro l
  induction l with
  | nil =>
    intro e he
    rw [List.mapM_nil] at he
    exact Except.noConfusion he
  | cons a t ih =>
    intro e he
    rw [List.mapM_cons] at he
    cases h1 : getH h a.1 with
    | error e1 =>
      rw [h1] at he
      simp only [except_bind_err] at he
      injection he with h2
      rw [← h2]
      exact getH_ne_nc h1
    | ok hv =>
      rw [h1] at he
      simp only [except_bind_ok, except_bind_err] at he
      cases h2 : t.mapM (fun q => do
          let hv ← getH h q.1
          pure (q.1, q.2 + hv - hu)) with
      | error e2 =>
        rw [h2] at he
        simp only [except_bind_err] at he
        injection he with h3
        rw [← h3]
        exact ih h2
      | ok l2 =>
        rw [h2] at he
        simp only [except_bind_ok] at he
        exact Except.noConfusion he

theorem correctD_ne_nc {h : List (String × ℚ)} :
    ∀ (ds : List (String × List (String × ℚ))) {e : JErr},
      correctD h ds = .error e → e = .keyError := by
  intro ds
  induction ds with
  | nil =>
    intro e he
    rw [correctD, List.mapM_nil] at he
    exact Except.noConfusion he
  | cons p t ih =>
    intro e he
    rw [correctD, List.mapM_cons] at he
    cases h1 : getH h p.1 with
    | error e1 =>
      rw [h1] at he
      simp only [except_bind_err] at he
      injection he with h2
      rw [← h2]
      exact getH_ne_nc h1
    | ok hu =>
      rw [h1] at he
      simp only [except_bind_ok] at he
      cases h2 : p.2.mapM (fun q => do
          let hv ← getH h q.1
          pure (q.1, q.2 + hv - hu)) with
      | error e2 =>
        rw [h2] at he
        simp only [except_bind_err] at he
        injection he with h3
        rw [← h3]
        exact correctD_inner_ne p.2 h2
      | ok l2 =>
        rw [h2] at he
        simp only [except_bind_ok] at he
        have he2 : (correctD h t >>= fun bs =>
            (pure ((p.1, l2) :: bs) : Except JErr _)) = Except.error e := he
        cases h3 : correctD h t with
        | error e3 =>
          rw [h3] at he2
          simp only [except_bind_err] at he2
          injection he2 with h4
          rw [← h4]
          exact ih h3
        | ok l3 =>
          rw [h3] at he2
          simp only [except_bind_ok] at he2
          exact Except.noConfusion he2

theorem runsM_ne_nc {es2 : List ((String × String) × ℚ)} :
    ∀ (ns : List String) {e : JErr},
      (ns.mapM (fun s =>
        match dijkstra es2 s with
        | none => (Except.error JErr.valueError :
            Except JErr (String × List (String × ℚ × List String)))
        | some r => Except.ok (s, r)) = Except.error e) →
      e = JErr.valueError := by
  intro ns
  induction ns with
  | nil =>
    intro e he
    rw [List.mapM_nil] at he
    exact Except.noConfusion he
  | cons a t ih =>
    intro e he
    rw [List.mapM_cons] at he
    cases hd : dijkstra es2 a with
    | none =>
      rw [hd] at he
      simp only [except_bind_err] at he
      injection he with h2
      exact h2.symm
    | some r =>
      rw [hd] at he
      simp only [except_bind_ok] at he
      cases ht : t.mapM (fun s =>
          match dijkstra es2 s with
          | none => (Except.error JErr.valueError :
              Except JErr (String × List (String × ℚ × List String)))
          | some r => Except.ok (s, r)) with
      | error e2 =>
        rw [ht] at he
        simp only [except_bind_err] at he
        injection he with h2
        rw [← h2]
        exact ih ht
      | ok l2 =>
        rw [ht] at he
        simp only [except_bind_ok] at he
        exact Except.noConfusion he

theorem johnson_nc_iff {G : DiGraph} :
    johnson_algorithm G = .error .negativeCycle ↔
      bellman_ford (buildAux G) "q" = none := by
  rw [johnson_algorithm]
  cases hbf : bellman_ford (buildAux G) "q" with
  | none => simp
  | some h =>
    simp only []
    constructor
    · intro hj
      exfalso
      cases hre : reweightGraph G h with
      | error e1 =>
        rw [hre] at hj
        simp only [except_bind_err] at hj
        injection hj with h2
        have h3 := reweight_ne_nc hre
        rw [h2] at h3
        exact JErr.noConfusion h3
      | ok Gr =>
        rw [hre] at hj
        simp only [except_bind_ok] at hj
        cases hruns : Gr.nodes.mapM (fun s =>
            match dijkstra Gr.edges s with
            | none => (Except.error JErr.valueError :
                Except JErr (String × List (String × ℚ × List String)))
            | some r => Except.ok (s, r)) with
        | error e2 =>
          rw [hruns] at hj
          simp only [except_bind_err] at hj
          injection hj with h2
          have h3 := runsM_ne_nc Gr.nodes hruns
          rw [h2] at h3
          exact JErr.noConfusion h3
        | ok runs =>
          rw [hruns] at hj
          simp only [except_bind_ok] at hj
          cases hco : correctD h (runs.map (fun r => (r.1, settledD r.2))) with
          | error e2 =>
            rw [hco] at hj
            simp only [except_bind_err] at hj
            injection hj with h2
            have h3 := correctD_ne_nc _ hco
            rw [h2] at h3
            exact JErr.noConfusion h3
          | ok ds2 =>
            rw [hco] at hj
            simp only [except_bind_ok] at hj
            exact Except.noConfusion hj
    · intro h2
      exact Option.noConfusion h2

theorem noNegCycle_of_bf_some {G : DiGraph} (hwf : G.WF) (hq : "q" ∉ G.nodes)
    {h : List (String × ℚ)} (hbf : bellman_ford (buildAux G) "q" = some h) :
    ¬ NegCycle G := fun hcyc => by
  rw [(bellman_ford_aux_iff hwf hq).mpr hcyc] at hbf
  cases hbf

theorem bellman_ford_some_elim {H : DiGraph} {s : String}
    {h : List (String × ℚ)} (hbf : bellman_ford H s = some h) :
    H.edges.any (relaxableB h) = false ∧
      h = bfIter H.edges [(s, 0)] (H.nodes.length - 1) := by
  simp only [bellman_ford] at hbf
  by_cases hc : H.edges.any
      (relaxableB (bfIter H.edges [(s, 0)] (H.nodes.length - 1))) = true
  · rw [if_pos hc] at hbf
    cases hbf
  · rw [if_neg hc] at hbf
    injection hbf with h2
    rw [Bool.not_eq_true] at hc
    subst h2
    exact ⟨hc, rfl⟩

theorem bf_ok_triangle {G : DiGraph} (hwf : G.WF) (hq : "q" ∉ G.nodes)
    {h : List (String × ℚ)} (hbf : bellman_ford (buildAux G) "q" = some h)
    {u v : String} {w : ℚ} (hmem : ((u, v), w) ∈ G.edges) {hu : ℚ}
    (hhu : lookupK h u = some hu) :
    ∃ hv, lookupK h v = some hv ∧ hv ≤ hu + w := by
  obtain ⟨hchk, hh⟩ := bellman_ford_some_elim hbf
  have hmaux : ((u, v), w) ∈ (buildAux G).edges := by
    rw [(buildAux_spec hwf hq).2]
    exact List.mem_append_left _ hmem
  exact noRelax_triangle hchk hmaux hhu

theorem bf_defined {G : DiGraph} (hwf : G.WF) (hq : "q" ∉ G.nodes)
    {h : List (String × ℚ)} (hbf : bellman_ford (buildAux G) "q" = some h)
    {v : String} (hv : v ∈ G.nodes) : ∃ y, lookupK h v = some y := by
  obtain ⟨-, hh⟩ := bellman_ford_some_elim hbf
  subst hh
  have hGlen : 1 ≤ G.nodes.length := by
    cases hh2 : G.nodes with
    | nil => rw [hh2] at hv; simp at hv
    | cons a t => simp [hh2]
  have hauxlen : (buildAux G).nodes.length = G.nodes.length + 1 := by
    rw [(buildAux_spec hwf hq).1]
    simp
  have hrounds : (buildAux G).nodes.length - 1 = (G.nodes.length - 1) + 1 := by
    omega
  rw [hrounds, bfIter]
  obtain ⟨y1, hy1, -⟩ := bfRound_le (lookupK_mem (buildAux_zero hv))
    (show lookupK [(("q" : String), (0 : ℚ))] "q" = some 0 by simp [lookupK])
  obtain ⟨y2, hy2, -⟩ :=
    bfIter_DLe (buildAux G).edges (G.nodes.length - 1)
      (bfRound (buildAux G).edges [("q", 0)]) v y1 hy1
  exact ⟨y2, hy2⟩

theorem noNegCycle_single {u v : String} {w : ℚ} {ns : List String}
    (huv : u ≠ v) : ¬ NegCycle ⟨ns, [((u, v), w)]⟩ := by
  have hwalk : ∀ {a b : String} {vs : List String} {c : ℚ},
      WalkL [((u, v), w)] a b vs c →
      (a = b ∧ c = 0) ∨ (a = u ∧ b = v ∧ c = w + 0) := by
    intro a b vs c hw
    induction hw with
    | nil x => exact Or.inl ⟨rfl, rfl⟩
    | @cons a2 x2 t2 w2 c2 vs2 hm hw2 ih =>
      have h2 := List.mem_singleton.mp hm
      have hu2 : a2 = u := congrArg (fun p => p.1.1) h2
      have hx2 : x2 = v := congrArg (fun p => p.1.2) h2
      have hwt : w2 = w := congrArg (fun p => p.2) h2
      rcases ih with ⟨hab, hc0⟩ | ⟨hau, hbv, hcw⟩
      · right
        subst hu2
        subst hx2
        rw [← hab]
        exact ⟨rfl, rfl, by rw [hwt, hc0]⟩
      · exfalso
        rw [hx2] at hau
        exact huv hau.symm
  rintro ⟨x, vs, c, hw, hc⟩
  rcases hwalk hw with ⟨-, h0⟩ | ⟨hxu, hxv, -⟩
  · rw [h0] at hc
    exact absurd hc (by norm_num)
  · exact huv (hxu ▸ hxv ▸ rfl)

/-- Bellman-Ford potentials of a successful run make every reweighted weight
non-negative, provided no original vertex is named q. -/
theorem reweight_nonneg {G : DiGraph} (hwf : G.WF) (hq : "q" ∉ G.nodes)
    {h : List (String × ℚ)} (hbf : bellman_ford (buildAux G) "q" = some h) :
    ∀ e ∈ G.edges, ∃ hu hv, lookupK h e.1.1 = some hu ∧
      lookupK h e.1.2 = some hv ∧ 0 ≤ e.2 + hu - hv := by
  intro e he
  obtain ⟨hu, hhu⟩ := bf_defined hwf hq hbf (hwf.2.2 e he).1
  have hmem : ((e.1.1, e.1.2), e.2) ∈ G.edges := by simpa using he
  obtain ⟨hv, hhv, hle⟩ := bf_ok_triangle hwf hq hbf hmem hhu
  exact ⟨hu, hv, hhu, hhv, by linarith⟩

/-! ### Claim C3 -/

/-- C3 counterexample: a graph that already contains a vertex named q and a
negative cycle through it; the auxiliary construction overwrites the outgoing
edges of q with weight 0 so Bellman-Ford sees no negative cycle, and the run
then fails inside the first Dijkstra call with the networkx ValueError
(contradictory paths, raised when the still-negative reweighted edge improves
the settled source) - not with the negative-cycle error the claim requires. -/
theorem C3_cex :
    NegCycle GCex ∧ johnson_algorithm GCex = .error .valueError ∧
      JErr.valueError ≠ JErr.negativeCycle := by
  refine ⟨?_, by with_unfolding_all rfl, by decide⟩
  refine ⟨"q", ["q", "a", "q"], -5 + (1 + 0), ?_, by norm_num⟩
  exact WalkL.cons (List.mem_cons_self _ _)
    (WalkL.cons (List.mem_cons_of_mem _ (List.mem_cons_self _ _))
      (WalkL.nil "q"))

/-- C3 amended: for every well-formed graph none of whose vertices is named q,
johnson_algorithm fails with the negative-cycle error exactly on the graphs
containing a negative cycle (and an Except value carries no partial result),
and never raises that error on a graph without a negative cycle. -/
theorem C3_negcycle_amended (G : DiGraph) (hwf : G.WF) (hq : "q" ∉ G.nodes) :
    (NegCycle G → johnson_algorithm G = .error .negativeCycle) ∧
      (¬ NegCycle G → johnson_algorithm G ≠ .error .negativeCycle) := by
  constructor
  · intro hcyc
    rw [johnson_nc_iff]
    exact (bellman_ford_aux_iff hwf hq).mpr hcyc
  · intro hnc h
    exact hnc ((bellman_ford_aux_iff hwf hq).mp (johnson_nc_iff.mp h))

/-- C3 witness: the amended claim detects the fresh-vertex negative cycle and
stays silent on a non-negative graph. -/
theorem C3_witness :
    johnson_algorithm GNex = .error .negativeCycle ∧
      johnson_algorithm G1ex ≠ .error .negativeCycle := by
  constructor
  · exact (C3_negcycle_amended GNex (by decide) (by decide)).1
      ⟨"a", ["a", "b", "a"], -5 + (1 + 0),
        WalkL.cons (List.mem_cons_self _ _)
          (WalkL.cons (List.mem_cons_of_mem _ (List.mem_cons_self _ _))
            (WalkL.nil "a")), by norm_num⟩
  · exact (C3_negcycle_amended G1ex (by decide) (by decide)).2
      (noNegCycle_of_bf_some (by decide) (by decide)
        (show bellman_ford (buildAux G1ex) "q" =
            some [("q", 0), ("a", 0), ("b", 0)] by with_unfolding_all rfl))

/-! ### Claim C4 -/

/-- C4 counterexample: a graph that already contains a vertex named q, with a
negative edge and no negative cycle; the corrupted potentials are all zero and
the reweighted weight stays -5 < 0, so the claim as stated fails. -/
theorem C4_cex :
    (∃ e ∈ G7ex.edges, e.2 < 0) ∧ ¬ NegCycle G7ex ∧
      bellman_ford (buildAux G7ex) "q" = some [("q", 0), ("a", 0)] ∧
      lookupK [(("q" : String), (0 : ℚ)), ("a", 0)] "q" = some 0 ∧
      lookupK [(("q" : String), (0 : ℚ)), ("a", 0)] "a" = some 0 ∧
      (-5 : ℚ) + 0 - 0 < 0 := by
  refine ⟨⟨(("q", "a"), -5), List.mem_cons_self _ _, by norm_num⟩, ?_,
    by with_unfolding_all rfl, by simp [lookupK], by simp [lookupK], by norm_num⟩
  exact noNegCycle_single (by decide)

/-- C4 amended: for every well-formed graph with no vertex named q, at least
one negative edge and no negative cycle, Bellman-Ford from the synthetic
source succeeds and every reweighted weight w + h(u) - h(v) computed by
johnson_algorithm is non-negative. -/
theorem C4_reweight_nonneg_amended (G : DiGraph) (hwf : G.WF)
    (hq : "q" ∉ G.nodes) (hneg : ∃ e ∈ G.edges, e.2 < 0) (hnc : ¬ NegCycle G) :
    ∃ h, bellman_ford (buildAux G) "q" = some h ∧
      ∀ e ∈ G.edges, ∃ hu hv, lookupK h e.1.1 = some hu ∧
        lookupK h e.1.2 = some hv ∧ 0 ≤ e.2 + hu - hv := by
  cases hbf : bellman_ford (buildAux G) "q" with
  | none => exact absurd ((bellman_ford_aux_iff hwf hq).mp hbf) hnc
  | some h => exact ⟨h, rfl, reweight_nonneg hwf hq hbf⟩

/-! ### Dijkstra loop: structural lemmas -/

theorem extractMin_none {fr : List (String × ℚ × List String)} :
    extractMin fr = none ↔ fr = [] := by
  cases fr with
  | nil => simp [extractMin]
  | cons x xs =>
    cases h : extractMin xs with
    | none => simp [extractMin, h]
    | some p =>
      obtain ⟨m, r⟩ := p
      by_cases hle : x.2.1 ≤ m.2.1
      · simp [extractMin, h, hle]
      · simp [extractMin, h, hle]

theorem extractMin_perm {fr : List (String × ℚ × List String)}
    {x : String × ℚ × List String} {rest : List (String × ℚ × List String)}
    (h : extractMin fr = some (x, rest)) : fr.Perm (x :: rest) := by
  induction fr generalizing x rest with
  | nil => simp [extractMin] at h
  | cons y ys ih =>
    cases hys : extractMin ys with
    | none =>
      have h2 : extractMin (y :: ys) = some (y, []) := by
        simp [extractMin, hys]
      rw [h2] at h
      injection h with h3
      have hx : y = x := congrArg Prod.fst h3
      have hr : ([] : List (String × ℚ × List String)) = rest :=
        congrArg Prod.snd h3
      rw [extractMin_none] at hys
      subst hys
      rw [← hx, ← hr]
    | some p =>
      obtain ⟨m, r⟩ := p
      by_cases hle : y.2.1 ≤ m.2.1
      · have h2 : extractMin (y :: ys) = some (y, ys) := by
          simp [extractMin, hys, hle]
        rw [h2] at h
        injection h with h3
        have hx : y = x := congrArg Prod.fst h3
        have hr : ys = rest := congrArg Prod.snd h3
        rw [← hx, ← hr]
      · have h2 : extractMin (y :: ys) = some (m, y :: r) := by
          simp [extractMin, hys, hle]
        rw [h2] at h
        injection h with h3
        have hx : m = x := congrArg Prod.fst h3
        have hr : y :: r = rest := congrArg Prod.snd h3
        have hperm := ih hys
        rw [← hx, ← hr]
        exact (hperm.cons y).trans (List.Perm.swap m y r)

theorem keys_pushF (fr : List (String × ℚ × List String)) (v : String)
    (nd : ℚ) (np : List String) :
    (pushF fr v nd np).map Prod.fst =
      if v ∈ fr.map Prod.fst then fr.map Prod.fst
      else fr.map Prod.fst ++ [v] := by
  cases hl : lookupS fr v with
  | none =>
    have hv : v ∉ fr.map Prod.fst := lookupK_eq_none_iff.mp hl
    simp only [pushF, hl]
    rw [if_neg hv]
    simp
  | some y =>
    have hv : v ∈ fr.map Prod.fst := by
      rw [← lookupK_isSome_iff]
      rw [lookupS] at hl
      simp [hl]
    simp only [pushF, hl]
    rw [if_pos hv]
    by_cases hlt : nd < y.1
    · rw [if_pos hlt]
      exact keys_mapAtK fr v _
    · rw [if_neg hlt]

theorem mem_keys_pushF {fr : List (String × ℚ × List String)} {v : String}
    {nd : ℚ} {np : List String} {k : String} :
    k ∈ (pushF fr v nd np).map Prod.fst ↔ k ∈ fr.map Prod.fst ∨ k = v := by
  rw [keys_pushF]
  by_cases hv : v ∈ fr.map Prod.fst
  · rw [if_pos hv]
    constructor
    · exact Or.inl
    · rintro (h | h)
      · exact h
      · rw [h]; exact hv
  · rw [if_neg hv]
    simp

theorem nodup_keys_pushF {fr : List (String × ℚ × List String)} (v : String)
    (nd : ℚ) (np : List String) (h : (fr.map Prod.fst).Nodup) :
    ((pushF fr v nd np).map Prod.fst).Nodup := by
  rw [keys_pushF]
  by_cases hv : v ∈ fr.map Prod.fst
  · rw [if_pos hv]; exact h
  · rw [if_neg hv]
    simp [List.nodup_append, h, hv]

theorem mem_mapAtK_elim {κ α : Type} [DecidableEq κ] {l : List (κ × α)} {c : κ}
    {f : α → α} {x : κ × α} (hx : x ∈ mapAtK l c f) :
    x ∈ l ∨ ∃ y, (c, y) ∈ l ∧ x = (c, f y) := by
  rw [mapAtK] at hx
  obtain ⟨p, hp, he⟩ := List.mem_map.mp hx
  by_cases hc : p.1 = c
  · right
    refine ⟨p.2, ?_, ?_⟩
    · rw [← hc]; exact hp
    · rw [← he]
      simp [hc]
  · left
    rw [← he]
    simpa [hc] using hp

theorem mem_pushF_elim {fr : List (String × ℚ × List String)} {v : String}
    {nd : ℚ} {np : List String} {x : String × ℚ × List String}
    (hx : x ∈ pushF fr v nd np) : x ∈ fr ∨ x = (v, nd, np) := by
  cases hl : lookupS fr v with
  | none =>
    simp only [pushF, hl] at hx
    rcases List.mem_append.mp hx with h | h
    · exact Or.inl h
    · right
      simpa using h
  | some y =>
    simp only [pushF, hl] at hx
    by_cases hlt : nd < y.1
    · rw [if_pos hlt] at hx
      rcases mem_mapAtK_elim hx with h | h
      · exact Or.inl h
      · right
        obtain ⟨z, -, hz⟩ := h
        exact hz
    · rw [if_neg hlt] at hx
      exact Or.inl hx

/-- The edge-relaxation step folded by relaxAll, named for the proofs. -/
def dStep (u : String) (du : ℚ) (pu : List String)
    (settled : List (String × ℚ × List String))
    (f : List (String × ℚ × List String)) (e : (String × String) × ℚ) :
    List (String × ℚ × List String) :=
  if e.1.1 = u ∧ (lookupS settled e.1.2).isNone then
    pushF f e.1.2 (du + e.2) (pu ++ [e.1.2])
  else f

theorem relaxAll_eq_foldl (es : List ((String × String) × ℚ)) (u : String)
    (du : ℚ) (pu : List String)
    (settled fr : List (String × ℚ × List String)) :
    relaxAll es u du pu settled fr = es.foldl (dStep u du pu settled) fr := rfl

theorem dStep_keys_mono (u : String) (du : ℚ) (pu : List String)
    (settled : List (String × ℚ × List String)) :
    ∀ (l : List ((String × String) × ℚ))
      (fr : List (String × ℚ × List String)) (k : String),
      k ∈ fr.map Prod.fst →
      k ∈ (l.foldl (dStep u du pu settled) fr).map Prod.fst := by
  intro l
  induction l with
  | nil => intro fr k hk; exact hk
  | cons a t ih =>
    intro fr k hk
    rw [List.foldl_cons]
    apply ih
    rw [dStep]
    by_cases hc : a.1.1 = u ∧ (lookupS settled a.1.2).isNone
    · rw [if_pos hc]
      exact mem_keys_pushF.mpr (Or.inl hk)
    · rw [if_neg hc]
      exact hk

theorem dStep_mem_elim (u : String) (du : ℚ) (pu : List String)
    (settled : List (String × ℚ × List String)) :
    ∀ (l : List ((String × String) × ℚ))
      (fr : List (String × ℚ × List String)) (x : String × ℚ × List String),
      x ∈ l.foldl (dStep u du pu settled) fr →
      x ∈ fr ∨ ∃ e ∈ l, e.1.1 = u ∧ (lookupS settled e.1.2).isNone ∧
        x = (e.1.2, du + e.2, pu ++ [e.1.2]) := by
  intro l
  induction l with
  | nil => intro fr x hx; exact Or.inl hx
  | cons a t ih =>
    intro fr x hx
    rw [List.foldl_cons] at hx
    rcases ih _ x hx with h | h
    · rw [dStep] at h
      by_cases hc : a.1.1 = u ∧ (lookupS settled a.1.2).isNone
      · rw [if_pos hc] at h
        rcases mem_pushF_elim h with h2 | h2
        · exact Or.inl h2
        · exact Or.inr ⟨a, List.mem_cons_self _ _, hc.1, hc.2, h2⟩
      · rw [if_neg hc] at h
        exact Or.inl h
    · obtain ⟨e, he, h1, h2, h3⟩ := h
      exact Or.inr ⟨e, List.mem_cons_of_mem _ he, h1, h2, h3⟩

theorem dStep_keys_nodup (u : String) (du : ℚ) (pu : List String)
    (settled : List (String × ℚ × List String)) :
    ∀ (l : List ((String × String) × ℚ))
      (fr : List (String × ℚ × List String)),
      (fr.map Prod.fst).Nodup →
      ((l.foldl (dStep u du pu settled) fr).map Prod.fst).Nodup := by
  intro l
  induction l with
  | nil => intro fr h; exact h
  | cons a t ih =>
    intro fr h
    rw [List.foldl_cons]
    apply ih
    rw [dStep]
    by_cases hc : a.1.1 = u ∧ (lookupS settled a.1.2).isNone
    · rw [if_pos hc]
      exact nodup_keys_pushF _ _ _ h
    · rw [if_neg hc]
      exact h

theorem dStep_covers (u : String) (du : ℚ) (pu : List String)
    (settled : List (String × ℚ × List String)) :
    ∀ (l : List ((String × String) × ℚ))
      (fr : List (String × ℚ × List String)) (e : (String × String) × ℚ),
      e ∈ l → e.1.1 = u → (lookupS settled e.1.2).isNone →
      e.1.2 ∈ (l.foldl (dStep u du pu settled) fr).map Prod.fst := by
  intro l
  induction l with
  | nil => intro fr e he; simp at he
  | cons a t ih =>
    intro fr e he h1 h2
    rw [List.foldl_cons]
    rcases List.mem_cons.mp he with h | h
    · subst h
      apply dStep_keys_mono
      rw [dStep, if_pos ⟨h1, h2⟩]
      exact mem_keys_pushF.mpr (Or.inr rfl)
    · exact ih _ e h h1 h2

/-! ### Dijkstra: every settled entry carries a valid path -/

theorem head?_append_of_some {α : Type} {l : List α} {a : α}
    (h : l.head? = some a) (l2 : List α) : (l ++ l2).head? = some a := by
  cases l with
  | nil => simp at h
  | cons x t => simpa using h

theorem pathW_snoc {es : List ((String × String) × ℚ)} :
    ∀ {l : List String} {c : ℚ} {u v : String} {w : ℚ},
      pathW es l = some c → l.getLast? = some u → lookupE es u v = some w →
      pathW es (l ++ [v]) = some (c + w) := by
  intro l
  induction l with
  | nil => intro c u v w hp _ _; exact Option.noConfusion hp
  | cons a t ih =>
    cases t with
    | nil =>
      intro c u v w hp hl he
      have hc : some (0 : ℚ) = some c := hp
      injection hc with hc
      have hu : a = u := by simpa using hl
      subst hu
      rw [List.singleton_append, pathW, he, pathW]
      exact congrArg some (by rw [← hc]; ring)
    | cons b r =>
      intro c u v w hp hl he
      rw [pathW] at hp
      cases h1 : lookupE es a b with
      | none => rw [h1] at hp; exact Option.noConfusion hp
      | some w1 =>
        cases h2 : pathW es (b :: r) with
        | none => rw [h1, h2] at hp; exact Option.noConfusion hp
        | some c1 =>
          rw [h1, h2] at hp
          have hp2 : some (w1 + c1) = some c := hp
          injection hp2 with hc
          have hl2 : (b :: r).getLast? = some u := by
            rw [List.getLast?_cons_cons] at hl
            exact hl
          have h3 : pathW es (b :: (r ++ [v])) = some (c1 + w) := by
            have h4 := ih h2 hl2 he
            simpa using h4
          show pathW es (a :: b :: (r ++ [v])) = some (c + w)
          rw [pathW, h1, h3]
          exact congrArg some (by rw [← hc]; ring)

theorem pathW_walk {es : List ((String × String) × ℚ)} :
    ∀ {l : List String} {c : ℚ} {a b : String},
      pathW es l = some c → l.head? = some a → l.getLast? = some b →
      WalkL es a b l c := by
  intro l
  induction l with
  | nil => intro c a b hp _ _; exact Option.noConfusion hp
  | cons x t ih =>
    cases t with
    | nil =>
      intro c a b hp hh hl
      have hxa : x = a := by simpa using hh
      have hxb : x = b := by simpa using hl
      have hc : some (0 : ℚ) = some c := hp
      injection hc with hc
      subst hxa
      rw [← hxb, ← hc]
      exact WalkL.nil x
    | cons y r =>
      intro c a b hp hh hl
      have hxa : x = a := by simpa using hh
      rw [pathW] at hp
      cases h1 : lookupE es x y with
      | none => rw [h1] at hp; exact Option.noConfusion hp
      | some w =>
        cases h2 : pathW es (y :: r) with
        | none => rw [h1, h2] at hp; exact Option.noConfusion hp
        | some c1 =>
          rw [h1, h2] at hp
          have hp2 : some (w + c1) = some c := hp
          injection hp2 with hc
          have hl2 : (y :: r).getLast? = some b := by
            rw [List.getLast?_cons_cons] at hl
            exact hl
          have hw2 := ih h2 rfl hl2
          subst hxa
          rw [← hc]
          exact WalkL.cons (lookupK_mem h1) hw2

theorem dLoop_EOK {es : List ((String × String) × ℚ)}
    (hnd : (es.map Prod.fst).Nodup) (src : String) :
    ∀ (n : ℕ) (s fr : List (String × ℚ × List String)),
      (∀ x ∈ s, EOK es src x) → (∀ x ∈ fr, EOK es src x) →
      ∀ x ∈ dLoop es n s fr, EOK es src x := by
  intro n
  induction n with
  | zero => intro s fr hs _ x hx; exact hs x hx
  | succ n ih =>
    intro s fr hs hf x hx
    rw [dLoop] at hx
    cases hext : extractMin fr with
    | none =>
      rw [hext] at hx
      exact hs x (hx : x ∈ s)
    | some p =>
      obtain ⟨y, rest⟩ := p
      rw [hext] at hx
      have hy : EOK es src y :=
        hf y ((extractMin_perm hext).mem_iff.mpr (List.mem_cons_self _ _))
      have hs2 : ∀ z ∈ s ++ [y], EOK es src z := by
        intro z hz
        rcases List.mem_append.mp hz with h | h
        · exact hs z h
        · rw [List.mem_singleton.mp h]
          exact hy
      have hf2 : ∀ z ∈ relaxAll es y.1 y.2.1 y.2.2 (s ++ [y]) rest,
          EOK es src z := by
        intro z hz
        rw [relaxAll_eq_foldl] at hz
        rcases dStep_mem_elim _ _ _ _ _ _ z hz with h | h
        · exact hf z ((extractMin_perm hext).mem_iff.mpr
            (List.mem_cons_of_mem _ h))
        · obtain ⟨e, he, h1, -, h3⟩ := h
          rw [h3]
          have hlast : (y.2.2 ++ [e.1.2]).getLast? = some e.1.2 := by
            simp
          refine ⟨head?_append_of_some hy.1 _, hlast, ?_⟩
          have hlk : lookupE es e.1.1 e.1.2 = some e.2 :=
            lookupK_of_mem_nodup hnd (by simpa using he)
          rw [h1] at hlk
          exact pathW_snoc hy.2.2 hy.2.1 hlk
      exact ih (s ++ [y]) _ hs2 hf2 x hx

theorem dijkstra_EOK {es : List ((String × String) × ℚ)}
    (hnd : (es.map Prod.fst).Nodup) (src : String) :
    ∀ x ∈ dijkstraRun es src, EOK es src x := by
  intro x hx
  rw [dijkstraRun] at hx
  refine dLoop_EOK hnd src _ [] [(src, 0, [src])] (by simp) ?_ x hx
  intro y hy
  have hy2 : y = (src, 0, [src]) := by simpa using hy
  rw [hy2]
  exact ⟨rfl, by simp, rfl⟩

/-! ### Dijkstra: the loop settles exactly the reachable vertices -/

theorem dStep_keys_elim (u : String) (du : ℚ) (pu : List String)
    (settled : List (String × ℚ × List String))
    (l : List ((String × String) × ℚ))
    (fr : List (String × ℚ × List String)) (k : String)
    (hk : k ∈ (l.foldl (dStep u du pu settled) fr).map Prod.fst) :
    k ∈ fr.map Prod.fst ∨
      (k ∈ l.map (fun e => e.1.2) ∧ k ∉ settled.map Prod.fst) := by
  obtain ⟨x, hx, hxk⟩ := List.mem_map.mp hk
  rcases dStep_mem_elim u du pu settled l fr x hx with h | h
  · left
    rw [← hxk]
    exact List.mem_map_of_mem _ h
  · obtain ⟨e, he, -, hns, hxe⟩ := h
    right
    constructor
    · rw [← hxk, hxe]
      exact List.mem_map_of_mem _ he
    · rw [← hxk, hxe]
      intro hmem
      rw [Option.isNone_iff_eq_none] at hns
      exact lookupK_eq_none_iff.mp hns hmem

theorem dInv_step {es : List ((String × String) × ℚ)} {src : String}
    {s fr : List (String × ℚ × List String)} {y : String × ℚ × List String}
    {rest : List (String × ℚ × List String)} (hinv : DInv es src s fr)
    (hext : extractMin fr = some (y, rest)) :
    DInv es src (s ++ [y]) (relaxAll es y.1 y.2.1 y.2.2 (s ++ [y]) rest) := by
  obtain ⟨hns, hnf, hdisj, hsk, hfk, hcl, hsrc⟩ := hinv
  have hperm := extractMin_perm hext
  have hpermk : (fr.map Prod.fst).Perm (y.1 :: rest.map Prod.fst) := by
    simpa using hperm.map Prod.fst
  have hyfr : y.1 ∈ fr.map Prod.fst :=
    hpermk.mem_iff.mpr (List.mem_cons_self _ _)
  have hnycons : (y.1 :: rest.map Prod.fst).Nodup := hpermk.nodup_iff.mp hnf
  have hyrest : y.1 ∉ rest.map Prod.fst := (List.nodup_cons.mp hnycons).1
  have hnrest : (rest.map Prod.fst).Nodup := (List.nodup_cons.mp hnycons).2
  have hrestfr : ∀ k ∈ rest.map Prod.fst, k ∈ fr.map Prod.fst := fun k hk =>
    hpermk.mem_iff.mpr (List.mem_cons_of_mem _ hk)
  have hynotS : y.1 ∉ s.map Prod.fst := fun h => hdisj y.1 h hyfr
  have hskeys : (s ++ [y]).map Prod.fst = s.map Prod.fst ++ [y.1] := by simp
  have hsy : ∀ k, k ∈ (s ++ [y]).map Prod.fst ↔
      k ∈ s.map Prod.fst ∨ k = y.1 := by
    intro k
    rw [hskeys]
    simp
  rw [relaxAll_eq_foldl]
  refine ⟨?_, ?_, ?_, ?_, ?_, ?_, ?_⟩
  · rw [hskeys]
    simp [List.nodup_append, hns, hynotS]
  · exact dStep_keys_nodup _ _ _ _ _ _ hnrest
  · intro k hk hmem
    rcases dStep_keys_elim _ _ _ _ _ _ k hmem with h | h
    · rcases (hsy k).mp hk with h2 | h2
      · exact hdisj k h2 (hrestfr k h)
      · rw [h2] at h
        exact hyrest h
    · exact h.2 hk
  · intro k hk
    rcases (hsy k).mp hk with h | h
    · exact hsk k h
    · rw [h]
      exact hfk y.1 hyfr
  · intro k hk
    rcases dStep_keys_elim _ _ _ _ _ _ k hk with h | h
    · exact hfk k (hrestfr k h)
    · exact List.mem_cons_of_mem _ h.1
  · intro x hx e he h1
    rcases List.mem_append.mp hx with hxs | hxy
    · rcases hcl x hxs e he h1 with h | h
      · left
        exact (hsy e.1.2).mpr (Or.inl h)
      · rcases List.mem_cons.mp (hpermk.mem_iff.mp h) with h2 | h2
        · left
          exact (hsy e.1.2).mpr (Or.inr h2)
        · right
          exact dStep_keys_mono _ _ _ _ _ _ _ h2
    · have hxy2 : x = y := List.mem_singleton.mp hxy
      rw [hxy2] at h1
      by_cases hset : e.1.2 ∈ (s ++ [y]).map Prod.fst
      · exact Or.inl hset
      · right
        apply dStep_covers _ _ _ _ _ _ e he h1
        rw [Option.isNone_iff_eq_none]
        exact lookupK_eq_none_iff.mpr hset
  · rcases hsrc with h | h
    · left
      exact (hsy src).mpr (Or.inl h)
    · rcases List.mem_cons.mp (hpermk.mem_iff.mp h) with h2 | h2
      · left
        exact (hsy src).mpr (Or.inr h2)
      · right
        exact dStep_keys_mono _ _ _ _ _ _ _ h2

theorem dLoop_closed {es : List ((String × String) × ℚ)} {src : String} :
    ∀ (n : ℕ) (s fr : List (String × ℚ × List String)),
      DInv es src s fr → es.length + 2 ≤ n + s.length →
      ((dLoop es n s fr).map Prod.fst).Nodup ∧
      src ∈ (dLoop es n s fr).map Prod.fst ∧
      (∀ k ∈ (dLoop es n s fr).map Prod.fst,
        k ∈ src :: es.map (fun e => e.1.2)) ∧
      (∀ x ∈ dLoop es n s fr, ∀ e ∈ es, e.1.1 = x.1 →
        e.1.2 ∈ (dLoop es n s fr).map Prod.fst) := by
  intro n
  induction n with
  | zero =>
    intro s fr hinv hn
    exfalso
    have hsub : s.map Prod.fst ⊆ src :: es.map (fun e => e.1.2) := fun k hk =>
      hinv.2.2.2.1 k hk
    have hlen : s.length ≤ es.length + 1 := by
      have h2 := (List.subperm_of_subset hinv.1 hsub).length_le
      simpa using h2
    omega
  | succ n ih =>
    intro s fr hinv hn
    cases hext : extractMin fr with
    | none =>
      rw [extractMin_none] at hext
      subst hext
      have hout : dLoop es (n + 1) s [] = s := by
        rw [dLoop]
        rfl
      rw [hout]
      refine ⟨hinv.1, ?_, hinv.2.2.2.1, ?_⟩
      · rcases hinv.2.2.2.2.2.2 with h | h
        · exact h
        · simp at h
      · intro x hx e he h1
        rcases hinv.2.2.2.2.2.1 x hx e he h1 with h | h
        · exact h
        · simp at h
    | some p =>
      obtain ⟨y, rest⟩ := p
      have hout : dLoop es (n + 1) s fr =
          dLoop es n (s ++ [y])
            (relaxAll es y.1 y.2.1 y.2.2 (s ++ [y]) rest) := by
        rw [dLoop, hext]
      rw [hout]
      apply ih
      · exact dInv_step hinv hext
      · simp only [List.length_append, List.length_cons, List.length_nil]
        omega

theorem dijkstra_spec (es : List ((String × String) × ℚ)) (src : String) :
    ((dijkstraRun es src).map Prod.fst).Nodup ∧
    src ∈ (dijkstraRun es src).map Prod.fst ∧
    (∀ k ∈ (dijkstraRun es src).map Prod.fst,
      k ∈ src :: es.map (fun e => e.1.2)) ∧
    (∀ x ∈ dijkstraRun es src, ∀ e ∈ es, e.1.1 = x.1 →
      e.1.2 ∈ (dijkstraRun es src).map Prod.fst) := by
  rw [dijkstraRun]
  apply dLoop_closed
  · refine ⟨by simp, by simp, by simp, by simp, ?_, by simp, ?_⟩
    · intro k hk
      have h2 : k = src := by simpa using hk
      rw [h2]
      exact List.mem_cons_self _ _
    · right
      simp
  · simp

theorem reach_settled {es : List ((String × String) × ℚ)}
    {out : List (String × ℚ × List String)}
    (hcl : ∀ x ∈ out, ∀ e ∈ es, e.1.1 = x.1 → e.1.2 ∈ out.map Prod.fst) :
    ∀ {a b : String} {vs : List String} {c : ℚ}, WalkL es a b vs c →
      a ∈ out.map Prod.fst → b ∈ out.map Prod.fst := by
  intro a b vs c hw
  induction hw with
  | nil v => intro h; exact h
  | @cons u x t w c2 vs2 hm hw2 ih =>
    intro ha
    apply ih
    obtain ⟨z, hz, hzk⟩ := List.mem_map.mp ha
    exact hcl z hz ((u, x), w) hm hzk.symm

theorem dijkstra_complete {es : List ((String × String) × ℚ)} {src t : String}
    (hr : Reaches es src t) : t ∈ (dijkstraRun es src).map Prod.fst := by
  obtain ⟨vs, c, hw⟩ := hr
  exact reach_settled (dijkstra_spec es src).2.2.2 hw (dijkstra_spec es src).2.1

theorem dijkstra_sound {es : List ((String × String) × ℚ)}
    (hnd : (es.map Prod.fst).Nodup) {src t : String}
    (ht : t ∈ (dijkstraRun es src).map Prod.fst) : Reaches es src t := by
  obtain ⟨x, hx, hxk⟩ := List.mem_map.mp ht
  have hok := dijkstra_EOK hnd src x hx
  refine ⟨x.2.2, x.2.1, ?_⟩
  rw [← hxk]
  exact pathW_walk hok.2.2 hok.1 hok.2.1

theorem dLoop_cons (es : List ((String × String) × ℚ)) :
    ∀ (n : ℕ) (x : String × ℚ × List String)
      (s fr : List (String × ℚ × List String)),
      ∃ s2, dLoop es n (x :: s) fr = x :: s2 := by
  intro n
  induction n with
  | zero => intro x s fr; exact ⟨s, rfl⟩
  | succ n ih =>
    intro x s fr
    cases hext : extractMin fr with
    | none =>
      refine ⟨s, ?_⟩
      rw [dLoop, hext]
    | some p =>
      obtain ⟨y, rest⟩ := p
      obtain ⟨s2, hs2⟩ := ih x (s ++ [y])
        (relaxAll es y.1 y.2.1 y.2.2 ((x :: s) ++ [y]) rest)
      refine ⟨s2, ?_⟩
      rw [dLoop, hext]
      exact hs2

theorem dijkstra_self (es : List ((String × String) × ℚ)) (src : String) :
    ∃ s2, dijkstraRun es src = (src, 0, [src]) :: s2 := by
  have key : ∀ n, ∃ s2,
      dLoop es (n + 1) [] [(src, 0, [src])] = (src, 0, [src]) :: s2 := by
    intro n
    have hext : extractMin [((src : String), (0 : ℚ), [src])] =
        some ((src, 0, [src]), []) := rfl
    obtain ⟨s2, hs2⟩ := dLoop_cons es n (src, 0, [src]) []
      (relaxAll es src 0 [src] [(src, 0, [src])] [])
    refine ⟨s2, ?_⟩
    rw [dLoop, hext]
    exact hs2
  exact key (es.length + 1)

/-! ### The error path of the Dijkstra loop

networkx raises its contradictory-paths ValueError exactly when an edge out
of the vertex being settled still improves an already-settled vertex.  On a
run that does not raise, the fallible loop computes precisely the total
dLoop result; and with non-negative weights the settled distances are
extracted in non-decreasing order, so the error can never fire. -/

theorem option_bind_some {α β : Type} (a : α) (f : α → Option β) :
    (some a >>= f) = f a := rfl

theorem option_bind_none {α β : Type} (f : α → Option β) :
    ((none : Option α) >>= f) = none := rfl

theorem extractMin_min {fr : List (String × ℚ × List String)}
    {x : String × ℚ × List String} {rest : List (String × ℚ × List String)}
    (h : extractMin fr = some (x, rest)) : ∀ z ∈ fr, x.2.1 ≤ z.2.1 := by
  induction fr generalizing x rest with
  | nil => simp [extractMin] at h
  | cons y ys ih =>
    cases hys : extractMin ys with
    | none =>
      have h2 : extractMin (y :: ys) = some (y, []) := by
        simp [extractMin, hys]
      rw [h2] at h
      injection h with h3
      have hx : y = x := congrArg Prod.fst h3
      rw [extractMin_none] at hys
      subst hys
      intro z hz
      have hzy : z = y := by simpa using hz
      rw [hzy, ← hx]
    | some p =>
      obtain ⟨m, r⟩ := p
      by_cases hle : y.2.1 ≤ m.2.1
      · have h2 : extractMin (y :: ys) = some (y, ys) := by
          simp [extractMin, hys, hle]
        rw [h2] at h
        injection h with h3
        have hx : y = x := congrArg Prod.fst h3
        intro z hz
        rcases List.mem_cons.mp hz with hzy | hzys
        · rw [hzy, ← hx]
        · calc x.2.1 = y.2.1 := by rw [← hx]
            _ ≤ m.2.1 := hle
            _ ≤ z.2.1 := ih hys z hzys
      · have h2 : extractMin (y :: ys) = some (m, y :: r) := by
          simp [extractMin, hys, hle]
        rw [h2] at h
        injection h with h3
        have hx : m = x := congrArg Prod.fst h3
        intro z hz
        rcases List.mem_cons.mp hz with hzy | hzys
        · rw [hzy, ← hx]
          exact (not_le.mp hle).le
        · rw [← hx]
          exact ih hys z hzys

theorem dStepE_inv {u : String} {du : ℚ} {pu : List String}
    {settled fr : List (String × ℚ × List String)}
    {e : (String × String) × ℚ} {f2 : List (String × ℚ × List String)}
    (h : dStepE u du pu settled fr e = some f2) :
    f2 = dStep u du pu settled fr e := by
  rw [dStepE] at h
  rw [dStep]
  by_cases h1 : e.1.1 = u
  · rw [if_pos h1] at h
    cases h2 : lookupS settled e.1.2 with
    | some x =>
      rw [h2] at h
      have h4 : (if du + e.2 < x.1 then (none : Option _) else some fr) =
          some f2 := h
      have h5 : ¬ (e.1.1 = u ∧ (Option.some x).isNone = true) := by simp
      rw [if_neg h5]
      by_cases h3 : du + e.2 < x.1
      · rw [if_pos h3] at h4
        exact Option.noConfusion h4
      · rw [if_neg h3] at h4
        injection h4 with h6
        exact h6.symm
    | none =>
      rw [h2] at h
      have h4 : some (pushF fr e.1.2 (du + e.2) (pu ++ [e.1.2])) =
          some f2 := h
      have h5 : e.1.1 = u ∧
          (Option.none : Option (ℚ × List String)).isNone = true := ⟨h1, rfl⟩
      rw [if_pos h5]
      injection h4 with h6
      exact h6.symm
  · rw [if_neg h1] at h
    have h5 : ¬ (e.1.1 = u ∧ (lookupS settled e.1.2).isNone) := fun hc =>
      h1 hc.1
    rw [if_neg h5]
    injection h with h6
    exact h6.symm

theorem relaxAllE_eq {u : String} {du : ℚ} {pu : List String}
    {settled : List (String × ℚ × List String)} :
    ∀ (es : List ((String × String) × ℚ))
      (fr : List (String × ℚ × List String)),
      (∀ e ∈ es, e.1.1 = u → ∀ x, lookupS settled e.1.2 = some x →
        ¬ du + e.2 < x.1) →
      relaxAllE es u du pu settled fr =
        some (relaxAll es u du pu settled fr) := by
  intro es
  induction es with
  | nil => intro fr _; rfl
  | cons a t ih =>
    intro fr hok
    rw [relaxAllE, List.foldlM_cons, relaxAll_eq_foldl, List.foldl_cons]
    have hstep : dStepE u du pu settled fr a =
        some (dStep u du pu settled fr a) := by
      rw [dStepE, dStep]
      by_cases h1 : a.1.1 = u
      · rw [if_pos h1]
        cases h2 : lookupS settled a.1.2 with
        | some x => simp [hok a (List.mem_cons_self _ _) h1 x h2]
        | none => simp [h1]
      · rw [if_neg h1]
        simp [h1]
    rw [hstep, option_bind_some]
    exact ih _ (fun e he => hok e (List.mem_cons_of_mem _ he))

theorem relaxAllE_inv {u : String} {du : ℚ} {pu : List String}
    {settled : List (String × ℚ × List String)} :
    ∀ (es : List ((String × String) × ℚ))
      (fr : List (String × ℚ × List String))
      {fr2 : List (String × ℚ × List String)},
      relaxAllE es u du pu settled fr = some fr2 →
      fr2 = relaxAll es u du pu settled fr := by
  intro es
  induction es with
  | nil =>
    intro fr fr2 h
    injection h with h2
    rw [← h2]
    rfl
  | cons a t ih =>
    intro fr fr2 h
    rw [relaxAllE, List.foldlM_cons] at h
    cases hstep : dStepE u du pu settled fr a with
    | none =>
      rw [hstep] at h
      simp only [option_bind_none] at h
      exact Option.noConfusion h
    | some f2 =>
      rw [hstep] at h
      simp only [option_bind_some] at h
      have h3 := ih f2 h
      have h4 := dStepE_inv hstep
      rw [h3, h4]
      rw [relaxAll_eq_foldl, relaxAll_eq_foldl, List.foldl_cons]

theorem dLoopE_eq {es : List ((String × String) × ℚ)}
    (hnn : ∀ e ∈ es, 0 ≤ e.2) :
    ∀ (n : ℕ) (s fr : List (String × ℚ × List String)),
      (∀ y ∈ s, ∀ z ∈ fr, y.2.1 ≤ z.2.1) →
      dLoopE es n s fr = some (dLoop es n s fr) := by
  intro n
  induction n with
  | zero => intro s fr _; rfl
  | succ n ih =>
    intro s fr hinv
    rw [dLoopE, dLoop]
    cases hext : extractMin fr with
    | none => rfl
    | some p =>
      obtain ⟨x, rest⟩ := p
      simp only []
      have hxfr : x ∈ fr :=
        (extractMin_perm hext).mem_iff.mpr (List.mem_cons_self _ _)
      have hok : ∀ e ∈ es, e.1.1 = x.1 → ∀ xv,
          lookupS (s ++ [x]) e.1.2 = some xv → ¬ x.2.1 + e.2 < xv.1 := by
        intro e he h1 xv hxv
        have hmem := lookupK_mem hxv
        have hge : xv.1 ≤ x.2.1 := by
          rcases List.mem_append.mp hmem with h2 | h2
          · exact hinv (e.1.2, xv) h2 x hxfr
          · have h3 : (e.1.2, xv) = x := List.mem_singleton.mp h2
            exact le_of_eq (congrArg (fun y => y.2.1) h3)
        have hw := hnn e he
        intro hlt
        linarith
      rw [relaxAllE_eq es rest hok, option_bind_some]
      apply ih
      intro y hy z hz
      rw [relaxAll_eq_foldl] at hz
      rcases dStep_mem_elim _ _ _ _ _ _ z hz with h2 | h2
      · have hzfr : z ∈ fr :=
          (extractMin_perm hext).mem_iff.mpr (List.mem_cons_of_mem _ h2)
        rcases List.mem_append.mp hy with h3 | h3
        · exact hinv y h3 z hzfr
        · rw [List.mem_singleton.mp h3]
          exact extractMin_min hext z hzfr
      · obtain ⟨e, he, -, -, h5⟩ := h2
        have hz1 : z.2.1 = x.2.1 + e.2 := by rw [h5]
        rw [hz1]
        have hw := hnn e he
        rcases List.mem_append.mp hy with h3 | h3
        · have h6 := hinv y h3 x hxfr
          linarith
        · rw [List.mem_singleton.mp h3]
          linarith

theorem dLoopE_inv {es : List ((String × String) × ℚ)} :
    ∀ (n : ℕ) (s fr : List (String × ℚ × List String))
      {out : List (String × ℚ × List String)},
      dLoopE es n s fr = some out → out = dLoop es n s fr := by
  intro n
  induction n with
  | zero =>
    intro s fr out h
    injection h with h2
    exact h2.symm
  | succ n ih =>
    intro s fr out h
    rw [dLoopE] at h
    rw [dLoop]
    cases hext : extractMin fr with
    | none =>
      rw [hext] at h
      have h2 : some s = some out := h
      injection h2 with h3
      rw [← h3]
    | some p =>
      obtain ⟨x, rest⟩ := p
      rw [hext] at h
      have h2 : (relaxAllE es x.1 x.2.1 x.2.2 (s ++ [x]) rest >>= fun fr2 =>
          dLoopE es n (s ++ [x]) fr2) = some out := h
      cases hre : relaxAllE es x.1 x.2.1 x.2.2 (s ++ [x]) rest with
      | none =>
        rw [hre] at h2
        simp only [option_bind_none] at h2
        exact Option.noConfusion h2
      | some fr2 =>
        rw [hre] at h2
        simp only [option_bind_some] at h2
        have h3 := ih (s ++ [x]) fr2 h2
        have h4 := relaxAllE_inv es rest hre
        rw [h3, h4]

theorem dijkstra_some {es : List ((String × String) × ℚ)}
    (hnn : ∀ e ∈ es, 0 ≤ e.2) (src : String) :
    dijkstra es src = some (dijkstraRun es src) := by
  rw [dijkstra, dijkstraRun]
  exact dLoopE_eq hnn _ [] _ (by simp)

theorem dijkstra_inv {es : List ((String × String) × ℚ)} {src : String}
    {out : List (String × ℚ × List String)}
    (h : dijkstra es src = some out) : out = dijkstraRun es src := by
  rw [dijkstra] at h
  rw [dijkstraRun]
  exact dLoopE_inv _ [] _ h

theorem runsM_ok {es2 : List ((String × String) × ℚ)}
    (hnn : ∀ e ∈ es2, 0 ≤ e.2) :
    ∀ (ns : List String),
      (ns.mapM (fun s =>
        match dijkstra es2 s with
        | none => (Except.error JErr.valueError :
            Except JErr (String × List (String × ℚ × List String)))
        | some r => Except.ok (s, r)) : Except JErr _) =
      Except.ok (ns.map (fun s => (s, dijkstraRun es2 s))) := by
  intro ns
  induction ns with
  | nil => rfl
  | cons a t ih =>
    simp only [List.mapM_cons, dijkstra_some hnn a, except_bind_ok]
    rw [ih]
    simp only [except_bind_ok]
    rfl

theorem runsM_inv {es2 : List ((String × String) × ℚ)} :
    ∀ (ns : List String)
      {runs : List (String × List (String × ℚ × List String))},
      (ns.mapM (fun s =>
        match dijkstra es2 s with
        | none => (Except.error JErr.valueError :
            Except JErr (String × List (String × ℚ × List String)))
        | some r => Except.ok (s, r)) = Except.ok runs) →
      runs = ns.map (fun s => (s, dijkstraRun es2 s)) := by
  intro ns
  induction ns with
  | nil =>
    intro runs h
    rw [List.mapM_nil] at h
    have h2 : Except.ok
        ([] : List (String × List (String × ℚ × List String))) =
        Except.ok runs := h
    injection h2 with h3
    rw [← h3]
    rfl
  | cons a t ih =>
    intro runs h
    rw [List.mapM_cons] at h
    cases hd : dijkstra es2 a with
    | none =>
      rw [hd] at h
      simp only [except_bind_err] at h
      exact Except.noConfusion h
    | some r =>
      rw [hd] at h
      simp only [except_bind_ok] at h
      cases ht : t.mapM (fun s =>
          match dijkstra es2 s with
          | none => (Except.error JErr.valueError :
              Except JErr (String × List (String × ℚ × List String)))
          | some r => Except.ok (s, r)) with
      | error e2 =>
        rw [ht] at h
        simp only [except_bind_err] at h
        exact Except.noConfusion h
      | ok rst =>
        rw [ht] at h
        simp only [except_bind_ok] at h
        have h2 : Except.ok ((a, r) :: rst) = Except.ok runs := h
        injection h2 with h3
        rw [← h3, List.map_cons]
        rw [ih ht, dijkstra_inv hd]

/-! ### Reweighting and distance correction: success characterization -/

/-- Stored potential with a default never exercised when the lookup succeeds. -/
def hval (h : List (String × ℚ)) (v : String) : ℚ :=
  (lookupS h v).getD 0

theorem except_pure_bind {ε α β : Type} (a : α) (f : α → Except ε β) :
    ((pure a : Except ε α) >>= f) = f a := rfl

theorem getH_of_isSome {h : List (String × ℚ)} {v : String}
    (hs : (lookupS h v).isSome = true) : getH h v = .ok (hval h v) := by
  cases hl : lookupS h v with
  | none => rw [hl] at hs; simp at hs
  | some x => simp [getH, hval, hl]

theorem lookupK_map_val {κ α β : Type} [DecidableEq κ] (g : κ → α → β) :
    ∀ (l : List (κ × α)) (k : κ),
      lookupK (l.map (fun p => (p.1, g p.1 p.2))) k =
        (lookupK l k).map (g k) := by
  intro l
  induction l with
  | nil => intro k; rfl
  | cons a t ih =>
    intro k
    obtain ⟨ak, av⟩ := a
    rw [List.map_cons, lookupK, lookupK]
    by_cases hk : ak = k
    · subst hk
      rw [if_pos rfl, if_pos rfl]
      rfl
    · rw [if_neg hk, if_neg hk]
      exact ih k

theorem lookupK_map_key {α : Type} (g : String → α) :
    ∀ (ns : List String) (k : String),
      lookupK (ns.map (fun v => (v, g v))) k =
        if k ∈ ns then some (g k) else none := by
  intro ns
  induction ns with
  | nil => intro k; simp [lookupK]
  | cons a t ih =>
    intro k
    rw [List.map_cons, lookupK]
    by_cases hk : a = k
    · subst hk
      rw [if_pos rfl, if_pos (List.mem_cons_self _ _)]
    · rw [if_neg hk, ih]
      by_cases hm : k ∈ t
      · rw [if_pos hm, if_pos (List.mem_cons_of_mem _ hm)]
      · rw [if_neg hm, if_neg ?hnm]
        case hnm =>
          intro hcon
          rcases List.mem_cons.mp hcon with h2 | h2
          · exact hk h2.symm
          · exact hm h2

theorem reweight_fold {h : List (String × ℚ)} :
    ∀ (es : List ((String × String) × ℚ)) (H : DiGraph),
      (∀ e ∈ es, (lookupS h e.1.1).isSome = true ∧
        (lookupS h e.1.2).isSome = true) →
      (es.foldlM (fun H e => do
          let hu ← getH h e.1.1
          let hv ← getH h e.1.2
          pure (addEdge H e.1.1 e.1.2 (e.2 + hu - hv))) H) =
      Except.ok (es.foldl (fun H e =>
          addEdge H e.1.1 e.1.2 (e.2 + hval h e.1.1 - hval h e.1.2)) H) := by
  intro es
  induction es with
  | nil => intro H _; rfl
  | cons a t ih =>
    intro H hdef
    rw [List.foldlM_cons, List.foldl_cons]
    rw [getH_of_isSome (hdef a (List.mem_cons_self _ _)).1]
    simp only [except_bind_ok]
    rw [getH_of_isSome (hdef a (List.mem_cons_self _ _)).2]
    simp only [except_bind_ok, except_pure_bind]
    exact ih _ (fun e he => hdef e (List.mem_cons_of_mem _ he))

theorem reweightGraph_ok {G : DiGraph} {h : List (String × ℚ)}
    (hdef : ∀ e ∈ G.edges, (lookupS h e.1.1).isSome = true ∧
      (lookupS h e.1.2).isSome = true) :
    reweightGraph G h = .ok (G.edges.foldl (fun H e =>
        addEdge H e.1.1 e.1.2 (e.2 + hval h e.1.1 - hval h e.1.2))
      (⟨[], []⟩ : DiGraph)) := by
  rw [reweightGraph]
  exact reweight_fold G.edges _ hdef

theorem addEdge_fresh {H : DiGraph} {u v : String} (w : ℚ)
    (hf : (u, v) ∉ H.edges.map Prod.fst) :
    (addEdge H u v w).edges = H.edges ++ [((u, v), w)] := by
  rw [addEdge]
  exact upsertK_of_none w (lookupK_eq_none_iff.mpr hf)

theorem rwFold_edges (wf : (String × String) × ℚ → ℚ) :
    ∀ (es : List ((String × String) × ℚ)) (H : DiGraph),
      (es.map Prod.fst).Nodup →
      (∀ k ∈ es.map Prod.fst, k ∉ H.edges.map Prod.fst) →
      (es.foldl (fun H e => addEdge H e.1.1 e.1.2 (wf e)) H).edges =
        H.edges ++ es.map (fun e => (e.1, wf e)) := by
  intro es
  induction es with
  | nil => intro H _ _; simp
  | cons a t ih =>
    intro H hnd hfresh
    rw [List.foldl_cons]
    have ha : (a.1.1, a.1.2) ∉ H.edges.map Prod.fst := by
      have h2 := hfresh a.1 (List.mem_cons_self _ _)
      simpa using h2
    have hnd2 : (t.map Prod.fst).Nodup := by
      rw [List.map_cons] at hnd
      exact (List.nodup_cons.mp hnd).2
    have hhead : a.1 ∉ t.map Prod.fst := by
      rw [List.map_cons] at hnd
      exact (List.nodup_cons.mp hnd).1
    have hfresh2 : ∀ k ∈ t.map Prod.fst,
        k ∉ (addEdge H a.1.1 a.1.2 (wf a)).edges.map Prod.fst := by
      intro k hk
      rw [addEdge_fresh (wf a) ha]
      intro hmem
      rw [List.map_append] at hmem
      rcases List.mem_append.mp hmem with h2 | h2
      · exact hfresh k (List.mem_cons_of_mem _ hk) h2
      · have h3 : k = (a.1.1, a.1.2) := by simpa using h2
        rw [h3] at hk
        simp only [Prod.mk.eta] at hk
        exact hhead hk
    rw [ih _ hnd2 hfresh2, addEdge_fresh (wf a) ha]
    simp [Prod.mk.eta]

theorem rwFold_nodes (wf : (String × String) × ℚ → ℚ) :
    ∀ (es : List ((String × String) × ℚ)) (H : DiGraph),
      (es.foldl (fun H e => addEdge H e.1.1 e.1.2 (wf e)) H).nodes =
        es.foldl (fun ns e => insNode (insNode ns e.1.1) e.1.2) H.nodes := by
  intro es
  induction es with
  | nil => intro H; rfl
  | cons a t ih =>
    intro H
    rw [List.foldl_cons, List.foldl_cons]
    exact ih _

theorem mem_nodeFold :
    ∀ (es : List ((String × String) × ℚ)) (ns : List String) (v : String),
      v ∈ es.foldl (fun ns e => insNode (insNode ns e.1.1) e.1.2) ns ↔
        v ∈ ns ∨ ∃ e ∈ es, v = e.1.1 ∨ v = e.1.2 := by
  intro es
  induction es with
  | nil => simp
  | cons a t ih =>
    intro ns v
    rw [List.foldl_cons, ih, mem_insNode, mem_insNode]
    constructor
    · rintro (((h | h) | h) | h)
      · exact Or.inl h
      · exact Or.inr ⟨a, List.mem_cons_self _ _, Or.inl h⟩
      · exact Or.inr ⟨a, List.mem_cons_self _ _, Or.inr h⟩
      · obtain ⟨e, he, h2⟩ := h
        exact Or.inr ⟨e, List.mem_cons_of_mem _ he, h2⟩
    · rintro (h | ⟨e, he, h2⟩)
      · exact Or.inl (Or.inl (Or.inl h))
      · rcases List.mem_cons.mp he with he2 | he2
        · subst he2
          rcases h2 with h2 | h2
          · exact Or.inl (Or.inl (Or.inr h2))
          · exact Or.inl (Or.inr h2)
        · exact Or.inr ⟨e, he2, h2⟩

theorem rwFold_WF (wf : (String × String) × ℚ → ℚ) :
    ∀ (es : List ((String × String) × ℚ)) (H : DiGraph), H.WF →
      (es.foldl (fun H e => addEdge H e.1.1 e.1.2 (wf e)) H).WF := by
  intro es
  induction es with
  | nil => intro H h2; exact h2
  | cons a t ih => intro H h2; exact ih _ (addEdge_WF h2 _ _ _)

theorem correctD_inner_ok {h : List (String × ℚ)} (hu : ℚ) :
    ∀ (l : List (String × ℚ)),
      (∀ q2 ∈ l, (lookupS h q2.1).isSome = true) →
      (l.mapM (fun q2 => do
        let hv ← getH h q2.1
        pure (q2.1, q2.2 + hv - hu)) : Except JErr _) =
      Except.ok (l.map (fun q2 => (q2.1, q2.2 + hval h q2.1 - hu))) := by
  intro l
  induction l with
  | nil => intro _; rfl
  | cons a t ih =>
    intro hdef
    rw [List.mapM_cons]
    rw [getH_of_isSome (hdef a (List.mem_cons_self _ _))]
    simp only [except_bind_ok, except_pure_bind]
    rw [ih (fun q2 hq => hdef q2 (List.mem_cons_of_mem _ hq))]
    simp only [except_bind_ok]
    rfl

theorem correctD_ok {h : List (String × ℚ)} :
    ∀ (ds : List (String × List (String × ℚ))),
      (∀ p ∈ ds, (lookupS h p.1).isSome = true ∧
        ∀ q2 ∈ p.2, (lookupS h q2.1).isSome = true) →
      correctD h ds = .ok (ds.map (fun p =>
        (p.1, p.2.map (fun q2 =>
          (q2.1, q2.2 + hval h q2.1 - hval h p.1))))) := by
  intro ds
  induction ds with
  | nil => intro _; rfl
  | cons p t ih =>
    intro hdef
    rw [correctD, List.mapM_cons]
    rw [getH_of_isSome (hdef p (List.mem_cons_self _ _)).1]
    simp only [except_bind_ok, except_pure_bind]
    rw [correctD_inner_ok (hval h p.1) p.2
      (hdef p (List.mem_cons_self _ _)).2]
    simp only [except_bind_ok, except_pure_bind]
    have ht := ih (fun p2 hp2 => hdef p2 (List.mem_cons_of_mem _ hp2))
    rw [correctD] at ht
    rw [ht]
    simp only [except_bind_ok]
    rfl

/-! ### The reweighted graph as a value, and telescoping its path weights -/

/-- The graph reweightGraph returns when every potential lookup succeeds
(named for the proofs). -/
def rwGraph (G : DiGraph) (h : List (String × ℚ)) : DiGraph :=
  G.edges.foldl (fun H e =>
    addEdge H e.1.1 e.1.2 (e.2 + hval h e.1.1 - hval h e.1.2)) ⟨[], []⟩

theorem reweightGraph_ok2 {G : DiGraph} {h : List (String × ℚ)}
    (hdef : ∀ e ∈ G.edges, (lookupS h e.1.1).isSome = true ∧
      (lookupS h e.1.2).isSome = true) :
    reweightGraph G h = .ok (rwGraph G h) :=
  reweightGraph_ok hdef

theorem rwGraph_edges {G : DiGraph} (h : List (String × ℚ))
    (hnd : (G.edges.map Prod.fst).Nodup) :
    (rwGraph G h).edges = G.edges.map (fun e =>
      (e.1, e.2 + hval h e.1.1 - hval h e.1.2)) := by
  rw [rwGraph]
  have h2 := rwFold_edges (fun e => e.2 + hval h e.1.1 - hval h e.1.2)
    G.edges ⟨[], []⟩ hnd (by simp)
  simpa using h2

theorem rwGraph_WF (G : DiGraph) (h : List (String × ℚ)) : (rwGraph G h).WF := by
  rw [rwGraph]
  exact rwFold_WF _ G.edges _ ⟨List.nodup_nil, List.nodup_nil, by simp⟩

theorem rwGraph_nodes_iff (G : DiGraph) (h : List (String × ℚ)) (v : String) :
    v ∈ (rwGraph G h).nodes ↔ Incident G v := by
  rw [rwGraph, rwFold_nodes, Incident]
  rw [mem_nodeFold]
  simp

theorem rwGraph_nodes_sub {G : DiGraph} (hwf : G.WF) (h : List (String × ℚ)) :
    ∀ v ∈ (rwGraph G h).nodes, v ∈ G.nodes := by
  intro v hv
  rw [rwGraph_nodes_iff] at hv
  obtain ⟨e, he, h2⟩ := hv
  rcases h2 with h2 | h2
  · rw [h2]; exact (hwf.2.2 e he).1
  · rw [h2]; exact (hwf.2.2 e he).2

theorem lookupE_rw {es : List ((String × String) × ℚ)} {hv : String → ℚ}
    (a b : String) :
    lookupE (es.map (fun e => (e.1, e.2 + hv e.1.1 - hv e.1.2))) a b =
      (lookupE es a b).map (fun w => w + hv a - hv b) := by
  have h2 := lookupK_map_val
    (fun (k : String × String) (w : ℚ) => w + hv k.1 - hv k.2) es (a, b)
  simpa [lookupE] using h2

theorem pathW_tele {esr es : List ((String × String) × ℚ)} {hv : String → ℚ}
    (hlk : ∀ a b, lookupE esr a b = (lookupE es a b).map
      (fun w => w + hv a - hv b)) :
    ∀ {l : List String} {c : ℚ} {a t : String},
      pathW esr l = some c → l.head? = some a → l.getLast? = some t →
      pathW es l = some (c - hv a + hv t) := by
  intro l
  induction l with
  | nil => intro c a t hp _ _; exact Option.noConfusion hp
  | cons x r ih =>
    cases r with
    | nil =>
      intro c a t hp hh hl
      have hxa : x = a := by simpa using hh
      have hxt : x = t := by simpa using hl
      have hc : some (0 : ℚ) = some c := hp
      injection hc with hc
      rw [← hxa, ← hxt]
      show some (0 : ℚ) = some (c - hv x + hv x)
      exact congrArg some (by rw [← hc]; ring)
    | cons y rr =>
      intro c a t hp hh hl
      have hxa : x = a := by simpa using hh
      rw [pathW] at hp
      cases h1 : lookupE esr x y with
      | none => rw [h1] at hp; exact Option.noConfusion hp
      | some w1 =>
        cases h2 : pathW esr (y :: rr) with
        | none => rw [h1, h2] at hp; exact Option.noConfusion hp
        | some c1 =>
          rw [h1, h2] at hp
          have hp2 : some (w1 + c1) = some c := hp
          injection hp2 with hc
          have hl2 : (y :: rr).getLast? = some t := by
            rw [List.getLast?_cons_cons] at hl
            exact hl
          have ih2 := ih h2 rfl hl2
          have h3 := hlk x y
          rw [h1] at h3
          cases h4 : lookupE es x y with
          | none => rw [h4] at h3; exact Option.noConfusion h3
          | some w0 =>
            rw [h4] at h3
            simp only [Option.map_some'] at h3
            injection h3 with h6
            have hgoal : w0 + (c1 - hv y + hv t) = c - hv a + hv t := by
              rw [← hc, ← hxa, h6]
              ring
            show pathW es (x :: y :: rr) = some (c - hv a + hv t)
            rw [pathW, h4, ih2]
            exact congrArg some hgoal

theorem reaches_map {es : List ((String × String) × ℚ)}
    {wf : (String × String) × ℚ → ℚ} {esr : List ((String × String) × ℚ)}
    (hesr : esr = es.map (fun e => (e.1, wf e))) (s t : String) :
    Reaches esr s t ↔ Reaches es s t := by
  subst hesr
  constructor
  · rintro ⟨vs, c, hw⟩
    induction hw with
    | nil v => exact ⟨[v], 0, WalkL.nil v⟩
    | @cons u x b w c2 vs2 hm hw2 ih =>
      obtain ⟨e, he, heq⟩ := List.mem_map.mp hm
      obtain ⟨vs3, c3, hw3⟩ := ih
      have hkey : e.1 = (u, x) := congrArg Prod.fst heq
      refine ⟨u :: vs3, e.2 + c3, WalkL.cons ?_ hw3⟩
      rw [← hkey]
      exact he
  · rintro ⟨vs, c, hw⟩
    induction hw with
    | nil v => exact ⟨[v], 0, WalkL.nil v⟩
    | @cons u x b w c2 vs2 hm hw2 ih =>
      obtain ⟨vs3, c3, hw3⟩ := ih
      refine ⟨u :: vs3, wf ((u, x), w) + c3, WalkL.cons ?_ hw3⟩
      exact List.mem_map_of_mem _ hm

/-! ### The successful run of johnson_algorithm -/

theorem dijkstra_keys_in_nodes {G : DiGraph} (hwf : G.WF)
    (h : List (String × ℚ)) {s2 : String} (hs : s2 ∈ G.nodes) :
    ∀ k ∈ ((dijkstraRun (rwGraph G h).edges s2).map Prod.fst), k ∈ G.nodes := by
  intro k hk
  have h2 := (dijkstra_spec (rwGraph G h).edges s2).2.2.1 k hk
  rcases List.mem_cons.mp h2 with h3 | h3
  · rw [h3]; exact hs
  · rw [rwGraph_edges h hwf.2.1] at h3
    simp only [List.map_map] at h3
    obtain ⟨e, he, hk2⟩ := List.mem_map.mp h3
    rw [← hk2]
    exact (hwf.2.2 e he).2

theorem johnson_ok {G : DiGraph} (hwf : G.WF) (hq : "q" ∉ G.nodes)
    (hnc : ¬ NegCycle G) :
    ∃ h, bellman_ford (buildAux G) "q" = some h ∧
      (∀ v ∈ G.nodes, (lookupS h v).isSome = true) ∧
      johnson_algorithm G = .ok
        ((rwGraph G h).nodes.map (fun s =>
          (s, (settledD (dijkstraRun (rwGraph G h).edges s)).map
            (fun q2 => (q2.1, q2.2 + hval h q2.1 - hval h s)))),
         (rwGraph G h).nodes.map (fun s =>
          (s, settledP (dijkstraRun (rwGraph G h).edges s)))) := by
  rw [johnson_algorithm]
  cases hbf : bellman_ford (buildAux G) "q" with
  | none => exact absurd ((bellman_ford_aux_iff hwf hq).mp hbf) hnc
  | some h =>
    have hdefN : ∀ v ∈ G.nodes, (lookupS h v).isSome = true := by
      intro v hv
      obtain ⟨y, hy⟩ := bf_defined hwf hq hbf hv
      rw [lookupS, hy]
      rfl
    have hdefE : ∀ e ∈ G.edges, (lookupS h e.1.1).isSome = true ∧
        (lookupS h e.1.2).isSome = true := fun e he =>
      ⟨hdefN _ (hwf.2.2 e he).1, hdefN _ (hwf.2.2 e he).2⟩
    have hre : reweightGraph G h = .ok (rwGraph G h) := reweightGraph_ok2 hdefE
    refine ⟨h, rfl, hdefN, ?_⟩
    have hdefs : ∀ p ∈ ((rwGraph G h).nodes.map (fun s =>
          (s, dijkstraRun (rwGraph G h).edges s))).map
          (fun r => (r.1, settledD r.2)),
        (lookupS h p.1).isSome = true ∧
          ∀ q2 ∈ p.2, (lookupS h q2.1).isSome = true := by
      intro p hp
      simp only [List.map_map] at hp
      obtain ⟨s2, hs2, hps⟩ := List.mem_map.mp hp
      have hs2G : s2 ∈ G.nodes := rwGraph_nodes_sub hwf h s2 hs2
      constructor
      · rw [← hps]
        exact hdefN s2 hs2G
      · intro q2 hq2
        rw [← hps] at hq2
        simp only [Function.comp] at hq2
        rw [settledD] at hq2
        obtain ⟨x, hx, hxq⟩ := List.mem_map.mp hq2
        have hkey : q2.1 = x.1 := by rw [← hxq]
        rw [hkey]
        exact hdefN x.1 (dijkstra_keys_in_nodes hwf h hs2G x.1
          (List.mem_map_of_mem _ hx))
    have hco := correctD_ok (((rwGraph G h).nodes.map (fun s =>
        (s, dijkstraRun (rwGraph G h).edges s))).map
        (fun r => (r.1, settledD r.2))) hdefs
    have hGrnn : ∀ e2 ∈ (rwGraph G h).edges, 0 ≤ e2.2 := by
      rw [rwGraph_edges h hwf.2.1]
      intro e2 he2
      obtain ⟨e, he, heq⟩ := List.mem_map.mp he2
      obtain ⟨hu, hv, hhu, hhv, hge⟩ := reweight_nonneg hwf hq hbf e he
      rw [← heq]
      show 0 ≤ e.2 + hval h e.1.1 - hval h e.1.2
      have h1 : hval h e.1.1 = hu := by
        rw [hval, lookupS, hhu]
        rfl
      have h2 : hval h e.1.2 = hv := by
        rw [hval, lookupS, hhv]
        rfl
      rw [h1, h2]
      exact hge
    simp only []
    rw [hre]
    simp only [except_bind_ok]
    rw [runsM_ok hGrnn (rwGraph G h).nodes]
    simp only [except_bind_ok]
    rw [hco]
    simp only [except_bind_ok, except_pure_bind]
    simp only [List.map_map, Function.comp_def, settledD, settledP]
    rfl

/-! ### Inverting a successful run of johnson_algorithm -/

theorem getH_ok_isSome {h : List (String × ℚ)} {v : String} {x : ℚ}
    (hg : getH h v = .ok x) : (lookupS h v).isSome = true := by
  cases hl : lookupS h v with
  | none => rw [getH, hl] at hg; exact Except.noConfusion hg
  | some y => rfl

theorem reweight_fold_inv {h : List (String × ℚ)} :
    ∀ (es : List ((String × String) × ℚ)) (H : DiGraph) {Gr : DiGraph},
      (es.foldlM (fun H e => do
          let hu ← getH h e.1.1
          let hv ← getH h e.1.2
          pure (addEdge H e.1.1 e.1.2 (e.2 + hu - hv))) H) = Except.ok Gr →
      ∀ e ∈ es, (lookupS h e.1.1).isSome = true ∧
        (lookupS h e.1.2).isSome = true := by
  intro es
  induction es with
  | nil => intro H Gr _ e he; simp at he
  | cons a t ih =>
    intro H Gr hok e he
    rw [List.foldlM_cons] at hok
    cases h1 : getH h a.1.1 with
    | error e1 =>
      rw [h1] at hok
      simp only [except_bind_err] at hok
      exact Except.noConfusion hok
    | ok hu =>
      rw [h1] at hok
      simp only [except_bind_ok] at hok
      cases h2 : getH h a.1.2 with
      | error e2 =>
        rw [h2] at hok
        simp only [except_bind_err] at hok
        exact Except.noConfusion hok
      | ok hv =>
        rw [h2] at hok
        simp only [except_bind_ok, except_pure_bind] at hok
        rcases List.mem_cons.mp he with he2 | he2
        · subst he2
          exact ⟨getH_ok_isSome h1, getH_ok_isSome h2⟩
        · exact ih _ hok e he2

theorem reweightGraph_ok_inv {G : DiGraph} {h : List (String × ℚ)}
    {Gr : DiGraph} (hok : reweightGraph G h = .ok Gr) :
    (∀ e ∈ G.edges, (lookupS h e.1.1).isSome = true ∧
      (lookupS h e.1.2).isSome = true) ∧ Gr = rwGraph G h := by
  rw [reweightGraph] at hok
  have hdef := reweight_fold_inv G.edges _ hok
  refine ⟨hdef, ?_⟩
  have h2 := reweightGraph_ok2 hdef
  rw [reweightGraph] at h2
  rw [hok] at h2
  injection h2 with h3

/-- Structure of any value johnson_algorithm returns: per-source Dijkstra
tables over the reweighted graph, distances corrected back by the
potentials. -/
theorem johnson_ok_inv {G : DiGraph} (hwf : G.WF)
    {ds2 : List (String × List (String × ℚ))}
    {ps : List (String × List (String × List String))}
    (hj : johnson_algorithm G = .ok (ds2, ps)) :
    ∃ h, bellman_ford (buildAux G) "q" = some h ∧
      (∀ v, Incident G v → (lookupS h v).isSome = true) ∧
      ds2 = (rwGraph G h).nodes.map (fun s =>
        (s, (dijkstraRun (rwGraph G h).edges s).map (fun x =>
          (x.1, x.2.1 + hval h x.1 - hval h s)))) ∧
      ps = (rwGraph G h).nodes.map (fun s =>
        (s, (dijkstraRun (rwGraph G h).edges s).map (fun x => (x.1, x.2.2)))) := by
  rw [johnson_algorithm] at hj
  revert hj
  cases hbf : bellman_ford (buildAux G) "q" with
  | none =>
    intro hj
    exact Except.noConfusion hj
  | some h =>
    intro hj
    simp only [] at hj
    cases hre2 : reweightGraph G h with
    | error e1 =>
      rw [hre2] at hj
      simp only [except_bind_err] at hj
      exact Except.noConfusion hj
    | ok Gr =>
      rw [hre2] at hj
      simp only [except_bind_ok] at hj
      obtain ⟨hdef, hGr⟩ := reweightGraph_ok_inv hre2
      subst hGr
      cases hruns : (rwGraph G h).nodes.mapM (fun s =>
          match dijkstra (rwGraph G h).edges s with
          | none => (Except.error JErr.valueError :
              Except JErr (String × List (String × ℚ × List String)))
          | some r => Except.ok (s, r)) with
      | error e2 =>
        rw [hruns] at hj
        simp only [except_bind_err] at hj
        exact Except.noConfusion hj
      | ok runs =>
      rw [hruns] at hj
      simp only [except_bind_ok] at hj
      have hruns2 := runsM_inv (rwGraph G h).nodes hruns
      subst hruns2
      have hdefI : ∀ v, Incident G v → (lookupS h v).isSome = true := by
        rintro v ⟨e, he, hv⟩
        rcases hv with hv | hv
        · rw [hv]; exact (hdef e he).1
        · rw [hv]; exact (hdef e he).2
      have hdefs : ∀ p ∈ ((rwGraph G h).nodes.map (fun s =>
            (s, dijkstraRun (rwGraph G h).edges s))).map
            (fun r => (r.1, settledD r.2)),
          (lookupS h p.1).isSome = true ∧
            ∀ q2 ∈ p.2, (lookupS h q2.1).isSome = true := by
        intro p hp
        simp only [List.map_map] at hp
        obtain ⟨s2, hs2, hps⟩ := List.mem_map.mp hp
        have hs2I : Incident G s2 := (rwGraph_nodes_iff G h s2).mp hs2
        constructor
        · rw [← hps]
          exact hdefI s2 hs2I
        · intro q2 hq2
          rw [← hps] at hq2
          simp only [Function.comp] at hq2
          rw [settledD] at hq2
          obtain ⟨x, hx, hxq⟩ := List.mem_map.mp hq2
          have hkey : q2.1 = x.1 := by rw [← hxq]
          rw [hkey]
          have h2 := (dijkstra_spec (rwGraph G h).edges s2).2.2.1 x.1
            (List.mem_map_of_mem _ hx)
          rcases List.mem_cons.mp h2 with h3 | h3
          · rw [h3]
            exact hdefI s2 hs2I
          · rw [rwGraph_edges h hwf.2.1] at h3
            simp only [List.map_map] at h3
            obtain ⟨e, he, hk2⟩ := List.mem_map.mp h3
            rw [← hk2]
            exact (hdef e he).2
      have hco := correctD_ok (((rwGraph G h).nodes.map (fun s =>
          (s, dijkstraRun (rwGraph G h).edges s))).map
          (fun r => (r.1, settledD r.2))) hdefs
      rw [hco] at hj
      simp only [except_bind_ok, except_pure_bind] at hj
      simp only [List.map_map, Function.comp_def, settledD, settledP] at hj
      have hj2 : Except.ok
          ((rwGraph G h).nodes.map (fun s =>
            (s, (dijkstraRun (rwGraph G h).edges s).map (fun x =>
              (x.1, x.2.1 + hval h x.1 - hval h s)))),
           (rwGraph G h).nodes.map (fun s =>
            (s, (dijkstraRun (rwGraph G h).edges s).map (fun x =>
              (x.1, x.2.2))))) = Except.ok (ds2, ps) := hj
      injection hj2 with hj3
      exact ⟨h, rfl, hdefI,
        (congrArg Prod.fst hj3).symm, (congrArg Prod.snd hj3).symm⟩

theorem lk2_run {β : Type} (ns : List String)
    (g : String → List (String × β)) (s t : String) :
    lk2 (ns.map (fun v => (v, g v))) s t =
      if s ∈ ns then lookupS (g s) t else none := by
  rw [lk2, lookupS, lookupK_map_key g ns s]
  by_cases hs : s ∈ ns
  · rw [if_pos hs, if_pos hs]
    rfl
  · rw [if_neg hs, if_neg hs]
    rfl

/-! ### Claim C2 -/

/-- C2: for every well-formed graph with no negative cycle, whenever
johnson_algorithm returns a result and the pair (s,t) is present in both
output dictionaries, the stored path starts at s, ends at t, and reading its
consecutive pairs as edges of the original graph with their original weights
gives exactly the stored corrected distance (exact rational arithmetic, so
the floating-point tolerance of the claim is met with tolerance zero). -/
theorem C2_path_valid (G : DiGraph) (hwf : G.WF) (hnc : ¬ NegCycle G)
    {ds2 : List (String × List (String × ℚ))}
    {ps : List (String × List (String × List String))}
    (hj : johnson_algorithm G = .ok (ds2, ps)) (s t : String)
    {l : List String} {c : ℚ}
    (hp : lk2 ps s t = some l) (hd : lk2 ds2 s t = some c) :
    l.head? = some s ∧ l.getLast? = some t ∧ pathW G.edges l = some c := by
  obtain ⟨h, -, -, hds2, hps⟩ := johnson_ok_inv hwf hj
  rw [hps] at hp
  rw [hds2] at hd
  rw [lk2_run] at hp hd
  by_cases hs : s ∈ (rwGraph G h).nodes
  case neg =>
    rw [if_neg hs] at hp
    exact Option.noConfusion hp
  rw [if_pos hs] at hp hd
  rw [lookupS,
    lookupK_map_val (fun _ (v : ℚ × List String) => v.2)] at hp
  rw [lookupS,
    lookupK_map_val (fun k (v : ℚ × List String) =>
      v.1 + hval h k - hval h s)] at hd
  cases hrun : lookupK (dijkstraRun (rwGraph G h).edges s) t with
  | none =>
    rw [hrun] at hp
    exact Option.noConfusion hp
  | some v =>
    rw [hrun] at hp hd
    simp only [Option.map_some'] at hp hd
    injection hp with hl2
    injection hd with hc2
    have hmem : (t, v) ∈ dijkstraRun (rwGraph G h).edges s := lookupK_mem hrun
    have hok := dijkstra_EOK (rwGraph_WF G h).2.1 s (t, v) hmem
    have htele := pathW_tele (fun a b => by
        rw [rwGraph_edges h hwf.2.1]
        exact lookupE_rw a b) hok.2.2 hok.1 hok.2.1
    rw [← hl2]
    refine ⟨hok.1, hok.2.1, ?_⟩
    rw [htele, ← hc2]
    exact congrArg some (by ring)

/-- C2 witness: the claim applied to the two-vertex graph with one edge of
weight 2, at the pair (a,b). -/
theorem C2_witness :
    (["a", "b"] : List String).head? = some "a" ∧
      (["a", "b"] : List String).getLast? = some "b" ∧
      pathW G1ex.edges ["a", "b"] = some 2 :=
  C2_path_valid G1ex (by decide) (noNegCycle_single (by decide))
    (by with_unfolding_all rfl) "a" "b"
    (by with_unfolding_all rfl) (by with_unfolding_all rfl)

/-! ### Claim C5 -/

/-- C5 counterexample: the graph with one isolated vertex A has no negative
cycle, A reaches itself, yet johnson_algorithm returns empty dictionaries
because the reweighted graph is built from edges only, so the pair (A,A) is
absent and the claimed if-and-only-if domain fails. -/
theorem C5_cex :
    johnson_algorithm GAex = .ok ([], []) ∧
      "A" ∈ GAex.nodes ∧ Reaches GAex.edges "A" "A" ∧
      lk2 ([] : List (String × List (String × ℚ))) "A" "A" = none :=
  ⟨by with_unfolding_all rfl, by decide, ⟨["A"], 0, WalkL.nil "A"⟩, rfl⟩

/-- C5 amended: for every well-formed graph with no vertex named q and no
negative cycle, johnson_algorithm succeeds and its distances contain an entry
for (s,t) exactly when s is an endpoint of at least one edge and t is
reachable from s; for every such incident s the diagonal entry is present
with distance 0 and path [s]. Isolated vertices are dropped entirely, so the
claimed domain over all original vertices must be restricted to incident
ones. -/
theorem C5_domain_amended (G : DiGraph) (hwf : G.WF) (hq : "q" ∉ G.nodes)
    (hnc : ¬ NegCycle G) :
    ∃ ds2 ps, johnson_algorithm G = .ok (ds2, ps) ∧
      (∀ s t : String, (lk2 ds2 s t).isSome = true ↔
        Incident G s ∧ Reaches G.edges s t) ∧
      (∀ s : String, Incident G s →
        lk2 ps s s = some [s] ∧ lk2 ds2 s s = some 0) := by
  obtain ⟨h, hbf, hdefN, hj⟩ := johnson_ok hwf hq hnc
  refine ⟨_, _, hj, ?_, ?_⟩
  · intro s t
    rw [lk2_run]
    by_cases hs : s ∈ (rwGraph G h).nodes
    case neg =>
      rw [if_neg hs]
      constructor
      · intro h2
        exact absurd h2 (by simp)
      · rintro ⟨hi, -⟩
        exact absurd ((rwGraph_nodes_iff G h s).mpr hi) hs
    rw [if_pos hs]
    rw [lookupS, settledD]
    simp only [List.map_map, Function.comp_def]
    rw [lookupK_map_val (fun k (v : ℚ × List String) =>
      v.1 + hval h k - hval h s)]
    constructor
    · intro hsome
      refine ⟨(rwGraph_nodes_iff G h s).mp hs, ?_⟩
      have ht : (lookupK (dijkstraRun (rwGraph G h).edges s) t).isSome = true := by
        cases hrun : lookupK (dijkstraRun (rwGraph G h).edges s) t with
        | none => rw [hrun] at hsome; simp at hsome
        | some v => rfl
      have hr := dijkstra_sound (rwGraph_WF G h).2.1 (lookupK_isSome_iff.mp ht)
      exact (reaches_map (rwGraph_edges h hwf.2.1) s t).mp hr
    · rintro ⟨hi, hr⟩
      have hr2 := (reaches_map (rwGraph_edges h hwf.2.1) s t).mpr hr
      have ht2 := lookupK_isSome_iff.mpr (dijkstra_complete hr2)
      cases hrun : lookupK (dijkstraRun (rwGraph G h).edges s) t with
      | none => rw [hrun] at ht2; simp at ht2
      | some v => rfl
  · intro s hi
    have hs : s ∈ (rwGraph G h).nodes := (rwGraph_nodes_iff G h s).mpr hi
    obtain ⟨s2, hrun⟩ := dijkstra_self (rwGraph G h).edges s
    constructor
    · rw [lk2_run, if_pos hs, hrun]
      simp [settledP, lookupS, lookupK]
    · rw [lk2_run, if_pos hs, hrun]
      simp [settledD, lookupS, lookupK]

/-- C5 witness: the amended claim at the two-vertex one-edge graph. -/
theorem C5_witness :
    ∃ ds2 ps, johnson_algorithm G1ex = .ok (ds2, ps) ∧
      (∀ s t : String, (lk2 ds2 s t).isSome = true ↔
        Incident G1ex s ∧ Reaches G1ex.edges s t) ∧
      (∀ s : String, Incident G1ex s →
        lk2 ps s s = some [s] ∧ lk2 ds2 s s = some 0) :=
  C5_domain_amended G1ex (by decide) (by decide) (noNegCycle_single (by decide))

/-! ### Claim C1 -/

theorem walk_nonneg {es : List ((String × String) × ℚ)}
    (hnn : ∀ e ∈ es, 0 ≤ e.2) {a b : String} {vs : List String} {c : ℚ}
    (hw : WalkL es a b vs c) : 0 ≤ c := by
  induction hw with
  | nil v => exact le_refl 0
  | cons hm hw2 ih => exact add_nonneg (hnn _ hm) ih

theorem noNegCycle_of_nonneg {G : DiGraph} (hnn : ∀ e ∈ G.edges, 0 ≤ e.2) :
    ¬ NegCycle G := by
  rintro ⟨v, vs, c, hw, hc⟩
  exact absurd (walk_nonneg hnn hw) (not_le.mpr hc)

theorem relaxEdge_nonneg {d : List (String × ℚ)}
    {e : (String × String) × ℚ} (hd : NonNegD d) (he : 0 ≤ e.2) :
    NonNegD (relaxEdge d e) := by
  intro x v hx
  cases h1 : lookupS d e.1.1 with
  | none =>
    simp only [relaxEdge, h1] at hx
    exact hd x v hx
  | some du =>
    have hdu : 0 ≤ du := hd e.1.1 du h1
    cases h2 : lookupS d e.1.2 with
    | none =>
      simp only [relaxEdge, h1, h2] at hx
      cases h3 : lookupK d x with
      | some v0 =>
        rw [lookupK_append_some _ h3] at hx
        injection hx with h4
        rw [← h4]
        exact hd x v0 h3
      | none =>
        rw [lookupK_append_none _ h3] at hx
        rw [lookupK] at hx
        by_cases h4 : e.1.2 = x
        · rw [if_pos h4] at hx
          injection hx with h5
          rw [← h5]
          exact add_nonneg hdu he
        · rw [if_neg h4] at hx
          exact Option.noConfusion hx
    | some dv =>
      simp only [relaxEdge, h1, h2] at hx
      by_cases h3 : du + e.2 < dv
      · rw [if_pos h3] at hx
        rw [lookupK_mapAtK] at hx
        by_cases h4 : x = e.1.2
        · rw [if_pos h4] at hx
          rw [lookupS] at h2
          rw [h2] at hx
          simp only [Option.map_some'] at hx
          injection hx with hv
          rw [← hv]
          exact add_nonneg hdu he
        · rw [if_neg h4] at hx
          exact hd x v hx
      · rw [if_neg h3] at hx
        exact hd x v hx

theorem bfRound_nonneg {es : List ((String × String) × ℚ)}
    (hes : ∀ e ∈ es, 0 ≤ e.2) {d : List (String × ℚ)} (hd : NonNegD d) :
    NonNegD (bfRound es d) :=
  foldl_inv NonNegD (fun d2 e he hd2 => relaxEdge_nonneg hd2 (hes e he)) hd

theorem bfIter_nonneg {es : List ((String × String) × ℚ)}
    (hes : ∀ e ∈ es, 0 ≤ e.2) :
    ∀ (k : ℕ) {d : List (String × ℚ)}, NonNegD d → NonNegD (bfIter es d k) := by
  intro k
  induction k with
  | zero => intro d hd; exact hd
  | succ k ih => intro d hd; exact ih (bfRound_nonneg hes hd)

theorem bf_zero {G : DiGraph} (hwf : G.WF) (hq : "q" ∉ G.nodes)
    (hnn : ∀ e ∈ G.edges, 0 ≤ e.2) {h : List (String × ℚ)}
    (hbf : bellman_ford (buildAux G) "q" = some h) :
    ∀ v ∈ G.nodes, lookupS h v = some 0 := by
  intro v hv
  obtain ⟨-, hh⟩ := bellman_ford_some_elim hbf
  subst hh
  have hauxnn : ∀ e ∈ (buildAux G).edges, 0 ≤ e.2 := buildAux_nonneg hnn
  have hinit : NonNegD [("q", (0 : ℚ))] := by
    intro x y hx
    rw [lookupK] at hx
    by_cases h2 : "q" = x
    · rw [if_pos h2] at hx
      injection hx with h3
      rw [← h3]
    · rw [if_neg h2] at hx
      exact Option.noConfusion hx
  have hGlen : 1 ≤ G.nodes.length := by
    cases hh2 : G.nodes with
    | nil => rw [hh2] at hv; simp at hv
    | cons a t => simp [hh2]
  have hauxlen : (buildAux G).nodes.length = G.nodes.length + 1 := by
    rw [(buildAux_spec hwf hq).1]
    simp
  have hrounds : (buildAux G).nodes.length - 1 = (G.nodes.length - 1) + 1 := by
    omega
  rw [hrounds, bfIter]
  have hnneg : NonNegD (bfIter (buildAux G).edges
      (bfRound (buildAux G).edges [("q", 0)]) (G.nodes.length - 1)) :=
    bfIter_nonneg hauxnn _ (bfRound_nonneg hauxnn hinit)
  obtain ⟨y1, hy1, hle1⟩ := bfRound_le (lookupK_mem (buildAux_zero hv))
    (show lookupK [(("q" : String), (0 : ℚ))] "q" = some 0 by simp [lookupK])
  obtain ⟨y2, hy2, hle2⟩ :=
    bfIter_DLe (buildAux G).edges (G.nodes.length - 1)
      (bfRound (buildAux G).edges [("q", 0)]) v y1 hy1
  have h0 : 0 ≤ y2 := hnneg v y2 hy2
  have hle : y2 ≤ 0 := le_trans hle2 (by linarith)
  rw [lookupS, hy2]
  exact congrArg some (le_antisymm hle h0)

/-- C1 counterexample: on the graph with a single isolated vertex and no
edges (all weights trivially non-negative) the oracle of the claim keeps the
entry (A,A) with distance 0, while johnson_algorithm returns empty
dictionaries, so the two distance maps differ in key domain. -/
theorem C1_cex :
    (∀ e ∈ GAex.edges, 0 ≤ e.2) ∧
      johnson_algorithm GAex = .ok ([], []) ∧
      lk2 (dijkstraAllD GAex) "A" "A" = some 0 ∧
      lk2 ([] : List (String × List (String × ℚ))) "A" "A" = none :=
  ⟨by simp [GAex], by with_unfolding_all rfl, by with_unfolding_all rfl, rfl⟩

/-- C1 amended: for every well-formed graph with no vertex named q and only
non-negative edge weights, the per-source library Dijkstra on the original
graph never raises (so the total oracle is exactly its value),
johnson_algorithm succeeds, and its distance map agrees with that oracle on
every source that is an endpoint of at least one edge (the isolated sources
that the oracle keeps are missing from the output of johnson_algorithm). -/
theorem C1_oracle_amended (G : DiGraph) (hwf : G.WF) (hq : "q" ∉ G.nodes)
    (hnn : ∀ e ∈ G.edges, 0 ≤ e.2) :
    (∀ s : String, dijkstra G.edges s = some (dijkstraRun G.edges s)) ∧
    ∃ ds2 ps, johnson_algorithm G = .ok (ds2, ps) ∧
      ∀ s t : String, Incident G s →
        lk2 ds2 s t = lk2 (dijkstraAllD G) s t := by
  refine ⟨fun s => dijkstra_some hnn s, ?_⟩
  have hnc := noNegCycle_of_nonneg hnn
  obtain ⟨h, hbf, hdefN, hj⟩ := johnson_ok hwf hq hnc
  have hzero := bf_zero hwf hq hnn hbf
  have hedges : (rwGraph G h).edges = G.edges := by
    rw [rwGraph_edges h hwf.2.1]
    have hcongr : ∀ e ∈ G.edges,
        (e.1, e.2 + hval h e.1.1 - hval h e.1.2) = e := by
      intro e he
      have h1 : hval h e.1.1 = 0 := by
        rw [hval, hzero _ (hwf.2.2 e he).1]
        rfl
      have h2 : hval h e.1.2 = 0 := by
        rw [hval, hzero _ (hwf.2.2 e he).2]
        rfl
      rw [h1, h2]
      simp
    rw [List.map_congr_left hcongr]
    simp
  refine ⟨_, _, hj, ?_⟩
  intro s t hi
  have hsG : s ∈ G.nodes := by
    obtain ⟨e, he, h2⟩ := hi
    rcases h2 with h2 | h2
    · rw [h2]; exact (hwf.2.2 e he).1
    · rw [h2]; exact (hwf.2.2 e he).2
  have hsGr : s ∈ (rwGraph G h).nodes := (rwGraph_nodes_iff G h s).mpr hi
  rw [lk2_run, if_pos hsGr]
  rw [dijkstraAllD, lk2_run, if_pos hsG]
  rw [hedges]
  have hcorr : ∀ q2 ∈ settledD (dijkstraRun G.edges s),
      (q2.1, q2.2 + hval h q2.1 - hval h s) = q2 := by
    intro q2 hq2
    have hq2n : q2.1 ∈ G.nodes := by
      rw [settledD] at hq2
      obtain ⟨x, hx, hxq⟩ := List.mem_map.mp hq2
      have h2 := (dijkstra_spec G.edges s).2.2.1 x.1
        (List.mem_map_of_mem _ hx)
      rw [← hxq]
      show x.1 ∈ G.nodes
      rcases List.mem_cons.mp h2 with h3 | h3
      · rw [h3]; exact hsG
      · obtain ⟨e, he, hk⟩ := List.mem_map.mp h3
        rw [← hk]
        exact (hwf.2.2 e he).2
    have hz1 : hval h q2.1 = 0 := by
      rw [hval, hzero _ hq2n]
      rfl
    have hz2 : hval h s = 0 := by
      rw [hval, hzero _ hsG]
      rfl
    rw [hz1, hz2]
    simp
  rw [List.map_congr_left hcorr]
  simp

/-- C1 witness: the amended claim at the two-vertex one-edge graph with
non-negative weight. -/
theorem C1_witness :
    (∀ s : String, dijkstra G1ex.edges s = some (dijkstraRun G1ex.edges s)) ∧
    ∃ ds2 ps, johnson_algorithm G1ex = .ok (ds2, ps) ∧
      ∀ s t : String, Incident G1ex s →
        lk2 ds2 s t = lk2 (dijkstraAllD G1ex) s t :=
  C1_oracle_amended G1ex (by decide) (by decide)
    (by with_unfolding_all decide)

/-- C4 witness: the amended claim at a single negative edge. -/
theorem C4_witness :
    ∃ h, bellman_ford (buildAux GMex) "q" = some h ∧
      ∀ e ∈ GMex.edges, ∃ hu hv, lookupK h e.1.1 = some hu ∧
        lookupK h e.1.2 = some hv ∧ 0 ≤ e.2 + hu - hv :=
  C4_reweight_nonneg_amended GMex (by decide) (by decide)
    ⟨(("a", "b"), -3), List.mem_cons_self _ _, by norm_num⟩
    (noNegCycle_of_bf_some (by decide) (by decide)
      (show bellman_ford (buildAux GMex) "q" =
          some [("q", 0), ("a", 0), ("b", -3)] by with_unfolding_all rfl))

end AirlineNet
